import Mathlib

/-!
Verification of the safetensors-parser library (TypeScript, `src/index.ts`).

The embedding translates the source into Lean:
* JS strings are lists of Unicode scalar values (`Str := List Nat`); the
  TypeScript code never manufactures lone surrogates, and every string the
  claims touch is well-formed Unicode.
* `Uint8Array` is `List Nat` (byte values `< 256` where it matters).
* JS numbers are modelled exactly: integers as `Nat`/`Int`, the fractional
  byte sizes of `formatLength` as `Rat`.  32-bit coercions (`| 0`, `&`, `>>`)
  are modelled explicitly via `toUInt32`/`toInt32`/`and32`; plain `+`/`*` on
  JS numbers is exact below `2 ^ 53`, and the theorems that need exactness
  carry the corresponding bounds as hypotheses.
* Thrown exceptions become `Except JErr`, where `JErr.ignorable` corresponds
  to `IgnorableError` and `JErr.fatal` to every other thrown `Error`.
-/

/-- JS string: a list of Unicode scalar values. -/
abbrev Str := List Nat

/-- Convert a Lean string literal to its scalar-value list. -/
def strOf (s : String) : Str := s.data.map Char.toNat

/-- A scalar value: a Unicode code point that is not a surrogate. -/
def IsScalar (n : Nat) : Prop := n < 0xD800 ∨ (0xE000 ≤ n ∧ n < 0x110000)

instance (n : Nat) : Decidable (IsScalar n) := by unfold IsScalar; infer_instance

/-- Every scalar value of a string. -/
def ScalarStr (s : Str) : Prop := ∀ c ∈ s, IsScalar c

instance (s : Str) : Decidable (ScalarStr s) := by unfold ScalarStr; exact List.decidableBAll _ s

/-- Error kinds thrown by the library: `IgnorableError` versus plain `Error`
(which also stands for the `TypeError`s raised by `Object.entries(null)`). -/
inductive JErr where
  | fatal
  | ignorable
deriving DecidableEq, Repr

instance {α : Type} [DecidableEq α] : DecidableEq (Except JErr α) := fun a b =>
  match a, b with
  | .ok x, .ok y => if h : x = y then .isTrue (by rw [h]) else .isFalse (by simp [h])
  | .error x, .error y => if h : x = y then .isTrue (by rw [h]) else .isFalse (by simp [h])
  | .ok _, .error _ => .isFalse (by simp)
  | .error _, .ok _ => .isFalse (by simp)

/-! ## Association-list helpers (JS `Map` and plain-object backing) -/

/-- Lookup in an insertion-ordered association list (JS `Map.get`,
`Object` property read restricted to own properties). -/
def alookup {α : Type} (k : Str) : List (Str × α) → Option α
  | [] => none
  | (k', v) :: t => if k' = k then some v else alookup k t

/-- JS `Map.set`: replace the value in place if the key exists, else append. -/
def msetEntry {α : Type} (k : Str) (v : α) : List (Str × α) → List (Str × α)
  | [] => [(k, v)]
  | (k', v') :: t => if k' = k then (k, v) :: t else (k', v') :: msetEntry k v t

/-- JS `Map.delete` / `delete obj[k]`: remove the entry with the given key. -/
def mdelEntry {α : Type} (k : Str) : List (Str × α) → List (Str × α)
  | [] => []
  | (k', v') :: t => if k' = k then t else (k', v') :: mdelEntry k t

/-! ## 32-bit JavaScript integer coercions -/

/-- The 32-bit pattern of a JS number that is an integer (`ToUint32`). -/
def toUInt32 (i : Int) : Nat := (i % (2 ^ 32 : Int)).toNat

/-- Reinterpret a 32-bit pattern as a signed two's-complement value. -/
def int32OfPat (p : Nat) : Int := if p < 2 ^ 31 then (p : Int) else (p : Int) - 2 ^ 32

/-- JS `| 0` (`ToInt32`). -/
def toInt32 (i : Int) : Int := int32OfPat (toUInt32 i)

/-- JS bitwise `&` on integral numbers. -/
def and32 (a b : Int) : Int := int32OfPat (toUInt32 a &&& toUInt32 b)

/-! ## JS `slice` on byte arrays

`Uint8Array.prototype.slice(start, end)`: negative indices count from the
end, and both indices are clamped to `[0, length]`. -/

/-- Resolve a relative JS slice index against a length. -/
def jsSliceIndex (len : Nat) (i : Int) : Nat :=
  if i < 0 then min (i + len).toNat len else min i.toNat len

/-- JS `bytes.slice(s, e)`. -/
def jsSlice (l : List Nat) (s e : Int) : List Nat :=
  let a := jsSliceIndex l.length s
  let b := jsSliceIndex l.length e
  (l.take b).drop a

/-! ## JS plain-object own-property order

Own string keys enumerate array-index keys first (canonical decimal strings
with numeric value `< 2 ^ 32 - 1`) in ascending numeric order, then the other
keys in insertion order.  The model keeps every property list in this order
at all times by inserting new properties at their enumeration position, which
yields the same observable behaviour as reordering on read. -/

/-- Decimal digit test on a code point. -/
def isDigitCp (c : Nat) : Bool := 48 ≤ c && c ≤ 57

/-- Numeric value of a digit string (0 on empty; callers guard). -/
def digitsVal (s : Str) : Nat := s.foldl (fun a c => a * 10 + (c - 48)) 0

/-- Is `s` a canonical array-index property key: a nonempty canonical decimal
string (no sign, no leading zero except `"0"` itself) with value `< 2^32 - 1`. -/
def isArrayIndexKey (s : Str) : Bool :=
  match s with
  | [] => false
  | c :: t =>
    (s.all isDigitCp) && (c ≠ 48 || t = []) && digitsVal s < 2 ^ 32 - 1

/-- Insert a property at its JS own-key enumeration position: replace in
place if present; otherwise array-index keys go before every larger index key
and before all non-index keys, and other keys are appended at the end. -/
def jsPropInsert {α : Type} (k : Str) (v : α) (l : List (Str × α)) : List (Str × α) :=
  if (alookup k l).isSome then msetEntry k v l
  else if isArrayIndexKey k then insertIdx l
  else l ++ [(k, v)]
where
  insertIdx : List (Str × α) → List (Str × α)
    | [] => [(k, v)]
    | (k', v') :: t =>
      if isArrayIndexKey k' && digitsVal k' < digitsVal k
      then (k', v') :: insertIdx t
      else (k, v) :: (k', v') :: t

/-- Property creation by plain assignment (`obj[k] = v`).  Assigning to the
key `"__proto__"` hits the `Object.prototype.__proto__` accessor and, for a
non-object value or a plain data object, does not create an own property, so
it is dropped. -/
def jsAssign {α : Type} (l : List (Str × α)) (k : Str) (v : α) : List (Str × α) :=
  if k = strOf "__proto__" then l else jsPropInsert k v l

/-- Property creation via `CreateDataProperty` (used by `JSON.parse`), which
does create an own `"__proto__"` property. -/
def jsDefine {α : Type} (l : List (Str × α)) (k : Str) (v : α) : List (Str × α) :=
  jsPropInsert k v l

/-! ## UTF-8 (`TextEncoder` / `TextDecoder`) -/

/-- UTF-8 encoding of one code point.  `TextEncoder` emits the replacement
character for lone surrogates. -/
def utf8EncodeChar (c : Nat) : List Nat :=
  if 0xD800 ≤ c ∧ c < 0xE000 then [0xEF, 0xBF, 0xBD]
  else if c < 0x80 then [c]
  else if c < 0x800 then [0xC0 + c / 64, 0x80 + c % 64]
  else if c < 0x10000 then [0xE0 + c / 4096, 0x80 + c / 64 % 64, 0x80 + c % 64]
  else [0xF0 + c / 262144, 0x80 + c / 4096 % 64, 0x80 + c / 64 % 64, 0x80 + c % 64]

/-- UTF-8 encoding of a string (`new TextEncoder().encode(s)`). -/
def utf8Encode : Str → List Nat
  | [] => []
  | c :: t => utf8EncodeChar c ++ utf8Encode t

/-- Continuation-byte test. -/
def isCont (b : Nat) : Bool := 0x80 ≤ b && b ≤ 0xBF

/-- Lossy UTF-8 decoding (`new TextDecoder().decode(bytes)`, default
non-fatal mode): well-formed sequences decode to their code point, malformed
bytes become U+FFFD.  On a malformed sequence this model resynchronises one
byte at a time, which can differ from WHATWG's maximal-subpart rule in the
number of replacement characters; no theorem depends on malformed input. -/
def utf8DecodeAux : Nat → List Nat → Str
  | 0, _ => []
  | _ + 1, [] => []
  | f + 1, b :: rest =>
    if b < 0x80 then b :: utf8DecodeAux f rest
    else
      match rest with
      | [] => [0xFFFD]
      | b1 :: r1 =>
        if 0xC2 ≤ b ∧ b ≤ 0xDF then
          if isCont b1 then ((b - 0xC0) * 64 + (b1 - 0x80)) :: utf8DecodeAux (f - 1) r1
          else 0xFFFD :: utf8DecodeAux f (b1 :: r1)
        else
          match r1 with
          | [] => 0xFFFD :: utf8DecodeAux f [b1]
          | b2 :: r2 =>
            if 0xE0 ≤ b ∧ b ≤ 0xEF then
              if (if b = 0xE0 then 0xA0 ≤ b1 && b1 ≤ 0xBF
                  else if b = 0xED then 0x80 ≤ b1 && b1 ≤ 0x9F
                  else isCont b1) && isCont b2 then
                ((b - 0xE0) * 4096 + (b1 - 0x80) * 64 + (b2 - 0x80)) :: utf8DecodeAux (f - 2) r2
              else 0xFFFD :: utf8DecodeAux f (b1 :: b2 :: r2)
            else
              match r2 with
              | [] => 0xFFFD :: utf8DecodeAux f [b1, b2]
              | b3 :: r3 =>
                if 0xF0 ≤ b ∧ b ≤ 0xF4 then
                  if (if b = 0xF0 then 0x90 ≤ b1 && b1 ≤ 0xBF
                      else if b = 0xF4 then 0x80 ≤ b1 && b1 ≤ 0x8F
                      else isCont b1) && isCont b2 && isCont b3 then
                    ((b - 0xF0) * 262144 + (b1 - 0x80) * 4096 + (b2 - 0x80) * 64 + (b3 - 0x80))
                      :: utf8DecodeAux (f - 3) r3
                  else 0xFFFD :: utf8DecodeAux f (b1 :: b2 :: b3 :: r3)
                else 0xFFFD :: utf8DecodeAux f (b1 :: b2 :: b3 :: r3)

/-- Lossy UTF-8 decoding entry point. -/
def utf8Decode (l : List Nat) : Str := utf8DecodeAux l.length l

/-! ## JSON values

JSON values produced by `JSON.parse` and consumed by `JSON.stringify`.
Arrays and objects are encoded in spine form (`arrCons`/`objCons`) so that
every function over them is plain structural recursion, which the kernel can
evaluate.  A property list is kept in JS own-key enumeration order at all
times (see `jsPropInsert`). -/
inductive Json where
  | str (s : Str)
  | num (q : ℚ)
  | jbool (b : Bool)
  | null
  | arrNil
  | arrCons (head : Json) (tail : Json)
  | objNil
  | objCons (key : Str) (val : Json) (tail : Json)
deriving DecidableEq, Repr

/-- Build an array spine from a list. -/
def arrOfList : List Json → Json
  | [] => .arrNil
  | x :: t => .arrCons x (arrOfList t)

/-- Build an object spine from a property list. -/
def objOfList : List (Str × Json) → Json
  | [] => .objNil
  | (k, v) :: t => .objCons k v (objOfList t)

/-- Elements of an array spine (ill-formed tails end the list). -/
def arrElemsList : Json → List Json
  | .arrCons x t => x :: arrElemsList t
  | _ => []

/-- Properties of an object spine (ill-formed tails end the list). -/
def objPropsList : Json → List (Str × Json)
  | .objCons k v t => (k, v) :: objPropsList t
  | _ => []

/-- Is the value an object (`typeof v === "object" && v !== null` together
with `!Array.isArray(v)` is not needed separately by the source). -/
def Json.isObj : Json → Bool
  | .objNil => true
  | .objCons _ _ _ => true
  | _ => false

/-- `Array.isArray`. -/
def Json.isArr : Json → Bool
  | .arrNil => true
  | .arrCons _ _ => true
  | _ => false

/-- `typeof v === "string"`. -/
def Json.isStr : Json → Bool
  | .str _ => true
  | _ => false

/-- `typeof v === "number"`. -/
def Json.isNum : Json → Bool
  | .num _ => true
  | _ => false

/-- String payload (callers only use it after a `typeof` check). -/
def Json.asStr : Json → Str
  | .str s => s
  | _ => []

/-! ## JSON number printing (`JSON.stringify` on numbers)

JS prints numbers via the shortest-round-trip double algorithm.  The model
prints integers exactly, and non-integral rationals whose denominator divides
a power of ten (every JS double is of this form) as exact plain decimals.
The exponent forms JS uses for magnitudes `≥ 1e21` or `< 1e-6`, and values
with other denominators (unreachable from JS doubles), are not modelled; no
theorem serializes such numbers. -/

/-- Decimal digits of a natural number (fuel-based so the kernel reduces). -/
def natToDecAux : Nat → Nat → List Nat
  | 0, _ => []
  | f + 1, n => if n < 10 then [48 + n] else natToDecAux f (n / 10) ++ [48 + n % 10]

/-- Decimal digit string of a natural number. -/
def natToDec (n : Nat) : List Nat := natToDecAux (n + 1) n

/-- Decimal string of an integer. -/
def intToDec (i : Int) : List Nat :=
  if i < 0 then 45 :: natToDec i.natAbs else natToDec i.natAbs

/-- Smallest `k ≤ 1100` with `d ∣ 10 ^ k` (every double's denominator is a
power of two `≤ 2 ^ 1074`, so `k` exists for JS-reachable values). -/
def pow10Exp (d : Nat) : Option Nat := (List.range 1100).find? (fun k => decide (d ∣ 10 ^ k))

/-- Print a rational as JS prints the corresponding double. -/
def numToText (q : ℚ) : List Nat :=
  if q.den = 1 then intToDec q.num
  else
    match pow10Exp q.den with
    | some k =>
      let scaled := q.num.natAbs * (10 ^ k / q.den)
      let ip := scaled / 10 ^ k
      let fp := natToDec (scaled % 10 ^ k)
      let fpad := List.replicate (k - fp.length) 48 ++ fp
      (if q.num < 0 then [45] else []) ++ natToDec ip ++ 46 :: fpad
    | none => strOf "null"

/-! ## JSON string quoting (`QuoteJSONString`) -/

/-- Lowercase hex digit. -/
def hexDigit (n : Nat) : Nat := if n < 10 then 48 + n else 87 + n

/-- Escape one code point as `JSON.stringify` does.  Lone surrogates (which
JS escapes as `\uXXXX`) cannot occur in a scalar-value string. -/
def quoteChar (c : Nat) : List Nat :=
  if c = 34 then [92, 34]
  else if c = 92 then [92, 92]
  else if c = 8 then [92, 98]
  else if c = 9 then [92, 116]
  else if c = 10 then [92, 110]
  else if c = 12 then [92, 102]
  else if c = 13 then [92, 114]
  else if c < 32 then [92, 117, 48, 48, hexDigit (c / 16), hexDigit (c % 16)]
  else [c]

/-- Escaped body of a string literal. -/
def quoteBody : Str → List Nat
  | [] => []
  | c :: t => quoteChar c ++ quoteBody t

/-- Full string literal with quotes. -/
def quoteStr (s : Str) : List Nat := 34 :: quoteBody s ++ [34]

/-! ## `JSON.stringify` -/

/-- Serializer.  `tail = false` serializes a value; `tail = true` serializes
the continuation of an array or object spine (`,` separated, closed by `]`
or `}`).  Property lists are serialized in stored order, which the model
keeps equal to JS own-key enumeration order. -/
def stringifyAux : Bool → Json → List Nat
  | false, .str s => quoteStr s
  | false, .num q => numToText q
  | false, .jbool true => strOf "true"
  | false, .jbool false => strOf "false"
  | false, .null => strOf "null"
  | false, .arrNil => [91, 93]
  | false, .arrCons x t => 91 :: (stringifyAux false x ++ stringifyAux true t)
  | false, .objNil => [123, 125]
  | false, .objCons k v t => 123 :: (quoteStr k ++ 58 :: (stringifyAux false v ++ stringifyAux true t))
  | true, .arrNil => [93]
  | true, .arrCons x t => 44 :: (stringifyAux false x ++ stringifyAux true t)
  | true, .objNil => [125]
  | true, .objCons k v t => 44 :: (quoteStr k ++ 58 :: (stringifyAux false v ++ stringifyAux true t))
  | true, _ => []

/-- `JSON.stringify(v)` as a code-point string. -/
def jsonStringify (v : Json) : List Nat := stringifyAux false v

/-! ## `JSON.parse` -/

/-- JSON whitespace. -/
def isJsonWs (c : Nat) : Bool := c = 32 || c = 9 || c = 10 || c = 13

/-- Skip JSON whitespace. -/
def skipWs (s : List Nat) : List Nat := s.dropWhile isJsonWs

/-- Hex digit value. -/
def hexVal (c : Nat) : Option Nat :=
  if 48 ≤ c ∧ c ≤ 57 then some (c - 48)
  else if 97 ≤ c ∧ c ≤ 102 then some (c - 87)
  else if 65 ≤ c ∧ c ≤ 70 then some (c - 55)
  else none

/-- Four hex digits. -/
def hex4 (a b c d : Nat) : Option Nat := do
  let x ← hexVal a; let y ← hexVal b; let z ← hexVal c; let w ← hexVal d
  pure (x * 4096 + y * 256 + z * 16 + w)

/-- Parse a JSON string body (after the opening quote) from code points.
Fuel decreases by exactly the number of code points consumed.  Escaped
surrogate pairs combine into one code point; a lone escaped surrogate (a JS
string that is not well-formed Unicode) becomes U+FFFD in the model. -/
def parseStringBody : Nat → List Nat → Option (Str × List Nat)
  | 0, _ => none
  | _ + 1, [] => none
  | f + 1, c :: rest =>
    if c = 34 then some ([], rest)
    else if c = 92 then
      match rest with
      | [] => none
      | e :: r2 =>
        if e = 117 then
          match r2 with
          | h1 :: h2 :: h3 :: h4 :: r6 =>
            match hex4 h1 h2 h3 h4 with
            | none => none
            | some u =>
              if 0xD800 ≤ u ∧ u < 0xDC00 then
                match r6 with
                | 92 :: 117 :: g1 :: g2 :: g3 :: g4 :: r12 =>
                  match hex4 g1 g2 g3 g4 with
                  | some u2 =>
                    if 0xDC00 ≤ u2 ∧ u2 < 0xE000 then
                      match parseStringBody (f - 11) r12 with
                      | some (s, r) => some ((0x10000 + (u - 0xD800) * 1024 + (u2 - 0xDC00)) :: s, r)
                      | none => none
                    else
                      match parseStringBody (f - 5) (92 :: 117 :: g1 :: g2 :: g3 :: g4 :: r12) with
                      | some (s, r) => some (0xFFFD :: s, r)
                      | none => none
                  | none =>
                    match parseStringBody (f - 5) (92 :: 117 :: g1 :: g2 :: g3 :: g4 :: r12) with
                    | some (s, r) => some (0xFFFD :: s, r)
                    | none => none
                | _ =>
                  match parseStringBody (f - 5) r6 with
                  | some (s, r) => some (0xFFFD :: s, r)
                  | none => none
              else if 0xDC00 ≤ u ∧ u < 0xE000 then
                match parseStringBody (f - 5) r6 with
                | some (s, r) => some (0xFFFD :: s, r)
                | none => none
              else
                match parseStringBody (f - 5) r6 with
                | some (s, r) => some (u :: s, r)
                | none => none
          | _ => none
        else
          match
            (if e = 34 then some 34 else if e = 92 then some 92 else if e = 47 then some 47
             else if e = 98 then some 8 else if e = 102 then some 12 else if e = 110 then some 10
             else if e = 114 then some 13 else if e = 116 then some 9 else none) with
          | some d =>
            match parseStringBody (f - 1) r2 with
            | some (s, r) => some (d :: s, r)
            | none => none
          | none => none
    else if c < 32 then none
    else
      match parseStringBody f rest with
      | some (s, r) => some (c :: s, r)
      | none => none

/-- Parse the optional exponent part of a JSON number literal; returns the
signed exponent and the remaining input (exponent `0` when no `e`/`E`
follows). -/
def parseNumExp (s : List Nat) : Option (ℤ × List Nat) :=
  if s.head? = some 101 ∨ s.head? = some 69 then
    match s with
    | _ :: 45 :: t =>
      let eds := t.takeWhile isDigitCp
      if eds = [] then none else some (-(digitsVal eds : ℤ), t.dropWhile isDigitCp)
    | _ :: 43 :: t =>
      let eds := t.takeWhile isDigitCp
      if eds = [] then none else some ((digitsVal eds : ℤ), t.dropWhile isDigitCp)
    | _ :: t =>
      let eds := t.takeWhile isDigitCp
      if eds = [] then none else some ((digitsVal eds : ℤ), t.dropWhile isDigitCp)
    | [] => none
  else some (0, s)

/-- Parse an unsigned JSON number literal (integer part, optional fraction,
optional exponent). -/
def parseNumMag (s : List Nat) : Option (ℚ × List Nat) :=
  let ds := s.takeWhile isDigitCp
  let s2 := s.dropWhile isDigitCp
  if ds = [] then none
  else if 1 < ds.length ∧ ds.head? = some 48 then none
  else
    match s2 with
    | 46 :: t =>
      let fds := t.takeWhile isDigitCp
      let s3 := t.dropWhile isDigitCp
      if fds = [] then none
      else
        (parseNumExp s3).map (fun er =>
          (((digitsVal ds : ℚ) + (digitsVal fds : ℚ) / ((10 ^ fds.length : ℕ) : ℚ))
            * (10 : ℚ) ^ er.1, er.2))
    | _ =>
      (parseNumExp s2).map (fun er => ((digitsVal ds : ℚ) * (10 : ℚ) ^ er.1, er.2))

/-- Parse a JSON number literal, returning its exact rational value.  JS
binds the text to the nearest double; the two agree on every value the
development evaluates (integers below `2 ^ 53`). -/
def parseNumber (s : List Nat) : Option (ℚ × List Nat) :=
  match s with
  | 45 :: t => (parseNumMag t).map (fun qr => (-qr.1, qr.2))
  | _ => parseNumMag s

/-- Parser modes: value, array elements (first / subsequent), object members
(first / subsequent). -/
inductive PMode where
  | pv
  | pe0
  | peN
  | pm0
  | pmN

/-- Parser results per mode. -/
inductive PRes where
  | rv (v : Json) (rest : List Nat)
  | rl (vs : List Json) (rest : List Nat)
  | rm (kvs : List (Str × Json)) (rest : List Nat)

/-- Core recursive-descent JSON parser, fuel-based.  Objects are assembled
with `jsDefine` (`CreateDataProperty` semantics: last duplicate wins, first
position kept, array-index keys enumerate first). -/
def parseCore : Nat → PMode → List Nat → Option PRes
  | 0, _, _ => none
  | f + 1, .pv, s =>
    match skipWs s with
    | [] => none
    | c :: rest =>
      if c = 123 then
        match parseCore f .pm0 rest with
        | some (.rm kvs r) =>
          some (.rv (objOfList (kvs.foldl (fun acc kv => jsDefine acc kv.1 kv.2) [])) r)
        | _ => none
      else if c = 91 then
        match parseCore f .pe0 rest with
        | some (.rl es r) => some (.rv (arrOfList es) r)
        | _ => none
      else if c = 34 then
        match parseStringBody rest.length rest with
        | some (str, r) => some (.rv (.str str) r)
        | none => none
      else if c = 116 then
        match rest with
        | 114 :: 117 :: 101 :: r => some (.rv (.jbool true) r)
        | _ => none
      else if c = 102 then
        match rest with
        | 97 :: 108 :: 115 :: 101 :: r => some (.rv (.jbool false) r)
        | _ => none
      else if c = 110 then
        match rest with
        | 117 :: 108 :: 108 :: r => some (.rv .null r)
        | _ => none
      else
        match parseNumber (c :: rest) with
        | some (q, r) => some (.rv (.num q) r)
        | none => none
  | f + 1, .pe0, s =>
    match skipWs s with
    | 93 :: r => some (.rl [] r)
    | _ => parseCore f .peN s
  | f + 1, .peN, s =>
    match parseCore f .pv s with
    | some (.rv v r) =>
      match skipWs r with
      | 44 :: r2 =>
        match parseCore f .peN r2 with
        | some (.rl vs r3) => some (.rl (v :: vs) r3)
        | _ => none
      | 93 :: r2 => some (.rl [v] r2)
      | _ => none
    | _ => none
  | f + 1, .pm0, s =>
    match skipWs s with
    | 125 :: r => some (.rm [] r)
    | _ => parseCore f .pmN s
  | f + 1, .pmN, s =>
    match skipWs s with
    | 34 :: r =>
      match parseStringBody r.length r with
      | some (k, r2) =>
        match skipWs r2 with
        | 58 :: r4 =>
          match parseCore f .pv r4 with
          | some (.rv v r5) =>
            match skipWs r5 with
            | 44 :: r7 =>
              match parseCore f .pmN r7 with
              | some (.rm kvs r8) => some (.rm ((k, v) :: kvs) r8)
              | _ => none
            | 125 :: r7 => some (.rm [(k, v)] r7)
            | _ => none
          | _ => none
        | _ => none
      | none => none
    | _ => none

/-- `JSON.parse(text)`: parse one value, allow trailing whitespace, reject
anything else.  The fuel `3 * length + 3` dominates the call count of the
recursive descent (at most three mode steps per consumed code point). -/
def jsonParse (text : List Nat) : Option Json :=
  match parseCore (3 * text.length + 3) .pv text with
  | some (.rv v r) => if skipWs r = [] then some v else none
  | _ => none

/-! ## JS value coercions used by the validator comparisons

`pairInRange` and `checkTensorOverlap` compare raw parsed JSON values with
`>=`/`<=`/`<`/`>`.  JS compares two strings lexicographically and anything
else numerically after `ToNumber` (`NaN` makes every comparison false).
`ToNumber` on a string is modelled for plain decimal literals (the JS extras
such as hex, `Infinity`, or exotic whitespace yield `NaN` here; no theorem
compares such strings).  Arrays and objects (which JS would convert via
`ToPrimitive`) are also mapped to `NaN`. -/

/-- `ToNumber` on a string (simplified: optional sign, decimal digits,
optional fraction, optional exponent). -/
def strToNumber (s : Str) : Option ℚ :=
  let t := ((s.dropWhile isJsonWs).reverse.dropWhile isJsonWs).reverse
  if t = [] then some 0
  else
    let (neg, t1) := match t with
      | 45 :: r => (true, r)
      | 43 :: r => (false, r)
      | _ => (false, t)
    let ds := t1.takeWhile isDigitCp
    let r1 := t1.dropWhile isDigitCp
    let (fds, r2) := match r1 with
      | 46 :: rr => (rr.takeWhile isDigitCp, rr.dropWhile isDigitCp)
      | _ => ([], r1)
    let em := r2.head? = some 101 ∨ r2.head? = some 69
    let (eneg, e1) := match r2 with
      | _ :: 45 :: rr => (true, rr)
      | _ :: 43 :: rr => (false, rr)
      | _ :: rr => (false, rr)
      | [] => (false, [])
    let eds := if em then e1.takeWhile isDigitCp else []
    let r3 := if em then e1.dropWhile isDigitCp else r2
    if r3 ≠ [] ∨ (ds = [] ∧ fds = []) ∨ (em ∧ eds = []) then none
    else
      let mant : ℚ := (digitsVal ds : ℚ) + (digitsVal fds : ℚ) / ((10 ^ fds.length : ℕ) : ℚ)
      let ex : ℤ := if eneg then -(digitsVal eds : ℤ) else (digitsVal eds : ℤ)
      let v := mant * (10 : ℚ) ^ ex
      some (if neg then -v else v)

/-- JS `ToNumber` on a parsed JSON value (`none` = `NaN`). -/
def jsToNumber : Json → Option ℚ
  | .num q => some q
  | .jbool b => some (if b then 1 else 0)
  | .null => some 0
  | .str s => strToNumber s
  | _ => none

/-- Lexicographic `≤` on strings (JS compares code units; on the scalar
strings the development evaluates this coincides with code points). -/
def lexLE : Str → Str → Bool
  | [], _ => true
  | _ :: _, [] => false
  | a :: x, b :: y => if a < b then true else if b < a then false else lexLE x y

/-- Strict lexicographic `<`. -/
def lexLT : Str → Str → Bool
  | _, [] => false
  | [], _ :: _ => true
  | a :: x, b :: y => if a < b then true else if b < a then false else lexLT x y

/-- JS `a <= b` on raw values. -/
def jsNumLE (a b : Json) : Bool :=
  match a, b with
  | .str x, .str y => lexLE x y
  | _, _ =>
    match jsToNumber a, jsToNumber b with
    | some x, some y => decide (x ≤ y)
    | _, _ => false

/-- JS `a < b` on raw values. -/
def jsNumLT (a b : Json) : Bool :=
  match a, b with
  | .str x, .str y => lexLT x y
  | _, _ =>
    match jsToNumber a, jsToNumber b with
    | some x, some y => decide (x < y)
    | _, _ => false

/-- `ToIntegerOrInfinity`-style coercion (used by `Uint8Array.slice` and the
`ToInt32` inside `&`): truncate toward zero, `NaN` to 0. -/
def ratTrunc (q : ℚ) : Int := Int.tdiv q.num q.den

/-- Coerce a raw JSON value to the integer `slice` receives. -/
def jsToIntOff (j : Json) : Int :=
  match jsToNumber j with
  | some q => ratTrunc q
  | none => 0

/-! ## `Object.entries` -/

/-- Index keys for `Object.entries` on arrays and strings. -/
def enumStrsFrom {α : Type} (i : Nat) : List α → List (Str × α)
  | [] => []
  | x :: t => (natToDec i, x) :: enumStrsFrom (i + 1) t

/-- `Object.entries(v)`: own enumerable string-keyed entries.  `null` (and
`undefined`) raise a `TypeError`; primitives other than strings have none;
strings and arrays expose index entries. -/
def jsEntriesOfVal : Json → Except JErr (List (Str × Json))
  | .null => throw .fatal
  | .objNil => pure []
  | .objCons k v t => pure ((k, v) :: objPropsList t)
  | .arrNil => pure []
  | .arrCons x t => pure (enumStrsFrom 0 (x :: arrElemsList t))
  | .str s => pure (enumStrsFrom 0 (s.map (fun c => Json.str [c])))
  | .num _ => pure []
  | .jbool _ => pure []

/-! ## Source embedding: `formatLength` (section 4.1, `src` lines 458-470) -/

/-- First match of the regex `/\d+/`. -/
def firstDigitRun : Str → Option Str
  | [] => none
  | c :: t => if isDigitCp c then some (c :: t.takeWhile isDigitCp) else firstDigitRun t

/-- Fuel-driven base-2 logarithm (kernel-evaluable; `natLog2_eq` ties it to
`Nat.log2`, whose well-founded recursion the kernel cannot reduce). -/
def log2Fuel : Nat → Nat → Nat
  | 0, _ => 0
  | f + 1, n => if n < 2 then 0 else log2Fuel f (n / 2) + 1

/-- `⌊log₂ n⌋` (0 at 0). -/
def natLog2 (n : Nat) : Nat := log2Fuel n n

/-- Round a natural number to the nearest IEEE-754 double, ties to even:
values below `2 ^ 53` are exact; above, the value rounds to a multiple of
`2 ^ (⌊log₂ n⌋ + 1 - 53)`.  Doubles that large are integers, so the result
is again a natural number; a result at or beyond `2 ^ 1024` stands for
`Infinity` (callers detect it via `natLog2`, see `natLog2_overflow_iff`). -/
def roundDouble (n : Nat) : Nat :=
  if n < 2 ^ 53 then n
  else
    let k := natLog2 n + 1 - 53
    let q := n / 2 ^ k
    let r := n % 2 ^ k
    if r < 2 ^ (k - 1) then q * 2 ^ k
    else if 2 ^ (k - 1) < r then (q + 1) * 2 ^ k
    else if q % 2 = 0 then q * 2 ^ k else (q + 1) * 2 ^ k

/-- `parseInt(run, 10) | 0`: the run's mathematical value first becomes a
double — rounded to nearest with ties to even, `Infinity` from `2 ^ 1024` up
— and `ToInt32` then maps `Infinity` to 0 and a finite integral double to
its low 32 bits, sign-extended. -/
def parseIntTo32 (ds : Str) : Int :=
  if 1024 ≤ natLog2 (roundDouble (digitsVal ds)) then 0
  else toInt32 ((roundDouble (digitsVal ds) : ℕ) : ℤ)

/-- The unsigned 32-bit pattern `parseInt(run, 10) | 0` holds. -/
def runPat (ds : Str) : Nat :=
  if 1024 ≤ natLog2 (roundDouble (digitsVal ds)) then 0
  else roundDouble (digitsVal ds) % 2 ^ 32

/-- `formatLength(format)`: extract the first digit run,
`parseInt(..., 10) | 0` (with `parseInt`'s rounding of the run to a double),
reject when `(parsed|0) & ((parsed|0)-1)` is nonzero, return
`parsed / 8.0`. -/
def formatLength (format : Str) : Except JErr ℚ := do
  match firstDigitRun format with
  | none => throw .fatal
  | some ds =>
    let parsed := parseIntTo32 ds
    if and32 parsed (parsed - 1) ≠ 0 then throw .fatal
    pure ((parsed : ℚ) / 8)

/-! ## Source embedding: `_sanityCheck` / `sanityCheck` (lines 428-454) -/

/-- `_sanityCheck(name, bytes, format?, shape?)`.  JS falsiness: a missing
format or shape, or an *empty-string* format, is the fatal missing-info case;
an empty shape array is truthy and becomes `[1]` (scalar).  The shape/size
mismatch throws `IgnorableError` unconditionally: this function receives no
leniency flag. -/
def _sanityCheck (_name : Str) (bytes : List Nat) (format : Option Str) (shape : Option (List Nat)) :
    Except JErr Unit := do
  match format, shape with
  | some f, some sh =>
    if f = [] then throw .fatal
    else
      let sh := if sh.length = 0 then [1] else sh
      let num : ℚ := sh.foldl (fun a d => a * (d : ℚ)) 1
      let fl ← formatLength f
      if (bytes.length : ℚ) ≠ num * fl then throw .ignorable
      pure ()
  | _, _ => throw .fatal

/-- `sanityCheck(bytes, format, shape)` overload (name reported as "created"). -/
def sanityCheckParts (bytes : List Nat) (format : Option Str) (shape : Option (List Nat)) :
    Except JErr Unit :=
  _sanityCheck (strOf "created") bytes format shape

/-! ## Source embedding: raw-header check (lines 284-317) -/

/-- `arrayCompare(a, b)`: element-wise strict equality. -/
def arrayCompare (a b : List Nat) : Bool := a == b

/-- `unsafeGetHeaderSize(bytes)`: little-endian read of bytes 0..3 with the
final `| 0` making the result a *signed* 32-bit value; out-of-bounds reads
(`bytes[i]!` on a short array) give `undefined | 0 = 0`. -/
def unsafeGetHeaderSize (bytes : List Nat) : Int :=
  toInt32 ((bytes.getD 0 0 : Int) + (bytes.getD 1 0 : Int) * 256 +
    (bytes.getD 2 0 : Int) * 65536 + (bytes.getD 3 0 : Int) * 16777216)

/-- Stage A, `sanityCheckTensorsHeader(ignoreInvalid, bytes, filesize)`:
bytes 4..7 must be zero and byte 8 must be `{` (fatal); a decoded size above
100 MiB is a suppressible error; a file shorter than `8 + size` is fatal. -/
def sanityCheckTensorsHeader (ignoreInvalid : Bool) (bytes : List Nat) (filesize : Int) :
    Except JErr Int := do
  if !(arrayCompare (jsSlice bytes 4 9) [0, 0, 0, 0, 123]) then
    throw .fatal
  let val := unsafeGetHeaderSize bytes
  if val > 100 * 1024 * 1024 ∧ !ignoreInvalid then
    throw .ignorable
  if filesize < 8 + val then
    throw .fatal
  pure val

/-! ## Source embedding: parsed-structure check, Stage B (lines 319-426) -/

/-- `pairInRange(pair, chunksize)`. -/
def pairInRange (v0 v1 : Json) (chunksize : Int) : Bool :=
  jsNumLE (.num 0) v0 && jsNumLE v0 (.num (chunksize : ℚ)) &&
  jsNumLE (.num 0) v1 && jsNumLE v1 (.num (chunksize : ℚ)) && jsNumLE v0 v1

/-- `checkMetadata(ignoreInvalid, value)`: every metadata value must be a
string; a violation is suppressible. -/
def checkMetadataList (ignoreInvalid : Bool) : List (Str × Json) → Except JErr Unit
  | [] => pure ()
  | (_, v) :: t =>
    if !v.isStr && !ignoreInvalid then throw .ignorable
    else checkMetadataList ignoreInvalid t

/-- `checkMetadata` entry point (`Object.entries` on the value). -/
def checkMetadata (ignoreInvalid : Bool) (value : Json) : Except JErr Unit := do
  let es ← jsEntriesOfVal value
  checkMetadataList ignoreInvalid es

/-- Element loop of `checkTensorShape`: non-numeric elements are a
suppressible error. -/
def checkShapeElems (ignoreInvalid : Bool) : List Json → Except JErr Unit
  | [] => pure ()
  | v :: t =>
    if !v.isNum && !ignoreInvalid then throw .ignorable
    else checkShapeElems ignoreInvalid t

/-- `checkTensorShape(key, val)`: a non-array shape is fatal. -/
def checkTensorShape (ignoreInvalid : Bool) (val : Json) : Except JErr Unit := do
  if !val.isArr then throw .fatal
  checkShapeElems ignoreInvalid (arrElemsList val)

/-- `checkTensorOverlap(key, start, end, val)`: flags when `val[1] > start
&& val[1] <= end` or `val[0] >= start && val[0] < end`; suppressible. -/
def checkTensorOverlap (ignoreInvalid : Bool) (start endv val0 val1 : Json) : Except JErr Unit :=
  if ((jsNumLT start val1 && jsNumLE val1 endv) ||
      (jsNumLE start val0 && jsNumLT val0 endv)) && !ignoreInvalid
  then throw .ignorable
  else pure ()

/-- Overlap loop against all previously covered ranges. -/
def checkOverlapAll (ignoreInvalid : Bool) (val0 val1 : Json) :
    List (Json × Json) → Except JErr Unit
  | [] => pure ()
  | (s, e) :: t => do
    checkTensorOverlap ignoreInvalid s e val0 val1
    checkOverlapAll ignoreInvalid val0 val1 t

/-- `checkDataOffsetBasics`: out-of-range offsets are suppressible. -/
def checkDataOffsetBasics (ignoreInvalid : Bool) (chunksize : Int) (val0 val1 : Json) :
    Except JErr Unit :=
  if !(pairInRange val0 val1 chunksize) && !ignoreInvalid then throw .ignorable
  else pure ()

/-- `checkDataOffsets(key, obj)`: a non-array or wrong-length value is fatal;
then the range check, then the overlap check against `covered`, then the pair
is appended to `covered`. -/
def checkDataOffsets (ignoreInvalid : Bool) (chunksize : Int) (covered : List (Json × Json))
    (obj : Json) : Except JErr (List (Json × Json)) := do
  if !(obj.isArr && (arrElemsList obj).length == 2) then throw .fatal
  checkDataOffsetBasics ignoreInvalid chunksize ((arrElemsList obj).getD 0 .null)
    ((arrElemsList obj).getD 1 .null)
  checkOverlapAll ignoreInvalid ((arrElemsList obj).getD 0 .null)
    ((arrElemsList obj).getD 1 .null) covered
  pure (covered ++ [((arrElemsList obj).getD 0 .null, (arrElemsList obj).getD 1 .null)])

/-- `attrOk(key)`. -/
def attrOk (key : Str) : Bool :=
  key = strOf "dtype" || key = strOf "shape" || key = strOf "data_offsets"

/-- Per-entry dispatch loop of `checkTensorValue`, threading the `has_*`
flags and `covered`. -/
def checkTensorEntries (ignoreInvalid : Bool) (chunksize : Int) :
    List (Str × Json) → List (Json × Json) → Bool → Bool → Bool →
    Except JErr (List (Json × Json) × Bool × Bool × Bool)
  | [], covered, hd, hs, ho => pure (covered, hd, hs, ho)
  | (key, val) :: t, covered, hd, hs, ho => do
    if !attrOk key then
      if !ignoreInvalid then throw .ignorable
      else checkTensorEntries ignoreInvalid chunksize t covered hd hs ho
    else if key = strOf "dtype" then do
      if !val.isStr then throw .fatal
      checkTensorEntries ignoreInvalid chunksize t covered true hs ho
    else if key = strOf "shape" then do
      checkTensorShape ignoreInvalid val
      checkTensorEntries ignoreInvalid chunksize t covered hd true ho
    else do
      let covered ← checkDataOffsets ignoreInvalid chunksize covered val
      checkTensorEntries ignoreInvalid chunksize t covered hd hs true

/-- `checkTensorValue(name, value)` followed by `assertAttributePresence`:
the three required attributes are mandatory unconditionally. -/
def checkTensorValue (ignoreInvalid : Bool) (chunksize : Int) (covered : List (Json × Json))
    (value : Json) : Except JErr (List (Json × Json)) := do
  let es ← jsEntriesOfVal value
  let (covered, hd, hs, ho) ← checkTensorEntries ignoreInvalid chunksize es covered false false false
  if !hd then throw .fatal
  if !hs then throw .fatal
  if !ho then throw .fatal
  pure covered

/-- Entry loop of `sanityCheckTensorsParsed`. -/
def sctpGo (ignoreInvalid : Bool) (chunksize : Int) :
    List (Str × Json) → List (Json × Json) → Except JErr Unit
  | [], _ => pure ()
  | (name, value) :: t, covered =>
    if name = strOf "__metadata__" then do
      checkMetadata ignoreInvalid value
      sctpGo ignoreInvalid chunksize t covered
    else do
      let covered ← checkTensorValue ignoreInvalid chunksize covered value
      sctpGo ignoreInvalid chunksize t covered

/-- Stage B, `sanityCheckTensorsParsed(ignoreInvalid, j, chunksize)`. -/
def sanityCheckTensorsParsed (ignoreInvalid : Bool) (j : Json) (chunksize : Int) :
    Except JErr Unit := do
  let es ← jsEntriesOfVal j
  sctpGo ignoreInvalid chunksize es []

/-! ## TensorMap / TensorRef, pure data view (lines 144-281)

The encoder and decoder observe a `TensorMap` only through its insertion-
ordered name→tensor map, each tensor's `bytes`/`format`/`shape`, and the
metadata map.  This pure view captures exactly that; object identity and the
`_parent` back-reference (which the codec never reads) are modelled
separately in the heap model further down.  Per the data model, `shape` is a
sequence of non-negative integers. -/

structure TensorRefData where
  name : Str
  bytes : List Nat
  format : Str
  shape : List Nat
deriving DecidableEq, Repr

structure TensorMapData where
  refs : List (Str × TensorRefData) := []
  metadata : List (Str × Str) := []
deriving DecidableEq, Repr

/-- `addTensor(name, bytes, format, shape)` (fresh-tensor overload), as used
by the decoder: fail if the name exists; JS falsiness makes an *empty-string*
format fall into the "must provide format and shape" fatal branch; the fresh
tensor is unparented, so `_setTensor`'s ownership guard passes and it reduces
to `Map.set`. -/
def TensorMapData.addTensorParts (m : TensorMapData) (name : Str) (bytes : List Nat)
    (format : Str) (shape : List Nat) : Except JErr TensorMapData := do
  if (alookup name m.refs).isSome then throw .fatal
  if format = [] then throw .fatal
  pure { m with refs := msetEntry name ⟨name, bytes, format, shape⟩ m.refs }

/-! ## Source embedding: `TensorSaver` / `saveSafeTensors` (lines 43-142) -/

/-- The global 8-space padding buffer. -/
def padder : List Nat := [32, 32, 32, 32, 32, 32, 32, 32]

/-- `setMetadata()`: build the `__metadata__` object by assignment and store
it in `hdr` iff the metadata map is nonempty.  Assignment semantics drop a
`"__proto__"` metadata key. -/
def setMetadataHdr (m : TensorMapData) : List (Str × Json) :=
  let md := m.metadata.foldl (fun acc kv => jsAssign acc kv.1 (Json.str kv.2)) []
  if m.metadata.isEmpty then [] else jsAssign [] (strOf "__metadata__") (objOfList md)

/-- One tensor's header entry `{dtype, shape, data_offsets}`. -/
def hdrEntryOf (t : TensorRefData) (off : Int) : Json :=
  .objCons (strOf "dtype") (.str t.format)
    (.objCons (strOf "shape") (arrOfList (t.shape.map (fun (d : Nat) => Json.num (d : ℚ))))
      (.objCons (strOf "data_offsets")
        (.arrCons (.num (off : ℚ)) (.arrCons (.num ((off + t.bytes.length : Int) : ℚ)) .arrNil))
        .objNil))

/-- `calcOffset()` loop: assign `[offset, offset+len]`, then advance by
`(len + 7) & ~7` (a 32-bit operation). -/
def calcOffsetGo : List (Str × TensorRefData) → Int → List (Str × Json) →
    List (Str × Json) × Int
  | [], off, hdr => (hdr, off)
  | (name, t) :: rest, off, hdr =>
    calcOffsetGo rest (off + and32 ((t.bytes.length : Int) + 7) (-8))
      (jsAssign hdr name (hdrEntryOf t off))

/-- `calcHeader()`: serialize, pad the length to a multiple of 8 (32-bit
`&`), reject above 100 MiB (fatal). -/
def calcHeaderOf (hdrEntries : List (Str × Json)) : Except JErr (List Nat × Int) := do
  let hdrBuf := utf8Encode (jsonStringify (objOfList hdrEntries))
  let hblen := and32 ((hdrBuf.length : Int) + 7) (-8)
  if hblen > 100 * 1024 * 1024 then throw .fatal
  pure (hdrBuf, hblen)

/-- JS `>>` (arithmetic shift on the `ToInt32` value). -/
def jsShr (a : Int) (k : Nat) : Int := Int.fdiv (toInt32 a) (2 ^ k)

/-- One byte of the 8-byte length field: `(hblen >> 8k) & 0xff`. -/
def jsByte (v : Int) (k : Nat) : Nat := (and32 (jsShr v (8 * k)) 255).toNat

/-- The `lenbuf` array (little-endian 32-bit length, high word zero). -/
def lenbufOf (hblen : Int) : List Nat :=
  [jsByte hblen 0, jsByte hblen 1, jsByte hblen 2, jsByte hblen 3, 0, 0, 0, 0]

/-- `writeHeader()` as its chunk sequence: length field, header text, space
padding up to the rounded length. -/
def writeHeaderChunks (lenbuf hdrBuf : List Nat) (hblen : Int) : List (List Nat) :=
  [lenbuf, hdrBuf] ++
    (if hblen > (hdrBuf.length : Int) then [jsSlice padder 0 (hblen - hdrBuf.length)] else [])

/-- Recorded end offset of a tensor, read back from the header object as
`writeTensors` does.  A tensor whose entry is missing from `hdr` (only
possible for a `"__proto__"`-named tensor, whose entry went to the prototype)
is modelled as `none`; every theorem excludes that name. -/
def hdrEndOf (hdr : List (Str × Json)) (name : Str) : Option ℚ :=
  match alookup name hdr with
  | some e =>
    match alookup (strOf "data_offsets") (objPropsList e) with
    | some dOff => jsToNumber ((arrElemsList dOff).getD 1 .null)
    | none => none
  | none => none

/-- `writeTensors()` loop: emit bytes, pad to 8, and assert that the
cumulative count matches `(end + 7) & ~7` (fatal on mismatch). -/
def writeTensorsGo (hdr : List (Str × Json)) :
    List (Str × TensorRefData) → Int → Except JErr (List (List Nat))
  | [], _ => pure []
  | (name, t) :: rest, written => do
    let len : Int := t.bytes.length
    let written := written + len
    let padLen := and32 len 7
    let (chunks2, written) :=
      if padLen ≠ 0 then ([jsSlice padder 0 (8 - padLen)], written + (8 - padLen))
      else ([], written)
    match hdrEndOf hdr name with
    | none => throw .fatal
    | some endq =>
      if and32 (ratTrunc (endq + 7)) (-8) ≠ written then throw .fatal
      let tail ← writeTensorsGo hdr rest written
      pure (t.bytes :: chunks2 ++ tail)

/-- `saveSafeTensors(tensorMap)` in buffer mode: the chunk sequence filling
the pre-sized buffer exactly (the offset accounting assertion guarantees the
exact fit), returned joined. -/
def saveSafeTensors (m : TensorMapData) : Except JErr (List Nat) := do
  let hdr0 := setMetadataHdr m
  let (hdrE, _offset) := calcOffsetGo m.refs 0 hdr0
  let (hdrBuf, hblen) ← calcHeaderOf hdrE
  let headerChunks := writeHeaderChunks (lenbufOf hblen) hdrBuf hblen
  let tensorChunks ← writeTensorsGo hdrE m.refs 0
  pure (headerChunks ++ tensorChunks).flatten

/-! ## Source embedding: `parseSafeTensors` (lines 22-41) -/

/-- Dimension read off a parsed shape element.  The data model restricts
shapes to non-negative integers; this extraction is exact on every value the
strict decoder accepts from an encoder-produced header. -/
def jsToNat (j : Json) : Nat :=
  match j with
  | .num q => if q.den = 1 ∧ 0 ≤ q.num then q.num.toNat else 0
  | _ => 0

/-- Decoder loop over `Object.entries(j)`: metadata is copied wholesale
(`setAllMetadata` replaces the map; non-string values, possible only under
leniency, are read as their string payload); tensor entries are destructured
and added with a slice of the data section. -/
def parseGo (bytes : List Nat) (hdrsize : Int) :
    List (Str × Json) → TensorMapData → Except JErr TensorMapData
  | [], m => pure m
  | (name, val) :: rest, m =>
    if name = strOf "__metadata__" then do
      let es ← jsEntriesOfVal val
      let md := es.map (fun kv => (kv.1, kv.2.asStr))
      parseGo bytes hdrsize rest { m with metadata := md }
    else do
      let props := objPropsList val
      let dtype := ((alookup (strOf "dtype") props).getD .null).asStr
      let shape := (arrElemsList ((alookup (strOf "shape") props).getD .null)).map jsToNat
      let dOffs := arrElemsList ((alookup (strOf "data_offsets") props).getD .null)
      let o0 := jsToIntOff (dOffs.getD 0 .null)
      let o1 := jsToIntOff (dOffs.getD 1 .null)
      let m' ← m.addTensorParts name (jsSlice bytes (8 + hdrsize + o0) (8 + hdrsize + o1))
        dtype shape
      parseGo bytes hdrsize rest m'

/-- `parseSafeTensors(bytes, ignoreInvalid)`: Stage A, slice and decode the
header JSON (a `SyntaxError` from `JSON.parse` is fatal), Stage B, then
populate a fresh `TensorMap`. -/
def parseSafeTensors (bytes : List Nat) (ignoreInvalid : Bool) : Except JErr TensorMapData := do
  let _ ← sanityCheckTensorsHeader ignoreInvalid bytes (bytes.length : Int)
  let hdrsize := unsafeGetHeaderSize bytes
  let j ← match jsonParse (utf8Decode (jsSlice bytes 8 (8 + hdrsize))) with
    | some j => pure j
    | none => throw .fatal
  sanityCheckTensorsParsed ignoreInvalid j ((bytes.length : Int) - 8 - hdrsize)
  let es ← jsEntriesOfVal j
  parseGo bytes hdrsize es {}

/-! ## TensorMap / TensorRef heap model (lines 144-281)

The ownership claims are about object identity and the `_parent`
back-reference, so `TensorRef`s and `TensorMap`s live in an explicit heap
keyed by identifiers; mutation through an alias is then visible everywhere,
exactly as for JS heap objects. -/

structure TRefState where
  name : Str
  bytes : List Nat
  format : Str
  shape : List Nat
  parent : Option Nat
deriving DecidableEq, Repr

structure TMapState where
  refs : List (Str × Nat) := []
  metadata : List (Str × Str) := []
deriving DecidableEq, Repr

structure Heap where
  tensors : List (Nat × TRefState) := []
  maps : List (Nat × TMapState) := []
deriving DecidableEq, Repr

/-- Lookup by object identifier. -/
def nlookup {α : Type} (k : Nat) : List (Nat × α) → Option α
  | [] => none
  | (k', v) :: t => if k' = k then some v else nlookup k t

/-- Update by object identifier (first occurrence). -/
def nset {α : Type} (k : Nat) (v : α) : List (Nat × α) → List (Nat × α)
  | [] => [(k, v)]
  | (k', v') :: t => if k' = k then (k, v) :: t else (k', v') :: nset k v t

/-- A fresh tensor identifier. -/
def freshTid (h : Heap) : Nat := (h.tensors.map Prod.fst).foldr max 0 + 1

/-- `TensorMap._setTensor(name, tensor)`: reject a tensor parented in a
*different* map, then `refs.set(name, tensor)` and `tensor._parent = this`.
A dangling identifier (impossible for the states the theorems build) is
mapped to a fatal error. -/
def heapSetTensor (h : Heap) (mid : Nat) (name : Str) (tid : Nat) : Except JErr Heap :=
  match nlookup tid h.tensors, nlookup mid h.maps with
  | some t, some m =>
    if t.parent.isSome ∧ t.parent ≠ some mid then throw .fatal
    else pure { h with
      maps := nset mid { m with refs := msetEntry name tid m.refs } h.maps,
      tensors := nset tid { t with parent := some mid } h.tensors }
  | _, _ => throw .fatal

/-- `addTensor(name, tensor)` (existing-entity overload): fail if the name
is taken, else `_setTensor`. -/
def heapAddTensorRef (h : Heap) (mid : Nat) (name : Str) (tid : Nat) : Except JErr Heap :=
  match nlookup mid h.maps with
  | some m =>
    if (alookup name m.refs).isSome then throw .fatal
    else heapSetTensor h mid name tid
  | none => throw .fatal

/-- `addTensor(name, bytes, format, shape)` (fresh-tensor overload):
name-collision check, the JS-falsiness check on `format`, then `_setTensor`
on a newly constructed unparented tensor. -/
def heapAddTensorParts (h : Heap) (mid : Nat) (name : Str) (bytes : List Nat)
    (format : Str) (shape : List Nat) : Except JErr (Heap × Nat) :=
  match nlookup mid h.maps with
  | some m =>
    if (alookup name m.refs).isSome then throw .fatal
    else if format = [] then throw .fatal
    else
      let tid := freshTid h
      let h1 := { h with tensors := h.tensors ++ [(tid, ⟨name, bytes, format, shape, none⟩)] }
      (fun h2 => (h2, tid)) <$> heapSetTensor h1 mid name tid
  | none => throw .fatal

/-- Shared tail of `removeTensor`: require `ten.parent === this`, clear the
back-reference, then `refs.delete(ten.name)` (note: the tensor's *own* name,
not the lookup key). -/
def heapRemoveCommon (h : Heap) (mid : Nat) (tid : Nat) : Except JErr Heap :=
  match nlookup tid h.tensors, nlookup mid h.maps with
  | some t, some m =>
    if t.parent ≠ some mid then throw .fatal
    else pure { h with
      tensors := nset tid { t with parent := none } h.tensors,
      maps := nset mid { m with refs := mdelEntry t.name m.refs } h.maps }
  | _, _ => throw .fatal

/-- `removeTensor(name)` with a string key: missing names are silently OK. -/
def heapRemoveTensorByName (h : Heap) (mid : Nat) (name : Str) : Except JErr Heap :=
  match nlookup mid h.maps with
  | none => throw .fatal
  | some m =>
    match alookup name m.refs with
    | none => pure h
    | some tid => heapRemoveCommon h mid tid

/-- `removeTensor(tensor)` with a `TensorRef` argument. -/
def heapRemoveTensorByRef (h : Heap) (mid : Nat) (tid : Nat) : Except JErr Heap :=
  heapRemoveCommon h mid tid

/-- `setTensor(name, tensor)`: remove any previous holder of the name, then
`addTensor`. -/
def heapSetTensorOp (h : Heap) (mid : Nat) (name : Str) (tid : Nat) : Except JErr Heap := do
  let h1 ← heapRemoveTensorByName h mid name
  heapAddTensorRef h1 mid name tid

/-- `getOrMakeTensor(name, factory)`: return an existing tensor, else insert
the factory's result with `refs.set(name, ten)` — without touching
`ten._parent`.  The factory is modelled as allocating the given freshly
constructed tensor (the source allows arbitrary factories). -/
def heapGetOrMakeTensor (h : Heap) (mid : Nat) (name : Str) (mk : TRefState) :
    Except JErr (Heap × Nat) :=
  match nlookup mid h.maps with
  | none => throw .fatal
  | some m =>
    match alookup name m.refs with
    | some tid => pure (h, tid)
    | none =>
      let tid := freshTid h
      pure ({ h with
        tensors := h.tensors ++ [(tid, mk)],
        maps := nset mid { m with refs := msetEntry name tid m.refs } h.maps }, tid)

/-- The `name` setter: when parented, a map entry under the *new* name is a
fatal collision checked first; then `refs.delete(old name)`, `_name = val`,
`refs.set(val, this)`. -/
def heapSetName (h : Heap) (tid : Nat) (val : Str) : Except JErr Heap :=
  match nlookup tid h.tensors with
  | none => throw .fatal
  | some t =>
    match t.parent with
    | some mid =>
      match nlookup mid h.maps with
      | none => throw .fatal
      | some m =>
        if (alookup val m.refs).isSome then throw .fatal
        else
          let refs1 := mdelEntry t.name m.refs
          pure { h with
            tensors := nset tid { t with name := val } h.tensors,
            maps := nset mid { m with refs := msetEntry val tid refs1 } h.maps }
    | none => pure { h with tensors := nset tid { t with name := val } h.tensors }

/-! ## Arithmetic facts about the 32-bit coercions -/

theorem toUInt32_ofNat (n : Nat) : toUInt32 (n : Int) = n % 2 ^ 32 := by
  unfold toUInt32
  have e1 : (2 : Int) ^ 32 = 4294967296 := by norm_num
  have e2 : (2 : Nat) ^ 32 = 4294967296 := by norm_num
  rw [e1, e2]
  omega

theorem toInt32_small (n : Nat) (h : n < 2 ^ 31) : toInt32 (n : Int) = (n : Int) := by
  unfold toInt32 int32OfPat
  rw [toUInt32_ofNat, Nat.mod_eq_of_lt (by omega)]
  rw [if_pos h]

theorem land_decomp (a b x y : Nat) (hx : x < 2) (hy : y < 2) :
    (2 * a + x) &&& (2 * b + y) = 2 * (a &&& b) + (x &&& y) := by
  have hxy : x &&& y < 2 := Nat.lt_of_le_of_lt Nat.and_le_left hx
  apply Nat.eq_of_testBit_eq
  intro i
  cases i with
  | zero =>
    rw [Nat.testBit_and, Nat.testBit_zero, Nat.testBit_zero, Nat.testBit_zero]
    have h1 : (2 * a + x) % 2 = x := by omega
    have h2 : (2 * b + y) % 2 = y := by omega
    have h3 : (2 * (a &&& b) + (x &&& y)) % 2 = x &&& y := by omega
    rw [h1, h2, h3]
    interval_cases x <;> interval_cases y <;> simp
  | succ i =>
    rw [Nat.testBit_and, Nat.testBit_add_one, Nat.testBit_add_one, Nat.testBit_add_one]
    have h1 : (2 * a + x) / 2 = a := by omega
    have h2 : (2 * b + y) / 2 = b := by omega
    have h3 : (2 * (a &&& b) + (x &&& y)) / 2 = a &&& b := by omega
    rw [h1, h2, h3, Nat.testBit_and]

/-- A nonzero pattern meets its predecessor in no bit exactly when it is a
power of two. -/
theorem land_pred_eq_zero_iff (u : Nat) (hu : u ≠ 0) :
    (u &&& (u - 1) = 0) ↔ ∃ k, u = 2 ^ k := by
  induction u using Nat.strong_induction_on with
  | _ u ih =>
    rcases Nat.even_or_odd u with he | ho
    · -- u = 2 * m with m ≥ 1
      obtain ⟨m, hm⟩ := he
      have hm' : u = 2 * m := by omega
      have hm1 : 1 ≤ m := by omega
      have hdec : u &&& (u - 1) = 2 * (m &&& (m - 1)) := by
        have key := land_decomp m (m - 1) 0 1 (by omega) (by omega)
        have e1 : 2 * m + 0 = u := by omega
        have e2 : 2 * (m - 1) + 1 = u - 1 := by omega
        rw [e1, e2] at key
        simpa using key
      rw [hdec]
      constructor
      · intro h
        have hm0 : m &&& (m - 1) = 0 := by omega
        obtain ⟨k, hk⟩ := (ih m (by omega) (by omega)).mp hm0
        exact ⟨k + 1, by rw [hm', hk]; ring⟩
      · rintro ⟨k, hk⟩
        cases k with
        | zero => omega
        | succ k =>
          have hmk : m = 2 ^ k := by
            have h2 : 2 * m = 2 * 2 ^ k := by
              rw [← hm', hk]; ring
            omega
          have := (ih m (by omega) (by omega)).mpr ⟨k, hmk⟩
          omega
    · -- u = 2 * m + 1
      obtain ⟨m, hm⟩ := ho
      rcases Nat.eq_zero_or_pos m with hm0 | hmpos
      · subst hm0
        have h1 : u = 1 := by omega
        subst h1
        constructor
        · intro _
          exact ⟨0, rfl⟩
        · intro _
          decide
      · have hdec : u &&& (u - 1) = 2 * m := by
          have key := land_decomp m m 1 0 (by omega) (by omega)
          have e1 : 2 * m + 1 = u := by omega
          have e2 : 2 * m + 0 = u - 1 := by omega
          rw [e1, e2] at key
          simpa using key
        rw [hdec]
        constructor
        · intro h
          omega
        · rintro ⟨k, hk⟩
          exfalso
          cases k with
          | zero => omega
          | succ k =>
            have : 2 ∣ u := by
              rw [hk]
              exact Dvd.intro (2 ^ k) (by ring)
            omega

theorem and_mask8 (x : Nat) (hx : x < 2 ^ 32) : x &&& (2 ^ 32 - 8) = 8 * (x / 8) := by
  have hmask : (2 ^ 32 - 8 : Nat) = (2 ^ 29 - 1) <<< 3 := by
    rw [Nat.shiftLeft_eq]; norm_num
  have hres : 8 * (x / 8) = (x >>> 3) <<< 3 := by
    rw [Nat.shiftLeft_eq, Nat.shiftRight_eq_div_pow]
    ring_nf
  rw [hmask, hres]
  apply Nat.eq_of_testBit_eq
  intro i
  rw [Nat.testBit_and, Nat.testBit_shiftLeft, Nat.testBit_shiftLeft, Nat.testBit_shiftRight]
  by_cases h3 : 3 ≤ i
  · simp only [h3, decide_True, Bool.true_and]
    rw [Nat.testBit_two_pow_sub_one]
    by_cases h32 : i < 32
    · have : i - 3 < 29 := by omega
      simp [this, Nat.add_sub_cancel' h3]
    · have hfalse : x.testBit i = false :=
        Nat.testBit_lt_two_pow (Nat.lt_of_lt_of_le hx (Nat.pow_le_pow_right (by omega) (by omega)))
      have : ¬(i - 3 < 29) := by omega
      simp [this, Nat.add_sub_cancel' h3, hfalse]
  · simp [h3]

/-- `(n + 7) & ~7` is ordinary round-up-to-8 below the 32-bit wrap. -/
theorem and32_align (n : Nat) (h : n + 7 < 2 ^ 31) :
    and32 ((n : Int) + 7) (-8) = ((8 * ((n + 7) / 8) : Nat) : Int) := by
  unfold and32
  have h1 : toUInt32 ((n : Int) + 7) = n + 7 := by
    have : ((n : Int) + 7) = ((n + 7 : Nat) : Int) := by push_cast; ring
    rw [this, toUInt32_ofNat, Nat.mod_eq_of_lt (by omega)]
  have h2 : toUInt32 (-8) = 2 ^ 32 - 8 := by decide
  rw [h1, h2, and_mask8 (n + 7) (by omega)]
  unfold int32OfPat
  split
  · rfl
  · omega

/-- `len & 7` is `len % 8`, with no size condition (the 32-bit wrap is a
multiple of 8). -/
theorem and32_mod8 (n : Nat) : and32 (n : Int) 7 = ((n % 8 : Nat) : Int) := by
  unfold and32
  rw [toUInt32_ofNat]
  have h7 : toUInt32 7 = 7 := by decide
  rw [h7]
  have : (7 : Nat) = 2 ^ 3 - 1 := by norm_num
  rw [this, Nat.and_pow_two_sub_one_eq_mod]
  rw [Nat.mod_mod_of_dvd _ (by norm_num)]
  unfold int32OfPat
  split
  · rfl
  · omega

/-! ## Association-list lemmas -/

theorem alookup_msetEntry_self {α : Type} (k : Str) (v : α) (l : List (Str × α)) :
    alookup k (msetEntry k v l) = some v := by
  induction l with
  | nil => simp [msetEntry, alookup]
  | cons hd t ih =>
    obtain ⟨k', v'⟩ := hd
    by_cases h : k' = k
    · subst h
      simp [msetEntry, alookup]
    · simp [msetEntry, alookup, h, ih]

theorem alookup_msetEntry_ne {α : Type} (k k' : Str) (v : α) (l : List (Str × α))
    (h : k ≠ k') : alookup k' (msetEntry k v l) = alookup k' l := by
  induction l with
  | nil => simp [msetEntry, alookup, h]
  | cons hd t ih =>
    obtain ⟨k0, v0⟩ := hd
    by_cases h0 : k0 = k
    · subst h0
      simp [msetEntry, alookup, h]
    · simp [msetEntry, alookup, h0, ih]

theorem alookup_mdelEntry_ne {α : Type} (k k' : Str) (l : List (Str × α))
    (h : k ≠ k') : alookup k' (mdelEntry k l) = alookup k' l := by
  induction l with
  | nil => simp [mdelEntry]
  | cons hd t ih =>
    obtain ⟨k0, v0⟩ := hd
    by_cases h0 : k0 = k
    · subst h0
      simp [mdelEntry, alookup, h]
    · simp [mdelEntry, alookup, h0, ih]

theorem alookup_eq_none_iff {α : Type} (k : Str) (l : List (Str × α)) :
    alookup k l = none ↔ k ∉ l.map Prod.fst := by
  induction l with
  | nil => simp [alookup]
  | cons hd t ih =>
    obtain ⟨k0, v0⟩ := hd
    by_cases h0 : k0 = k
    · subst h0
      simp [alookup]
    · simp [alookup, h0, ih, Ne.symm h0]

theorem alookup_mdelEntry_self {α : Type} (k : Str) (l : List (Str × α))
    (h : (l.map Prod.fst).Nodup) : alookup k (mdelEntry k l) = none := by
  induction l with
  | nil => simp [mdelEntry, alookup]
  | cons hd t ih =>
    obtain ⟨k0, v0⟩ := hd
    simp only [List.map_cons, List.nodup_cons] at h
    by_cases h0 : k0 = k
    · subst h0
      simp only [mdelEntry, if_pos rfl]
      rw [alookup_eq_none_iff]
      exact h.1
    · simp [mdelEntry, alookup, h0, ih h.2]

theorem nlookup_nset_self {α : Type} (k : Nat) (v : α) (l : List (Nat × α)) :
    nlookup k (nset k v l) = some v := by
  induction l with
  | nil => simp [nset, nlookup]
  | cons hd t ih =>
    obtain ⟨k', v'⟩ := hd
    by_cases h : k' = k
    · subst h
      simp [nset, nlookup]
    · simp [nset, nlookup, h, ih]

theorem nlookup_nset_ne {α : Type} (k k' : Nat) (v : α) (l : List (Nat × α))
    (h : k ≠ k') : nlookup k' (nset k v l) = nlookup k' l := by
  induction l with
  | nil => simp [nset, nlookup, h]
  | cons hd t ih =>
    obtain ⟨k0, v0⟩ := hd
    by_cases h0 : k0 = k
    · subst h0
      simp [nset, nlookup, h]
    · simp [nset, nlookup, h0, ih]

/-! ## Claim C7 -/

/-- The container and factory-made tensor of the C7 failing input. -/
def c7Heap : Heap := { tensors := [], maps := [(0, {})] }

/-- The factory's freshly constructed, unparented tensor. -/
def c7Mk : TRefState := ⟨strOf "a", [], strOf "U8", [], none⟩

/-- C7: the claim says every tensor placed into a container (including by
`getOrMakeTensor`) gets its parent back-reference set to that container.  The
code's `getOrMakeTensor` stores the factory result with `refs.set` but never
writes `_parent`: on an empty container, the returned heap maps `"a"` to
tensor 1 while tensor 1's parent is still `none` (and a later
`removeTensor("a")` therefore throws).  This contradicts the claim, the data
model's stated invariant, and `removeTensor`'s own ownership check. -/
theorem c7_getOrMakeTensor_leaves_unparented :
    heapGetOrMakeTensor c7Heap 0 (strOf "a") c7Mk =
      .ok ({ tensors := [(1, c7Mk)], maps := [(0, { refs := [(strOf "a", 1)] })] }, 1) ∧
    c7Mk.parent = none ∧
    heapRemoveTensorByName { tensors := [(1, c7Mk)], maps := [(0, { refs := [(strOf "a", 1)] })] }
      0 (strOf "a") = .error .fatal := by
  refine ⟨rfl, rfl, rfl⟩

theorem msetEntry_append_of_none {α : Type} (k : Str) (v : α) (l : List (Str × α))
    (h : alookup k l = none) : msetEntry k v l = l ++ [(k, v)] := by
  induction l with
  | nil => simp [msetEntry]
  | cons hd t ih =>
    obtain ⟨k0, v0⟩ := hd
    by_cases h0 : k0 = k
    · subst h0
      simp [alookup] at h
    · simp only [alookup, if_neg h0] at h
      simp [msetEntry, h0, ih h]

/-! ## Claim C9 -/

/-- C9: adding an unparented tensor `t` under a key `n` different from
`t.name` stores the map entry under `n` and leaves `t.name` unchanged; the
following `removeTensor(n)` clears the back-reference but executes
`refs.delete(t.name)`, so the entry under `n` survives and `getTensor(n)`
still returns the (now unparented) tensor. -/
theorem c9_remove_deletes_own_name (h : Heap) (mid : Nat) (m : TMapState) (n : Str)
    (tid : Nat) (t : TRefState)
    (hm : nlookup mid h.maps = some m) (ht : nlookup tid h.tensors = some t)
    (hnod : (m.refs.map Prod.fst).Nodup)
    (hpar : t.parent = none) (hname : t.name ≠ n) (hfree : alookup n m.refs = none) :
    heapAddTensorRef h mid n tid =
      .ok { h with maps := nset mid { m with refs := msetEntry n tid m.refs } h.maps,
                   tensors := nset tid { t with parent := some mid } h.tensors } ∧
    heapRemoveTensorByName
      { h with maps := nset mid { m with refs := msetEntry n tid m.refs } h.maps,
               tensors := nset tid { t with parent := some mid } h.tensors } mid n =
      .ok { h with
        maps := nset mid { m with refs := mdelEntry t.name (msetEntry n tid m.refs) }
          (nset mid { m with refs := msetEntry n tid m.refs } h.maps),
        tensors := nset tid { t with parent := none }
          (nset tid { t with parent := some mid } h.tensors) } ∧
    alookup n (mdelEntry t.name (msetEntry n tid m.refs)) = some tid ∧
    alookup t.name (mdelEntry t.name (msetEntry n tid m.refs)) = none := by
  have hadd : heapAddTensorRef h mid n tid =
      .ok { h with maps := nset mid { m with refs := msetEntry n tid m.refs } h.maps,
                   tensors := nset tid { t with parent := some mid } h.tensors } := by
    unfold heapAddTensorRef heapSetTensor
    rw [hm, ht]
    simp only [hfree, hpar]
    rfl
  refine ⟨hadd, ?_, ?_, ?_⟩
  · unfold heapRemoveTensorByName heapRemoveCommon
    simp only [nlookup_nset_self, nlookup_nset_ne, alookup_msetEntry_self]
    simp only [reduceCtorEq, ne_eq, not_true_eq_false, if_false, ite_false]
    rfl
  · rw [alookup_mdelEntry_ne _ _ _ hname, alookup_msetEntry_self]
  · apply alookup_mdelEntry_self
    have hnotin : n ∉ m.refs.map Prod.fst := (alookup_eq_none_iff n m.refs).mp hfree
    rw [msetEntry_append_of_none n tid m.refs hfree]
    simp only [List.map_append, List.nodup_append, List.map_cons, List.map_nil]
    refine ⟨hnod, by simp, ?_⟩
    intro a ha hb
    simp only [List.mem_singleton] at hb
    subst hb
    exact hnotin ha

/-- Tensor of the C9 witness. -/
def c9T : TRefState := ⟨strOf "a", [5], strOf "U8", [1], none⟩

/-- Heap of the C9 witness: one empty container, one free tensor named "a". -/
def c9Heap : Heap := { tensors := [(1, c9T)], maps := [(0, { refs := [] })] }

/-- C9 witness: the theorem applied to a concrete container and tensor. -/
theorem c9_remove_deletes_own_name_witness :
    heapAddTensorRef c9Heap 0 (strOf "n") 1 =
      .ok { c9Heap with
        maps := nset 0 { refs := msetEntry (strOf "n") 1 [] } c9Heap.maps,
        tensors := nset 1 { c9T with parent := some 0 } c9Heap.tensors } ∧
    alookup (strOf "n") (mdelEntry c9T.name (msetEntry (strOf "n") 1 [])) = some 1 := by
  have h := c9_remove_deletes_own_name c9Heap 0 { refs := [] } (strOf "n") 1 c9T
    rfl rfl (by simp) rfl (by decide) rfl
  exact ⟨h.1, h.2.2.1⟩

/-! ## Claim C10 -/

/-- Heap of the C10 counterexample: tensor 1 is owned by map 0 but stored
under the key `"n"`, which differs from its own name `"a"`; no entry exists
under `"a"`. -/
def c10Heap : Heap :=
  { tensors := [(1, ⟨strOf "a", [], strOf "U8", [], some 0⟩)],
    maps := [(0, { refs := [(strOf "n", 1)] })] }

/-- C10 counterexample: the claim says renaming an owned tensor to its own
current name always throws a collision error and changes nothing.  For a
tensor mapped under a key other than its own name the collision lookup
misses, so no error is thrown and the setter *adds* a second map entry
aliasing the same tensor. -/
theorem c10_counterexample :
    heapSetName c10Heap 1 (strOf "a") =
      .ok { tensors := [(1, ⟨strOf "a", [], strOf "U8", [], some 0⟩)],
            maps := [(0, { refs := [(strOf "n", 1), (strOf "a", 1)] })] } ∧
    (nlookup 1 c10Heap.tensors).map TRefState.parent = some (some 0) := by
  refine ⟨rfl, rfl⟩

/-- C10 as amended: renaming an owned tensor to its current name throws the
name-collision error (leaving every map and tensor unchanged, since the
throw precedes all mutation) *provided the parent's map has an entry under
that name* — in particular always when the tensor is mapped under its own
name, the situation every public entry point maintains. -/
theorem c10_rename_to_same_name_collides (h : Heap) (tid : Nat) (t : TRefState)
    (mid : Nat) (m : TMapState)
    (ht : nlookup tid h.tensors = some t) (hp : t.parent = some mid)
    (hm : nlookup mid h.maps = some m) (hin : (alookup t.name m.refs).isSome) :
    heapSetName h tid t.name = .error .fatal := by
  unfold heapSetName
  rw [ht]
  simp only [hp, hm, hin, if_true]
  rfl

/-- Heap of the C10 witness: the tensor is mapped under its own name. -/
def c10WHeap : Heap :=
  { tensors := [(1, ⟨strOf "a", [], strOf "U8", [], some 0⟩)],
    maps := [(0, { refs := [(strOf "a", 1)] })] }

/-- C10 witness: the amended theorem applied to a tensor mapped under its
own name. -/
theorem c10_rename_to_same_name_collides_witness :
    heapSetName c10WHeap 1 (strOf "a") = .error .fatal := by
  exact c10_rename_to_same_name_collides c10WHeap 1 ⟨strOf "a", [], strOf "U8", [], some 0⟩ 0
    { refs := [(strOf "a", 1)] } rfl rfl rfl (by decide)

/-! ## Claim C3 -/

/-- Parsed header with two tensors: `A` covers bytes `[2, 4)` and `B` covers
`[0, 8)`, so `B` strictly contains `A` and they share bytes 2 and 3. -/
def c3Header : Json :=
  Json.objCons (strOf "A")
    (Json.objCons (strOf "dtype") (Json.str (strOf "U8"))
      (Json.objCons (strOf "shape") Json.arrNil
        (Json.objCons (strOf "data_offsets")
          (Json.arrCons (Json.num 2) (Json.arrCons (Json.num 4) Json.arrNil)) Json.objNil)))
    (Json.objCons (strOf "B")
      (Json.objCons (strOf "dtype") (Json.str (strOf "U8"))
        (Json.objCons (strOf "shape") Json.arrNil
          (Json.objCons (strOf "data_offsets")
            (Json.arrCons (Json.num 0) (Json.arrCons (Json.num 8) Json.arrNil)) Json.objNil)))
      Json.objNil)

/-- C3: Stage B with leniency disabled must reject intersecting sibling
ranges, yet it accepts this header even though byte position 2 lies in both
`[2, 4)` and `[0, 8)`: `checkTensorOverlap` tests only whether the new
range's endpoints fall inside a covered range and misses strict containment
of a covered range.  The code's own error messages ("overlaps with another
tensor") and the spec agree that any one-byte intersection must be rejected,
so this is a defect in `checkTensorOverlap`. -/
theorem c3_overlap_containment_accepted :
    sanityCheckTensorsParsed false c3Header 8 = .ok () ∧
    ((2 : ℚ) ≤ 2 ∧ (2 : ℚ) < 4) ∧ ((0 : ℚ) ≤ 2 ∧ (2 : ℚ) < 8) := by
  refine ⟨rfl, by norm_num, by norm_num⟩

/-! ## Claim C4 -/

/-- The header length as the spec words it: the unsigned little-endian
integer stored in bytes 0..3 (bytes 4..7, the high word, are required to be
zero by Stage A). -/
def headerSizeUnsignedSpec (bytes : List Nat) : Nat :=
  bytes.getD 0 0 + bytes.getD 1 0 * 256 + bytes.getD 2 0 * 65536 + bytes.getD 3 0 * 16777216

theorem toInt32_eq_int32OfPat (n : Nat) (h : n < 2 ^ 32) : toInt32 (n : Int) = int32OfPat n := by
  unfold toInt32
  rw [toUInt32_ofNat, Nat.mod_eq_of_lt h]

/-- Bytes of the C4 counterexample: length field `0x80000000`, zero high
word, then `{`. -/
def c4Bytes : List Nat := [0, 0, 0, 128, 0, 0, 0, 0, 123]

/-- C4 counterexample: the unsigned value of bytes 0..3 is `2^31`, above the
100 MiB ceiling, so the claim demands a suppressible error and (on success)
that very value; but the `| 0` in `unsafeGetHeaderSize` makes the read
*signed*, the negative result compares below the ceiling, and Stage A
succeeds returning `-2^31` instead. -/
theorem c4_counterexample :
    headerSizeUnsignedSpec c4Bytes = 2147483648 ∧
    (100 * 1024 * 1024 : Nat) < 2147483648 ∧
    sanityCheckTensorsHeader false c4Bytes 9 = .ok (-2147483648) := by
  refine ⟨rfl, by norm_num, rfl⟩

/-- C4 as amended: for byte buffers passing the magic check, the computed
header length is the *signed two's-complement* 32-bit little-endian value of
bytes 0..3; with leniency off the suppressible size error fires iff that
signed value exceeds 100 MiB, the truncation check then fires iff
`filesize < 8 + value`, and on success exactly that signed value is
returned. -/
theorem c4_signed_header_size (bytes : List Nat) (filesize : Int)
    (hb : ∀ b ∈ bytes, b < 256)
    (hmagic : jsSlice bytes 4 9 = [0, 0, 0, 0, 123]) :
    unsafeGetHeaderSize bytes = int32OfPat (headerSizeUnsignedSpec bytes) ∧
    (unsafeGetHeaderSize bytes > 100 * 1024 * 1024 →
      sanityCheckTensorsHeader false bytes filesize = .error .ignorable) ∧
    (¬unsafeGetHeaderSize bytes > 100 * 1024 * 1024 → filesize < 8 + unsafeGetHeaderSize bytes →
      sanityCheckTensorsHeader false bytes filesize = .error .fatal) ∧
    (¬unsafeGetHeaderSize bytes > 100 * 1024 * 1024 →
      ¬filesize < 8 + unsafeGetHeaderSize bytes →
      sanityCheckTensorsHeader false bytes filesize = .ok (unsafeGetHeaderSize bytes)) := by
  have hget : ∀ i, bytes.getD i 0 < 256 := by
    intro i
    rcases Nat.lt_or_ge i bytes.length with hi | hi
    · rw [List.getD_eq_getElem?_getD, List.getElem?_eq_getElem hi]
      exact hb _ (List.getElem_mem hi)
    · rw [List.getD_eq_default _ _ hi]
      norm_num
  have hbridge : unsafeGetHeaderSize bytes = int32OfPat (headerSizeUnsignedSpec bytes) := by
    unfold unsafeGetHeaderSize headerSizeUnsignedSpec
    have h0 := hget 0
    have h1 := hget 1
    have h2 := hget 2
    have h3 := hget 3
    have hcast : (bytes.getD 0 0 : Int) + (bytes.getD 1 0 : Int) * 256 +
        (bytes.getD 2 0 : Int) * 65536 + (bytes.getD 3 0 : Int) * 16777216 =
        ((bytes.getD 0 0 + bytes.getD 1 0 * 256 + bytes.getD 2 0 * 65536 +
          bytes.getD 3 0 * 16777216 : Nat) : Int) := by
      push_cast
      ring
    rw [hcast]
    exact toInt32_eq_int32OfPat _ (by omega)
  have hcmp : arrayCompare (jsSlice bytes 4 9) [0, 0, 0, 0, 123] = true := by
    rw [hmagic]
    rfl
  refine ⟨hbridge, ?_, ?_, ?_⟩
  · intro hbig
    unfold sanityCheckTensorsHeader
    simp only [hcmp, Bool.not_true, Bool.false_eq_true, if_false]
    rw [if_pos (show unsafeGetHeaderSize bytes > 100 * 1024 * 1024 ∧ (!false) = true from
      ⟨hbig, rfl⟩)]
    rfl
  · intro hsm htr
    unfold sanityCheckTensorsHeader
    simp only [hcmp, Bool.not_true, Bool.false_eq_true, if_false]
    rw [if_neg (show ¬(unsafeGetHeaderSize bytes > 100 * 1024 * 1024 ∧ (!false) = true) from
      fun hx => hsm hx.1)]
    rw [if_pos htr]
    rfl
  · intro hsm htr
    unfold sanityCheckTensorsHeader
    simp only [hcmp, Bool.not_true, Bool.false_eq_true, if_false]
    rw [if_neg (show ¬(unsafeGetHeaderSize bytes > 100 * 1024 * 1024 ∧ (!false) = true) from
      fun hx => hsm hx.1)]
    rw [if_neg htr]
    rfl

/-- C4 witness: a small valid header length (64) on a large enough file. -/
theorem c4_signed_header_size_witness :
    unsafeGetHeaderSize [64, 0, 0, 0, 0, 0, 0, 0, 123] =
      int32OfPat (headerSizeUnsignedSpec [64, 0, 0, 0, 0, 0, 0, 0, 123]) ∧
    sanityCheckTensorsHeader false [64, 0, 0, 0, 0, 0, 0, 0, 123] 100 = .ok 64 := by
  have h := c4_signed_header_size [64, 0, 0, 0, 0, 0, 0, 0, 123] 100
    (by decide) (by decide)
  refine ⟨h.1, ?_⟩
  have := h.2.2.2 (by decide) (by decide)
  rw [this]
  rfl

/-! ## Claim C5 -/

theorem toUInt32_int32OfPat (u : Nat) (h : u < 2 ^ 32) : toUInt32 (int32OfPat u) = u := by
  unfold toUInt32 int32OfPat
  have e : (2 : Int) ^ 32 = 4294967296 := by norm_num
  rw [e]
  norm_num at h
  split <;> rename_i hc <;> norm_num at hc <;> omega

theorem toUInt32_int32OfPat_sub_one (u : Nat) (h : u < 2 ^ 32) (h0 : u ≠ 0) :
    toUInt32 (int32OfPat u - 1) = u - 1 := by
  unfold toUInt32 int32OfPat
  have e : (2 : Int) ^ 32 = 4294967296 := by norm_num
  rw [e]
  norm_num at h
  split <;> rename_i hc <;> norm_num at hc <;> omega

theorem toUInt32_neg_one : toUInt32 (int32OfPat 0 - 1) = 2 ^ 32 - 1 := by
  decide

theorem int32OfPat_eq_zero_iff (u : Nat) (h : u < 2 ^ 32) : int32OfPat u = 0 ↔ u = 0 := by
  unfold int32OfPat
  split <;> omega

theorem formatLength_none (s : Str) (h : firstDigitRun s = none) :
    formatLength s = .error .fatal := by
  unfold formatLength
  rw [h]
  rfl

/-- The fuel-driven logarithm agrees with `Nat.log2` once the fuel covers
the argument. -/
theorem log2Fuel_eq (f : Nat) : ∀ n, n ≤ f → log2Fuel f n = Nat.log2 n := by
  induction f with
  | zero =>
    intro n hn
    rw [Nat.le_zero.mp hn]
    rw [Nat.log2]
    rfl
  | succ f ih =>
    intro n hn
    show (if n < 2 then 0 else log2Fuel f (n / 2) + 1) = Nat.log2 n
    rw [Nat.log2]
    by_cases h2 : n < 2
    · rw [if_pos h2, if_neg (by omega)]
    · rw [if_neg h2, if_pos (by omega)]
      rw [ih (n / 2) (by omega)]

theorem natLog2_eq (n : Nat) : natLog2 n = Nat.log2 n := log2Fuel_eq n n le_rfl

/-- The overflow test of `parseIntTo32` is exactly the double range bound. -/
theorem natLog2_overflow_iff (n : Nat) : 1024 ≤ natLog2 n ↔ 2 ^ 1024 ≤ n := by
  rw [natLog2_eq]
  rcases Nat.eq_zero_or_pos n with h | h
  · rw [h]
    constructor
    · intro hcon
      exact absurd hcon (by norm_num [Nat.log2])
    · intro hcon
      have h2 : 0 < 2 ^ 1024 := Nat.pos_pow_of_pos 1024 (by norm_num)
      omega
  · exact Nat.le_log2 (Nat.pos_iff_ne_zero.mp h)

/-- `parseInt(run) | 0` is the sign decode of the pattern `runPat`. -/
theorem parseIntTo32_pat (ds : Str) : parseIntTo32 ds = int32OfPat (runPat ds) := by
  unfold parseIntTo32 runPat
  by_cases hov : 1024 ≤ natLog2 (roundDouble (digitsVal ds))
  · simp only [if_pos hov]
    rfl
  · simp only [if_neg hov]
    unfold toInt32
    rw [toUInt32_ofNat]

theorem runPat_lt (ds : Str) : runPat ds < 2 ^ 32 := by
  unfold runPat
  split
  · norm_num
  · exact Nat.mod_lt _ (by norm_num)

theorem formatLength_some (s : Str) (ds : Str) (h : firstDigitRun s = some ds) :
    formatLength s =
      if and32 (parseIntTo32 ds) (parseIntTo32 ds - 1) ≠ 0 then .error .fatal
      else .ok ((parseIntTo32 ds : ℚ) / 8) := by
  unfold formatLength
  rw [h]
  rfl

/-- C5 counterexample: two divergences from the claim.  The first digit run
of `"X0"` has value 0 — not a power of two, so the claim demands a fatal
error — yet `0 & (0 - 1) = 0 & -1 = 0` passes the check and byte size 0 is
returned.  And the first integer of `"9007199254740995"` is `2^53 + 3`, also
not a power of two, but `parseInt` first rounds it to the even double
`2^53 + 4`, whose 32-bit pattern 4 passes the check, so byte size `0.5` is
returned instead of a fatal error. -/
theorem c5_counterexample :
    (formatLength (strOf "X0") = .ok 0 ∧
      digitsVal [48] = 0 ∧ ¬(∃ k : ℕ, 0 = 2 ^ k)) ∧
    (formatLength (strOf "9007199254740995") = .ok (1 / 2) ∧
      digitsVal (strOf "9007199254740995") = 2 ^ 53 + 3 ∧
      roundDouble (2 ^ 53 + 3) = 2 ^ 53 + 4 ∧
      ¬(∃ k : ℕ, 2 ^ 53 + 3 = 2 ^ k)) := by
  refine ⟨⟨by with_unfolding_all rfl, rfl, ?_⟩,
    by with_unfolding_all rfl, by decide, by decide, ?_⟩
  · rintro ⟨k, hk⟩
    exact absurd hk.symm (Nat.pos_iff_ne_zero.mp (Nat.pos_pow_of_pos k (by norm_num)))
  · rintro ⟨k, hk⟩
    rcases k with _ | k
    · simp at hk
    · have h2 : (2 : ℕ) ∣ 2 ^ (k + 1) := dvd_pow_self 2 (Nat.succ_ne_zero k)
      rw [← hk] at h2
      omega

/-- C5 as amended: `formatLength` fails iff the format has no digits, or the
32-bit pattern of its first decimal integer — the value of the run rounded
to the nearest double by `parseInt` (`Infinity`, hence pattern 0, from `2^1024`
up), then truncated to its low 32 bits — is neither zero nor a single bit;
on success it returns the *signed* 32-bit value divided by 8.  This differs
from the claim (`c5_counterexample`): a first integer of 0 passes the check
(`0 & -1 = 0`) and returns byte size 0, double rounding lets values such as
`2^53 + 3` pass, the value is reduced mod `2^32`, and a `2^31`-bit format
yields a negative size. -/
theorem c5_pattern_of_first_integer (s : Str) :
    (firstDigitRun s = none → formatLength s = .error .fatal) ∧
    (∀ ds, firstDigitRun s = some ds →
      ((runPat ds = 0 ∨ ∃ k, runPat ds = 2 ^ k) →
        formatLength s = .ok ((int32OfPat (runPat ds) : ℚ) / 8)) ∧
      (¬(runPat ds = 0 ∨ ∃ k, runPat ds = 2 ^ k) →
        formatLength s = .error .fatal)) := by
  refine ⟨formatLength_none s, ?_⟩
  intro ds hds
  have hu : runPat ds < 2 ^ 32 := runPat_lt ds
  have hparsed : parseIntTo32 ds = int32OfPat (runPat ds) := parseIntTo32_pat ds
  have hand : and32 (parseIntTo32 ds) (parseIntTo32 ds - 1) =
      int32OfPat ((runPat ds) &&&
        (if runPat ds = 0 then 2 ^ 32 - 1 else runPat ds - 1)) := by
    unfold and32
    rw [hparsed, toUInt32_int32OfPat _ hu]
    by_cases h0 : runPat ds = 0
    · rw [if_pos h0, h0, toUInt32_neg_one]
    · rw [if_neg h0, toUInt32_int32OfPat_sub_one _ hu h0]
  have hzero : (and32 (parseIntTo32 ds) (parseIntTo32 ds - 1) = 0) ↔
      (runPat ds = 0 ∨ ∃ k, runPat ds = 2 ^ k) := by
    rw [hand]
    by_cases h0 : runPat ds = 0
    · rw [if_pos h0, h0]
      simp [h0, int32OfPat]
    · rw [if_neg h0]
      rw [int32OfPat_eq_zero_iff _ (Nat.lt_of_le_of_lt Nat.and_le_left hu)]
      rw [land_pred_eq_zero_iff _ h0]
      exact (or_iff_right h0).symm
  constructor
  · intro hok
    rw [formatLength_some _ ds hds]
    rw [if_neg (by simp [hzero.mpr hok])]
    rw [hparsed]
  · intro hbad
    rw [formatLength_some _ ds hds]
    rw [if_pos (by simp only [ne_eq]; exact fun hx => hbad (hzero.mp hx))]

/-- C5 witness: `"BF16"` has first integer 16 = 2^4 and byte size 2. -/
theorem c5_pattern_of_first_integer_witness :
    firstDigitRun (strOf "BF16") = some [49, 54] ∧
    formatLength (strOf "BF16") = .ok ((int32OfPat (runPat [49, 54]) : ℚ) / 8) ∧
    ((int32OfPat (runPat [49, 54]) : ℚ) / 8) = 2 := by
  refine ⟨rfl, ?_, ?_⟩
  · exact ((c5_pattern_of_first_integer (strOf "BF16")).2 [49, 54] rfl).1
      (Or.inr ⟨4, by decide⟩)
  · rw [show runPat [49, 54] = 16 from by decide]
    rw [show int32OfPat 16 = 16 from by decide]
    norm_num

theorem strOf_dtype : strOf "dtype" = [100, 116, 121, 112, 101] := rfl

theorem strOf_shape : strOf "shape" = [115, 104, 97, 112, 101] := rfl

theorem strOf_data_offsets :
    strOf "data_offsets" = [100, 97, 116, 97, 95, 111, 102, 102, 115, 101, 116, 115] := rfl

theorem strOf_metadata :
    strOf "__metadata__" = [95, 95, 109, 101, 116, 97, 100, 97, 116, 97, 95, 95] := rfl

theorem strOf_proto : strOf "__proto__" = [95, 95, 112, 114, 111, 116, 111, 95, 95] := rfl

/-- The three recognized keys and the reserved key are pairwise distinct. -/
theorem recognizedKeys_distinct :
    strOf "dtype" ≠ strOf "shape" ∧ strOf "dtype" ≠ strOf "data_offsets" ∧
    strOf "dtype" ≠ strOf "__metadata__" ∧ strOf "shape" ≠ strOf "data_offsets" ∧
    strOf "shape" ≠ strOf "__metadata__" ∧ strOf "data_offsets" ≠ strOf "__metadata__" := by
  rw [strOf_dtype, strOf_shape, strOf_data_offsets, strOf_metadata]
  refine ⟨by simp, by simp, by simp, by simp, by simp, by simp⟩

/-! ## Claim C6 -/

/-- Does an entry list contain a property with the given key. -/
def hasProp (es : List (Str × Json)) (k : Str) : Bool := es.any (fun kv => kv.1 == k)

/-- The fatal (never-suppressible) Stage B conditions for one tensor entry:
`Object.entries` must not raise (the value is not `null`), every occurrence
of the three recognized fields must be well-shaped, and all three must be
present. -/
def tensorEntryFatalOk (v : Json) : Bool :=
  match jsEntriesOfVal v with
  | .error _ => false
  | .ok es =>
    es.all (fun kv =>
      (!(kv.1 == strOf "dtype") || kv.2.isStr) &&
      (!(kv.1 == strOf "shape") || kv.2.isArr) &&
      (!(kv.1 == strOf "data_offsets") ||
        (kv.2.isArr && ((arrElemsList kv.2).length == 2)))) &&
    hasProp es (strOf "dtype") && hasProp es (strOf "shape") &&
    hasProp es (strOf "data_offsets")

/-- The fatal Stage B conditions for a whole parsed header. -/
def stageBFatalOk (j : Json) : Bool :=
  match jsEntriesOfVal j with
  | .error _ => false
  | .ok es =>
    es.all (fun kv =>
      if kv.1 = strOf "__metadata__" then !(kv.2 == Json.null) else tensorEntryFatalOk kv.2)

theorem checkShapeElems_lenient (l : List Json) : checkShapeElems true l = .ok () := by
  induction l with
  | nil => rfl
  | cons v t ih => simp [checkShapeElems, ih]

theorem checkMetadataList_lenient (l : List (Str × Json)) :
    checkMetadataList true l = .ok () := by
  induction l with
  | nil => rfl
  | cons kv t ih =>
    obtain ⟨k, v⟩ := kv
    simp [checkMetadataList, ih]

theorem checkTensorOverlap_lenient (s e v0 v1 : Json) :
    checkTensorOverlap true s e v0 v1 = .ok () := by
  unfold checkTensorOverlap
  simp only [Bool.not_true, Bool.and_false, Bool.false_eq_true, if_false]
  rfl

theorem checkOverlapAll_lenient (v0 v1 : Json) (l : List (Json × Json)) :
    checkOverlapAll true v0 v1 l = .ok () := by
  induction l with
  | nil => rfl
  | cons p t ih =>
    obtain ⟨s, e⟩ := p
    simp only [checkOverlapAll, checkTensorOverlap_lenient]
    rw [ih]
    rfl

theorem checkDataOffsetBasics_lenient (cs : Int) (v0 v1 : Json) :
    checkDataOffsetBasics true cs v0 v1 = .ok () := by
  unfold checkDataOffsetBasics
  rw [if_neg (by simp)]
  rfl

theorem checkDataOffsets_lenient (cs : Int) (covered : List (Json × Json)) (obj : Json)
    (ha : obj.isArr = true) (hl : (arrElemsList obj).length = 2) :
    checkDataOffsets true cs covered obj =
      .ok (covered ++ [((arrElemsList obj).getD 0 .null, (arrElemsList obj).getD 1 .null)]) := by
  unfold checkDataOffsets
  rw [ha, hl]
  rw [if_neg (by decide)]
  simp only [pure_bind]
  rw [checkDataOffsetBasics_lenient, checkOverlapAll_lenient]
  rfl

theorem except_bind_ok {ε α β : Type} (a : α) (f : α → Except ε β) :
    (Except.ok a >>= f : Except ε β) = f a := rfl

theorem beq_dtype_shape : (strOf "dtype" == strOf "shape") = false := by
  rw [strOf_dtype, strOf_shape]
  rfl

theorem beq_dtype_do : (strOf "dtype" == strOf "data_offsets") = false := by
  rw [strOf_dtype, strOf_data_offsets]
  rfl

theorem beq_shape_dtype : (strOf "shape" == strOf "dtype") = false := by
  rw [strOf_dtype, strOf_shape]
  rfl

theorem beq_shape_do : (strOf "shape" == strOf "data_offsets") = false := by
  rw [strOf_shape, strOf_data_offsets]
  rfl

theorem beq_do_dtype : (strOf "data_offsets" == strOf "dtype") = false := by
  rw [strOf_dtype, strOf_data_offsets]
  rfl

theorem beq_do_shape : (strOf "data_offsets" == strOf "shape") = false := by
  rw [strOf_shape, strOf_data_offsets]
  rfl

theorem checkTensorEntries_lenient (cs : Int) (es : List (Str × Json)) :
    ∀ covered hd hs ho,
    (∀ kv ∈ es, (kv.1 = strOf "dtype" → kv.2.isStr = true) ∧
      (kv.1 = strOf "shape" → kv.2.isArr = true) ∧
      (kv.1 = strOf "data_offsets" → kv.2.isArr = true ∧ (arrElemsList kv.2).length = 2)) →
    ∃ cov', checkTensorEntries true cs es covered hd hs ho =
      .ok (cov', hd || hasProp es (strOf "dtype"), hs || hasProp es (strOf "shape"),
           ho || hasProp es (strOf "data_offsets")) := by
  induction es with
  | nil =>
    intro covered hd hs ho _
    refine ⟨covered, ?_⟩
    simp only [checkTensorEntries, hasProp, List.any_nil, Bool.or_false]
    rfl
  | cons kv t ih =>
    intro covered hd hs ho hcond
    obtain ⟨k, v⟩ := kv
    have hk := hcond (k, v) (List.mem_cons_self _ _)
    have ht : ∀ kv ∈ t, _ := fun kv hkv => hcond kv (List.mem_cons_of_mem _ hkv)
    by_cases hdty : k = strOf "dtype"
    · subst hdty
      have hstr := hk.1 rfl
      obtain ⟨cov', hrec⟩ := ih covered true hs ho ht
      refine ⟨cov', ?_⟩
      unfold checkTensorEntries
      rw [if_neg (by simp [attrOk])]
      rw [if_pos rfl, hstr]
      simp only [Bool.not_true, Bool.false_eq_true, if_false]
      rw [hrec]
      simp only [hasProp, List.any_cons, beq_self_eq_true, beq_dtype_shape, beq_dtype_do,
        Bool.true_or, Bool.false_or, Bool.or_true]
      rfl
    · by_cases hsh : k = strOf "shape"
      · subst hsh
        have harr := hk.2.1 rfl
        obtain ⟨cov', hrec⟩ := ih covered hd true ho ht
        refine ⟨cov', ?_⟩
        unfold checkTensorEntries
        rw [if_neg (by simp [attrOk])]
        rw [if_neg (Ne.symm recognizedKeys_distinct.1), if_pos rfl]
        unfold checkTensorShape
        rw [harr]
        simp only [Bool.not_true, Bool.false_eq_true, if_false]
        rw [checkShapeElems_lenient]
        simp only [pure_bind]
        rw [hrec]
        simp only [hasProp, List.any_cons, beq_self_eq_true, beq_shape_dtype, beq_shape_do,
          Bool.true_or, Bool.false_or, Bool.or_true]
        rfl
      · by_cases hdo : k = strOf "data_offsets"
        · subst hdo
          have ⟨harr, hlen⟩ := hk.2.2 rfl
          obtain ⟨cov', hrec⟩ :=
            ih (covered ++ [((arrElemsList v).getD 0 .null, (arrElemsList v).getD 1 .null)])
              hd hs true ht
          refine ⟨cov', ?_⟩
          unfold checkTensorEntries
          rw [if_neg (by simp [attrOk])]
          rw [if_neg (Ne.symm recognizedKeys_distinct.2.1),
            if_neg (Ne.symm recognizedKeys_distinct.2.2.2.1)]
          rw [checkDataOffsets_lenient _ _ _ harr hlen]
          simp only [pure_bind, except_bind_ok]
          rw [hrec]
          simp only [hasProp, List.any_cons, beq_self_eq_true, beq_do_dtype, beq_do_shape,
            Bool.true_or, Bool.false_or, Bool.or_true]
        · by_cases hok : attrOk k
          · exfalso
            unfold attrOk at hok
            simp only [Bool.or_eq_true, decide_eq_true_eq] at hok
            tauto
          · obtain ⟨cov', hrec⟩ := ih covered hd hs ho ht
            refine ⟨cov', ?_⟩
            unfold checkTensorEntries
            rw [if_pos (by simp [hok])]
            simp only [Bool.not_true, Bool.false_eq_true, if_false]
            rw [hrec]
            simp only [hasProp, List.any_cons, beq_eq_false_iff_ne.mpr hdty,
              beq_eq_false_iff_ne.mpr hsh, beq_eq_false_iff_ne.mpr hdo, Bool.false_or]

theorem jsEntriesOfVal_ne_null (v : Json) (h : v ≠ Json.null) :
    ∃ es, jsEntriesOfVal v = .ok es := by
  cases v <;> first
    | exact absurd rfl h
    | exact ⟨_, rfl⟩

theorem checkTensorValue_lenient (cs : Int) (covered : List (Json × Json)) (v : Json)
    (h : tensorEntryFatalOk v = true) :
    ∃ cov', checkTensorValue true cs covered v = .ok cov' := by
  unfold tensorEntryFatalOk at h
  unfold checkTensorValue
  cases hje : jsEntriesOfVal v with
  | error e =>
    rw [hje] at h
    cases h
  | ok es =>
    rw [hje] at h
    simp only [Bool.and_eq_true, List.all_eq_true] at h
    obtain ⟨⟨⟨hall, hd⟩, hs⟩, ho⟩ := h
    have hcond : ∀ kv ∈ es, (kv.1 = strOf "dtype" → kv.2.isStr = true) ∧
        (kv.1 = strOf "shape" → kv.2.isArr = true) ∧
        (kv.1 = strOf "data_offsets" → kv.2.isArr = true ∧ (arrElemsList kv.2).length = 2) := by
      intro kv hkv
      have hthis := hall kv hkv
      simp only [Bool.and_eq_true, Bool.or_eq_true] at hthis
      refine ⟨fun he => ?_, fun he => ?_, fun he => ?_⟩
      · rcases hthis.1.1 with hx | hx
        · rw [Bool.not_eq_true', beq_eq_false_iff_ne] at hx
          exact absurd he hx
        · exact hx
      · rcases hthis.1.2 with hx | hx
        · rw [Bool.not_eq_true', beq_eq_false_iff_ne] at hx
          exact absurd he hx
        · exact hx
      · rcases hthis.2 with hx | hx
        · rw [Bool.not_eq_true', beq_eq_false_iff_ne] at hx
          exact absurd he hx
        · refine ⟨hx.1, ?_⟩
          have h2 := hx.2
          simpa using h2
    obtain ⟨cov', hce⟩ := checkTensorEntries_lenient cs es covered false false false hcond
    refine ⟨cov', ?_⟩
    simp only [except_bind_ok]
    rw [hce]
    simp only [except_bind_ok, Bool.false_or]
    rw [hd, hs, ho]
    rfl

theorem sctpGo_lenient (cs : Int) (es : List (Str × Json)) :
    ∀ covered,
    (∀ kv ∈ es, (kv.1 = strOf "__metadata__" → kv.2 ≠ Json.null) ∧
      (kv.1 ≠ strOf "__metadata__" → tensorEntryFatalOk kv.2 = true)) →
    sctpGo true cs es covered = .ok () := by
  induction es with
  | nil =>
    intro covered _
    rfl
  | cons kv t ih =>
    intro covered hcond
    obtain ⟨k, v⟩ := kv
    have hk := hcond (k, v) (List.mem_cons_self _ _)
    have ht := fun kv hkv => hcond kv (List.mem_cons_of_mem _ hkv)
    unfold sctpGo
    by_cases hmd : k = strOf "__metadata__"
    · rw [if_pos hmd]
      have hv : v ≠ Json.null := hk.1 hmd
      obtain ⟨es', hes'⟩ := jsEntriesOfVal_ne_null v hv
      unfold checkMetadata
      rw [hes']
      simp only [except_bind_ok]
      rw [checkMetadataList_lenient]
      simp only [except_bind_ok]
      exact ih covered ht
    · rw [if_neg hmd]
      obtain ⟨cov', hcv⟩ := checkTensorValue_lenient cs covered v (hk.2 hmd)
      rw [hcv]
      simp only [except_bind_ok]
      exact ih cov' ht

/-- C6 counterexample: the explicit size check takes no leniency flag at
all, so its shape/byte-length mismatch — which the claim lists as a
suppressible violation that must not raise when leniency is enabled — raises
an `IgnorableError` unconditionally: one byte with format `"8"` (one byte
per element) and shape `[2]` always throws, and no argument of
`_sanityCheck`/`sanityCheck` can prevent it. -/
theorem c6_counterexample :
    _sanityCheck (strOf "t") [0] (some (strOf "8")) (some [2]) = .error .ignorable := by
  with_unfolding_all rfl

/-- C6 as amended: of the violations the spec calls suppressible, the five
on the decode path — oversized header length, non-numeric shape elements,
out-of-range offsets, overlapping offsets, unrecognized per-tensor fields,
and non-string metadata values — indeed never raise once leniency is
enabled, and the validators hand the parsed values through untouched; but
the sixth, the shape/byte-length mismatch of the explicit size check, is
raised unconditionally because `sanityCheck` accepts no leniency flag
(`c6_counterexample`).  Stage A succeeds whenever the magic and truncation
checks (both fatal) pass, whatever the decoded size; Stage B succeeds
whenever the fatal structural conditions `stageBFatalOk` hold. -/
theorem c6_lenient_never_raises (bytes : List Nat) (filesize : Int) (j : Json) (cs : Int)
    (hmagic : jsSlice bytes 4 9 = [0, 0, 0, 0, 123])
    (hsize : ¬filesize < 8 + unsafeGetHeaderSize bytes)
    (hfatal : stageBFatalOk j = true) :
    sanityCheckTensorsHeader true bytes filesize = .ok (unsafeGetHeaderSize bytes) ∧
    sanityCheckTensorsParsed true j cs = .ok () := by
  constructor
  · have hcmp : arrayCompare (jsSlice bytes 4 9) [0, 0, 0, 0, 123] = true := by
      rw [hmagic]
      rfl
    unfold sanityCheckTensorsHeader
    simp only [hcmp, Bool.not_true, Bool.false_eq_true, if_false]
    rw [if_neg (show ¬(unsafeGetHeaderSize bytes > 100 * 1024 * 1024 ∧ False) from
      fun hx => hx.2)]
    rw [if_neg hsize]
    rfl
  · unfold stageBFatalOk at hfatal
    unfold sanityCheckTensorsParsed
    cases hje : jsEntriesOfVal j with
    | error e =>
      rw [hje] at hfatal
      cases hfatal
    | ok es =>
      rw [hje] at hfatal
      simp only [List.all_eq_true] at hfatal
      simp only [except_bind_ok]
      apply sctpGo_lenient
      intro kv hkv
      have hthis := hfatal kv hkv
      constructor
      · intro hmd
        rw [if_pos hmd] at hthis
        simpa using hthis
      · intro hmd
        rw [if_neg hmd] at hthis
        exact hthis

/-- Header value of the C6 witness, exercising all five decode-path
suppressible violations at once: an unrecognized field, a non-numeric shape
element, offsets out of range of chunk size 4 that also overlap each other,
and a non-string metadata value. -/
def c6Witness : Json :=
  Json.objCons (strOf "__metadata__")
    (Json.objCons (strOf "k") (Json.num 3) Json.objNil)
    (Json.objCons (strOf "A")
      (Json.objCons (strOf "dtype") (Json.str (strOf "U8"))
        (Json.objCons (strOf "shape") (Json.arrCons (Json.str (strOf "x")) Json.arrNil)
          (Json.objCons (strOf "data_offsets")
            (Json.arrCons (Json.num 0) (Json.arrCons (Json.num 9) Json.arrNil))
            (Json.objCons (strOf "extra") Json.null Json.objNil))))
      (Json.objCons (strOf "B")
        (Json.objCons (strOf "dtype") (Json.str (strOf "U8"))
          (Json.objCons (strOf "shape") Json.arrNil
            (Json.objCons (strOf "data_offsets")
              (Json.arrCons (Json.num 0) (Json.arrCons (Json.num 9) Json.arrNil)) Json.objNil)))
        Json.objNil))

/-- C6 witness: a 9-byte file whose decoded header size is far above the
100 MiB ceiling passes Stage A leniently because the size error is the only
one raised, and `c6Witness` passes Stage B leniently. -/
theorem c6_lenient_never_raises_witness :
    sanityCheckTensorsHeader true [0, 0, 0, 64, 0, 0, 0, 0, 123] (2 ^ 31) =
      .ok (unsafeGetHeaderSize [0, 0, 0, 64, 0, 0, 0, 0, 123]) ∧
    sanityCheckTensorsParsed true c6Witness 4 = .ok () := by
  exact c6_lenient_never_raises [0, 0, 0, 64, 0, 0, 0, 0, 123] (2 ^ 31) c6Witness 4
    (by rfl) (by decide) (by with_unfolding_all rfl)

/-! ## Claim C8: the offset-assignment phase (`calcOffset`, lines 87-100) -/

/-- The sequence of `ten.dataOffsets = [offset, offset + len]` assignments
made by `calcOffset()`'s loop, with the running offset advanced by
`(len + 7) & ~7` exactly as in the source (a 32-bit `&`, see `and32`).
This is the projection of `calcOffsetGo` onto the assigned pairs. -/
def offsetPairs : List (Str × TensorRefData) → Int → List (Int × Int)
  | [], _ => []
  | (_, t) :: rest, off =>
    (off, off + t.bytes.length) ::
      offsetPairs rest (off + and32 ((t.bytes.length : Int) + 7) (-8))

/-- The same assignment loop as the claim words it: the running offset is
advanced by the byte length rounded up to the next multiple of 8, with
ordinary (unbounded) integer arithmetic. -/
def offsetPairsSpec : List (Str × TensorRefData) → Int → List (Int × Int)
  | [], _ => []
  | (_, t) :: rest, off =>
    (off, off + t.bytes.length) ::
      offsetPairsSpec rest (off + ((8 * ((t.bytes.length + 7) / 8) : Nat) : Int))

/-- A 2 GiB tensor: `(len + 7) & ~7` wraps to `-2^31` at this size. -/
def c8Big : TensorRefData :=
  ⟨strOf "big", List.replicate 2147483648 0, strOf "U8", [2147483648]⟩

/-- An 8-byte tensor following the 2 GiB one. -/
def c8Tail : TensorRefData :=
  ⟨strOf "tail", List.replicate 8 0, strOf "U8", [8]⟩

/-- C8 counterexample: with a 2 GiB (`2^31`-byte) tensor first, the advance
`(len + 7) & ~7` is the 32-bit value `-2^31`, so the next tensor is assigned
the pair `[-2^31, -2^31 + 8]` and the first tensor's end offset `2^31` is
*not* `≤` the second tensor's start offset, refuting the claim's invariant
as stated for all containers. -/
theorem c8_counterexample :
    offsetPairs [(strOf "big", c8Big), (strOf "tail", c8Tail)] 0 =
      [((0 : Int), (2147483648 : Int)), ((-2147483648 : Int), (-2147483640 : Int))] ∧
    ¬ ((2147483648 : Int) ≤ -2147483648) ∧
    c8Big.bytes.length = 2 ^ 31 := by
  have hlen1 : c8Big.bytes.length = 2147483648 := List.length_replicate ..
  have hlen2 : c8Tail.bytes.length = 8 := List.length_replicate ..
  have hadv1 : and32 (((2147483648 : Nat) : Int) + 7) (-8) = -2147483648 := by
    have hc : (((2147483648 : Nat) : Int) + 7) = (2147483655 : Int) := by norm_num
    rw [hc]; decide
  refine ⟨?_, by decide, by rw [hlen1]; norm_num⟩
  simp only [offsetPairs, hlen1, hlen2, hadv1]
  norm_num

/-- **C8.** (amended: all byte lengths below the 32-bit wrap) For every
container whose tensors each satisfy `byteLength + 7 < 2^31`, the
offset-assignment loop is exactly the round-up-to-8 loop of the claim
(`offsetPairsSpec`): every assigned pair is `[runningOffset, runningOffset +
byteLength]`, every start offset is a multiple of 8 (the running offset
starts at 0 in `calcOffset`, here any multiple of 8), each tensor's end
offset is at most the next tensor's start offset, and the first pair starts
at the initial running offset. -/
theorem c8_offset_assignment (tes : List (Str × TensorRefData)) (off : Int)
    (hoff : off % 8 = 0)
    (hlen : ∀ kv ∈ tes, kv.2.bytes.length + 7 < 2 ^ 31) :
    offsetPairs tes off = offsetPairsSpec tes off ∧
    (∀ p ∈ offsetPairs tes off, p.1 % 8 = 0) ∧
    List.Chain' (fun p q => p.2 ≤ q.1) (offsetPairs tes off) ∧
    List.Forall₂ (fun (p : Int × Int) kv => p.2 = p.1 + (kv.2.bytes.length : Int))
      (offsetPairs tes off) tes ∧
    (∀ p ∈ (offsetPairs tes off).head?, p.1 = off) := by
  induction tes generalizing off with
  | nil =>
    refine ⟨rfl, ?_, ?_, ?_, ?_⟩
    · intro p hp; simp [offsetPairs] at hp
    · simp [offsetPairs]
    · simp [offsetPairs]
    · intro p hp; simp [offsetPairs] at hp
  | cons kv rest ih =>
    obtain ⟨name, t⟩ := kv
    have hk : t.bytes.length + 7 < 2 ^ 31 := hlen (name, t) (List.mem_cons_self _ _)
    have hadv := and32_align t.bytes.length hk
    have hoff' : (off + ((8 * ((t.bytes.length + 7) / 8) : Nat) : Int)) % 8 = 0 := by
      obtain ⟨d, hd⟩ : ∃ d : Int, ((8 * ((t.bytes.length + 7) / 8) : Nat) : Int) = 8 * d :=
        ⟨(((t.bytes.length + 7) / 8 : Nat) : Int), by push_cast; ring⟩
      omega
    obtain ⟨ihspec, ihmod, ihchain, ihfa, ihhead⟩ :=
      ih (off + ((8 * ((t.bytes.length + 7) / 8) : Nat) : Int)) hoff'
        (fun kv hkv => hlen kv (List.mem_cons_of_mem _ hkv))
    have hstep : offsetPairs ((name, t) :: rest) off =
        (off, off + (t.bytes.length : Int)) ::
          offsetPairs rest (off + ((8 * ((t.bytes.length + 7) / 8) : Nat) : Int)) := by
      simp only [offsetPairs, hadv]
    have hle : (t.bytes.length : Int) ≤ ((8 * ((t.bytes.length + 7) / 8) : Nat) : Int) := by
      have h8 : t.bytes.length ≤ 8 * ((t.bytes.length + 7) / 8) := by omega
      exact_mod_cast h8
    refine ⟨?_, ?_, ?_, ?_, ?_⟩
    · rw [hstep]
      simp only [offsetPairsSpec]
      rw [ihspec]
    · intro p hp
      rw [hstep] at hp
      rcases List.mem_cons.mp hp with h | h
      · rw [h]; exact hoff
      · exact ihmod p h
    · rw [hstep]
      refine List.chain'_cons'.mpr ⟨?_, ihchain⟩
      intro q hq
      have hq1 := ihhead q hq
      show off + (t.bytes.length : Int) ≤ q.1
      omega
    · rw [hstep]
      exact List.Forall₂.cons rfl ihfa
    · rw [hstep]
      intro p hp
      simp only [List.head?_cons, Option.mem_def, Option.some.injEq] at hp
      rw [← hp]

/-- Witness container for C8: a 3-byte and a 1-byte tensor. -/
def c8WTes : List (Str × TensorRefData) :=
  [(strOf "a", ⟨strOf "a", [0, 0, 0], strOf "U8", [3]⟩),
   (strOf "b", ⟨strOf "b", [1], strOf "U8", [1]⟩)]

/-- C8 witness: the amended theorem applied to a concrete 2-tensor
container at running offset 0. -/
theorem c8_offset_assignment_witness :
    ((0 : Int) % 8 = 0 ∧ ∀ kv ∈ c8WTes, kv.2.bytes.length + 7 < 2 ^ 31) ∧
    (offsetPairs c8WTes 0 = offsetPairsSpec c8WTes 0 ∧
      (∀ p ∈ offsetPairs c8WTes 0, p.1 % 8 = 0) ∧
      List.Chain' (fun p q => p.2 ≤ q.1) (offsetPairs c8WTes 0) ∧
      List.Forall₂ (fun (p : Int × Int) kv => p.2 = p.1 + (kv.2.bytes.length : Int))
        (offsetPairs c8WTes 0) c8WTes ∧
      (∀ p ∈ (offsetPairs c8WTes 0).head?, p.1 = 0)) :=
  ⟨⟨by decide, by decide⟩, c8_offset_assignment c8WTes 0 (by decide) (by decide)⟩

/-! ## Round-trip machinery, part 1: UTF-8

`parseSafeTensors ∘ saveSafeTensors` first meets the header text through
`TextDecoder`; these lemmas show a `TextEncoder`-encoded scalar string decodes
back to itself. -/

/-- ASCII byte sequences decode to themselves under any sufficient fuel. -/
theorem utf8DecodeAux_ascii (l : List Nat) (n : Nat) (h : ∀ b ∈ l, b < 0x80)
    (hn : l.length ≤ n) : utf8DecodeAux n l = l := by
  induction l generalizing n with
  | nil => cases n <;> rfl
  | cons b t ih =>
    cases n with
    | zero => simp at hn
    | succ m =>
      have hb : b < 0x80 := h b (List.mem_cons_self _ _)
      rw [utf8DecodeAux.eq_def]
      simp only [if_pos hb]
      congr 1
      apply ih
      · intro x hx; exact h x (List.mem_cons_of_mem _ hx)
      · simpa using hn

/-- Decoding an encoded scalar string placed in front of arbitrary following
bytes yields the original string, consuming exactly the encoding's length of
fuel. -/
theorem utf8DecodeAux_encode (s : Str) (n : Nat) (rest : List Nat) (hs : ScalarStr s) :
    utf8DecodeAux ((utf8Encode s).length + n) (utf8Encode s ++ rest) =
      s ++ utf8DecodeAux n rest := by
  induction s with
  | nil => simp [utf8Encode]
  | cons c t ih =>
    have hc : IsScalar c := hs c (List.mem_cons_self _ _)
    have iht := ih (fun x hx => hs x (List.mem_cons_of_mem _ hx))
    have hns : ¬(0xD800 ≤ c ∧ c < 0xE000) := by
      rcases hc with h | h <;> omega
    have hup : c < 0x110000 := by rcases hc with h | h <;> omega
    rw [show utf8Encode (c :: t) = utf8EncodeChar c ++ utf8Encode t from rfl]
    by_cases h1 : c < 0x80
    · rw [show utf8EncodeChar c = [c] from by
        unfold utf8EncodeChar; rw [if_neg hns, if_pos h1]]
      rw [show (([c] : List Nat) ++ utf8Encode t).length + n
            = (utf8Encode t).length + n + 1 from by
        simp only [List.length_append, List.length_cons, List.length_nil]; omega]
      rw [show ([c] ++ utf8Encode t) ++ rest = c :: (utf8Encode t ++ rest) from by simp]
      rw [utf8DecodeAux.eq_def]
      simp only [if_pos h1]
      rw [iht]
      rfl
    · by_cases h2 : c < 0x800
      · rw [show utf8EncodeChar c = [0xC0 + c / 64, 0x80 + c % 64] from by
          unfold utf8EncodeChar; rw [if_neg hns, if_neg h1, if_pos h2]]
        rw [show (([0xC0 + c / 64, 0x80 + c % 64] : List Nat) ++ utf8Encode t).length + n
              = (utf8Encode t).length + n + 1 + 1 from by
          simp only [List.length_append, List.length_cons, List.length_nil]; omega]
        rw [show ([0xC0 + c / 64, 0x80 + c % 64] ++ utf8Encode t) ++ rest
              = (0xC0 + c / 64) :: (0x80 + c % 64) :: (utf8Encode t ++ rest) from by simp]
        rw [utf8DecodeAux.eq_def]
        have hb0 : ¬(0xC0 + c / 64 < 0x80) := by omega
        have hr : 0xC2 ≤ 0xC0 + c / 64 ∧ 0xC0 + c / 64 ≤ 0xDF := by omega
        have hcont : isCont (0x80 + c % 64) = true := by
          simp only [isCont, Bool.and_eq_true, decide_eq_true_eq]; omega
        simp only [if_neg hb0]
        rw [if_pos hr, hcont, if_pos rfl]
        rw [show (0xC0 + c / 64 - 0xC0) * 64 + (0x80 + c % 64 - 0x80) = c from by omega]
        rw [show (utf8Encode t).length + n + 1 - 1 = (utf8Encode t).length + n from rfl]
        rw [iht]
        rfl
      · by_cases h3 : c < 0x10000
        · rw [show utf8EncodeChar c = [0xE0 + c / 4096, 0x80 + c / 64 % 64, 0x80 + c % 64]
            from by unfold utf8EncodeChar; rw [if_neg hns, if_neg h1, if_neg h2, if_pos h3]]
          rw [show (([0xE0 + c / 4096, 0x80 + c / 64 % 64, 0x80 + c % 64] : List Nat)
                ++ utf8Encode t).length + n = (utf8Encode t).length + n + 2 + 1 from by
            simp only [List.length_append, List.length_cons, List.length_nil]; omega]
          rw [show ([0xE0 + c / 4096, 0x80 + c / 64 % 64, 0x80 + c % 64] ++ utf8Encode t)
                ++ rest = (0xE0 + c / 4096) :: (0x80 + c / 64 % 64) :: (0x80 + c % 64)
                :: (utf8Encode t ++ rest) from by simp]
          rw [utf8DecodeAux.eq_def]
          have hb0 : ¬(0xE0 + c / 4096 < 0x80) := by omega
          have hr2 : ¬(0xC2 ≤ 0xE0 + c / 4096 ∧ 0xE0 + c / 4096 ≤ 0xDF) := by omega
          have hr3 : 0xE0 ≤ 0xE0 + c / 4096 ∧ 0xE0 + c / 4096 ≤ 0xEF := by omega
          simp only [if_neg hb0, if_neg hr2]
          rw [if_pos hr3]
          rw [show (0xE0 + c / 4096 - 0xE0) * 4096 + (0x80 + c / 64 % 64 - 0x80) * 64
                + (0x80 + c % 64 - 0x80) = c from by omega]
          rw [show (utf8Encode t).length + n + 2 - 2 = (utf8Encode t).length + n from rfl]
          rw [iht]
          repeat' split
          any_goals rfl
          all_goals
            rename_i hf
            exact absurd
              (by simp only [isCont, Bool.and_eq_true, decide_eq_true_eq]; omega) hf
        · rw [show utf8EncodeChar c
              = [0xF0 + c / 262144, 0x80 + c / 4096 % 64, 0x80 + c / 64 % 64, 0x80 + c % 64]
            from by
              unfold utf8EncodeChar; rw [if_neg hns, if_neg h1, if_neg h2, if_neg h3]]
          rw [show (([0xF0 + c / 262144, 0x80 + c / 4096 % 64, 0x80 + c / 64 % 64,
                0x80 + c % 64] : List Nat) ++ utf8Encode t).length + n
              = (utf8Encode t).length + n + 3 + 1 from by
            simp only [List.length_append, List.length_cons, List.length_nil]; omega]
          rw [show ([0xF0 + c / 262144, 0x80 + c / 4096 % 64, 0x80 + c / 64 % 64,
                0x80 + c % 64] ++ utf8Encode t) ++ rest
              = (0xF0 + c / 262144) :: (0x80 + c / 4096 % 64) :: (0x80 + c / 64 % 64)
                :: (0x80 + c % 64) :: (utf8Encode t ++ rest) from by simp]
          rw [utf8DecodeAux.eq_def]
          have hb0 : ¬(0xF0 + c / 262144 < 0x80) := by omega
          have hr2 : ¬(0xC2 ≤ 0xF0 + c / 262144 ∧ 0xF0 + c / 262144 ≤ 0xDF) := by omega
          have hr3 : ¬(0xE0 ≤ 0xF0 + c / 262144 ∧ 0xF0 + c / 262144 ≤ 0xEF) := by omega
          have hr4 : 0xF0 ≤ 0xF0 + c / 262144 ∧ 0xF0 + c / 262144 ≤ 0xF4 := by omega
          simp only [if_neg hb0, if_neg hr2, if_neg hr3]
          rw [if_pos hr4]
          rw [show (0xF0 + c / 262144 - 0xF0) * 262144 + (0x80 + c / 4096 % 64 - 0x80) * 4096
                + (0x80 + c / 64 % 64 - 0x80) * 64 + (0x80 + c % 64 - 0x80) = c from by omega]
          rw [show (utf8Encode t).length + n + 3 - 3 = (utf8Encode t).length + n from rfl]
          rw [iht]
          repeat' split
          any_goals rfl
          all_goals
            rename_i hf
            exact absurd
              (by simp only [isCont, Bool.and_eq_true, decide_eq_true_eq]; omega) hf

/-- `TextDecoder ∘ TextEncoder` is the identity on scalar strings followed by
ASCII padding. -/
theorem utf8Decode_encode_pad (s : Str) (pad : List Nat) (hs : ScalarStr s)
    (hpad : ∀ b ∈ pad, b < 0x80) :
    utf8Decode (utf8Encode s ++ pad) = s ++ pad := by
  unfold utf8Decode
  rw [List.length_append, utf8DecodeAux_encode s pad.length pad hs,
    utf8DecodeAux_ascii pad pad.length hpad le_rfl]

/-! ## Round-trip machinery, part 2: decimal literals -/

/-- The digit printer ignores its fuel once sufficient. -/
theorem natToDecAux_fuel (f g n : Nat) (hf : n < f) (hg : n < g) :
    natToDecAux f n = natToDecAux g n := by
  induction f generalizing g n with
  | zero => omega
  | succ f ih =>
    cases g with
    | zero => omega
    | succ g =>
      simp only [natToDecAux]
      by_cases h : n < 10
      · rw [if_pos h, if_pos h]
      · rw [if_neg h, if_neg h, ih g (n / 10) (by omega) (by omega)]

/-- The digit printer emits a nonempty canonical digit string whose numeric
value is the printed number. -/
theorem natToDecAux_spec (f n : Nat) (h : n < f) :
    (natToDecAux f n).all isDigitCp = true ∧ natToDecAux f n ≠ [] ∧
    digitsVal (natToDecAux f n) = n ∧
    ((natToDecAux f n).head? = some 48 → n = 0) := by
  induction f generalizing n with
  | zero => omega
  | succ f ih =>
    simp only [natToDecAux]
    by_cases h10 : n < 10
    · rw [if_pos h10]
      refine ⟨?_, by simp, ?_, ?_⟩
      · simp only [List.all_cons, List.all_nil, Bool.and_true, isDigitCp,
          Bool.and_eq_true, decide_eq_true_eq]
        omega
      · simp only [digitsVal, List.foldl_cons, List.foldl_nil]
        omega
      · intro hh
        simp only [List.head?_cons, Option.some.injEq] at hh
        omega
    · rw [if_neg h10]
      obtain ⟨ha, hne, hv, hh⟩ := ih (n / 10) (by omega)
      refine ⟨?_, by simp, ?_, ?_⟩
      · rw [List.all_append, ha]
        simp only [List.all_cons, List.all_nil, Bool.and_true, isDigitCp,
          Bool.and_eq_true, decide_eq_true_eq, Bool.true_and]
        omega
      · simp only [digitsVal, List.foldl_append, List.foldl_cons, List.foldl_nil]
        simp only [digitsVal] at hv
        rw [hv]
        omega
      · intro hhd
        cases hx : natToDecAux f (n / 10) with
        | nil => exact absurd hx hne
        | cons a t =>
          rw [hx] at hhd
          simp only [List.cons_append, List.head?_cons, Option.some.injEq] at hhd
          rw [hx] at hh
          simp only [List.head?_cons, Option.some.injEq] at hh
          have := hh hhd
          omega

/-- The decimal digits of `n` are all digits. -/
theorem natToDec_all (n : Nat) : (natToDec n).all isDigitCp = true :=
  (natToDecAux_spec (n + 1) n (by omega)).1

/-- The decimal digit string is nonempty. -/
theorem natToDec_ne_nil (n : Nat) : natToDec n ≠ [] :=
  (natToDecAux_spec (n + 1) n (by omega)).2.1

/-- Reading the digits back gives the number. -/
theorem digitsVal_natToDec (n : Nat) : digitsVal (natToDec n) = n :=
  (natToDecAux_spec (n + 1) n (by omega)).2.2.1

/-- Only `0` prints with a leading `0`. -/
theorem natToDec_head (n : Nat) : (natToDec n).head? = some 48 → n = 0 :=
  (natToDecAux_spec (n + 1) n (by omega)).2.2.2

/-- `0` prints as exactly one digit. -/
theorem natToDec_zero : natToDec 0 = [48] := rfl

/-- `takeWhile` over a block that wholly satisfies the predicate. -/
theorem takeWhile_append_all {α : Type} (p : α → Bool) (xs rest : List α)
    (h : xs.all p = true) :
    (xs ++ rest).takeWhile p = xs ++ rest.takeWhile p := by
  induction xs with
  | nil => simp
  | cons x t ih =>
    simp only [List.all_cons, Bool.and_eq_true] at h
    simp only [List.cons_append, List.takeWhile_cons, h.1, if_true, ih h.2]

/-- `dropWhile` over a block that wholly satisfies the predicate. -/
theorem dropWhile_append_all {α : Type} (p : α → Bool) (xs rest : List α)
    (h : xs.all p = true) :
    (xs ++ rest).dropWhile p = rest.dropWhile p := by
  induction xs with
  | nil => simp
  | cons x t ih =>
    simp only [List.all_cons, Bool.and_eq_true] at h
    simp only [List.cons_append, List.dropWhile_cons, h.1, if_true, ih h.2]

/-- `takeWhile` stops immediately on a failing head. -/
theorem takeWhile_head_false {α : Type} (p : α → Bool) (l : List α)
    (h : ∀ c ∈ l.head?, p c = false) : l.takeWhile p = [] := by
  cases l with
  | nil => rfl
  | cons c t =>
    have := h c rfl
    simp [List.takeWhile_cons, this]

/-- `dropWhile` keeps everything on a failing head. -/
theorem dropWhile_head_false {α : Type} (p : α → Bool) (l : List α)
    (h : ∀ c ∈ l.head?, p c = false) : l.dropWhile p = l := by
  cases l with
  | nil => rfl
  | cons c t =>
    have := h c rfl
    simp [List.dropWhile_cons, this]

/-- The characters that can follow a serialized number in this development's
JSON texts (`,`, `]`, `}`, whitespace, or end of input) cannot extend a
number literal. -/
def numDelim (rest : List Nat) : Prop :=
  match rest with
  | [] => True
  | c :: _ => isDigitCp c = false ∧ c ≠ 46 ∧ c ≠ 101 ∧ c ≠ 69

/-- With no `e`/`E` ahead, the exponent parser consumes nothing. -/
theorem parseNumExp_none (s : List Nat) (h : ∀ c ∈ s.head?, c ≠ 101 ∧ c ≠ 69) :
    parseNumExp s = some (0, s) := by
  unfold parseNumExp
  have hcond : ¬(s.head? = some 101 ∨ s.head? = some 69) := by
    rintro (hc | hc)
    · exact (h 101 hc).1 rfl
    · exact (h 69 hc).2 rfl
  rw [if_neg hcond]

/-- The magnitude parser reads back a printed natural number exactly. -/
theorem parseNumMag_natToDec (v : Nat) (rest : List Nat) (hd : numDelim rest) :
    parseNumMag (natToDec v ++ rest) = some ((v : ℚ), rest) := by
  have hall := natToDec_all v
  have hne := natToDec_ne_nil v
  have hrest : ∀ c ∈ rest.head?, isDigitCp c = false := by
    intro c hc
    cases rest with
    | nil => simp at hc
    | cons r t =>
      simp only [List.head?_cons, Option.mem_def, Option.some.injEq] at hc
      rw [← hc]
      exact hd.1
  have htake : (natToDec v ++ rest).takeWhile isDigitCp = natToDec v := by
    rw [takeWhile_append_all _ _ _ hall, takeWhile_head_false _ _ hrest, List.append_nil]
  have hdrop : (natToDec v ++ rest).dropWhile isDigitCp = rest := by
    rw [dropWhile_append_all _ _ _ hall, dropWhile_head_false _ _ hrest]
  have hzero : ¬(1 < (natToDec v).length ∧ (natToDec v).head? = some 48) := by
    rintro ⟨hl, hh⟩
    have h0 := natToDec_head v hh
    rw [h0] at hl
    simp [natToDec_zero] at hl
  unfold parseNumMag
  simp only [htake, hdrop]
  rw [if_neg hne, if_neg hzero]
  cases rest with
  | nil =>
    rw [parseNumExp_none [] (by intro c hc; simp at hc)]
    simp only [Option.map_some']
    rw [digitsVal_natToDec]
    norm_num
  | cons r t =>
    split
    · rename_i t46 heq
      rw [List.cons.injEq] at heq
      exact absurd heq.1 hd.2.1
    · rw [parseNumExp_none (r :: t) (by
        intro c hc
        simp only [List.head?_cons, Option.mem_def, Option.some.injEq] at hc
        rw [← hc]
        exact ⟨hd.2.2.1, hd.2.2.2⟩)]
      simp only [Option.map_some']
      rw [digitsVal_natToDec]
      norm_num

/-- The number parser reads back a printed natural number exactly. -/
theorem parseNumber_natToDec (v : Nat) (rest : List Nat) (hd : numDelim rest) :
    parseNumber (natToDec v ++ rest) = some ((v : ℚ), rest) := by
  unfold parseNumber
  cases hnd : natToDec v with
  | nil => exact absurd hnd (natToDec_ne_nil v)
  | cons d ds =>
    have hdig : isDigitCp d = true := by
      have h := natToDec_all v
      rw [hnd] at h
      simp only [List.all_cons, Bool.and_eq_true] at h
      exact h.1
    simp only [List.cons_append]
    split
    · rename_i t45 heq
      rw [List.cons.injEq] at heq
      have : d = 45 := heq.1
      simp only [isDigitCp, Bool.and_eq_true, decide_eq_true_eq] at hdig
      omega
    · rw [← List.cons_append, ← hnd]
      exact parseNumMag_natToDec v rest hd

/-! ## Round-trip machinery, part 3: string literals -/

/-- `hexVal` inverts `hexDigit` on nibbles. -/
theorem hexVal_hexDigit (x : Nat) (h : x < 16) : hexVal (hexDigit x) = some x := by
  unfold hexVal hexDigit
  by_cases h10 : x < 10
  · rw [if_pos h10, if_pos (by omega : 48 ≤ 48 + x ∧ 48 + x ≤ 57)]
    congr 1
    omega
  · rw [if_neg h10, if_neg (by omega : ¬(48 ≤ 87 + x ∧ 87 + x ≤ 57)),
      if_pos (by omega : 97 ≤ 87 + x ∧ 87 + x ≤ 102)]
    congr 1
    omega


/-- One step of the string-body parser on an escaped quote. -/
theorem parseStringBody_esc34 (f : Nat) (r : List Nat) :
    parseStringBody (f + 1 + 1) (92 :: 34 :: r) =
      match parseStringBody (f + 1 - 1) r with
      | some (s, r2) => some (34 :: s, r2)
      | none => none := by with_unfolding_all rfl

/-- One step of the string-body parser on an escaped backslash. -/
theorem parseStringBody_esc92 (f : Nat) (r : List Nat) :
    parseStringBody (f + 1 + 1) (92 :: 92 :: r) =
      match parseStringBody (f + 1 - 1) r with
      | some (s, r2) => some (92 :: s, r2)
      | none => none := by with_unfolding_all rfl

/-- One step of the string-body parser on an escaped backspace. -/
theorem parseStringBody_esc98 (f : Nat) (r : List Nat) :
    parseStringBody (f + 1 + 1) (92 :: 98 :: r) =
      match parseStringBody (f + 1 - 1) r with
      | some (s, r2) => some (8 :: s, r2)
      | none => none := by with_unfolding_all rfl

/-- One step of the string-body parser on an escaped tab. -/
theorem parseStringBody_esc116 (f : Nat) (r : List Nat) :
    parseStringBody (f + 1 + 1) (92 :: 116 :: r) =
      match parseStringBody (f + 1 - 1) r with
      | some (s, r2) => some (9 :: s, r2)
      | none => none := by with_unfolding_all rfl

/-- One step of the string-body parser on an escaped newline. -/
theorem parseStringBody_esc110 (f : Nat) (r : List Nat) :
    parseStringBody (f + 1 + 1) (92 :: 110 :: r) =
      match parseStringBody (f + 1 - 1) r with
      | some (s, r2) => some (10 :: s, r2)
      | none => none := by with_unfolding_all rfl

/-- One step of the string-body parser on an escaped form feed. -/
theorem parseStringBody_esc102 (f : Nat) (r : List Nat) :
    parseStringBody (f + 1 + 1) (92 :: 102 :: r) =
      match parseStringBody (f + 1 - 1) r with
      | some (s, r2) => some (12 :: s, r2)
      | none => none := by with_unfolding_all rfl

/-- One step of the string-body parser on an escaped carriage return. -/
theorem parseStringBody_esc114 (f : Nat) (r : List Nat) :
    parseStringBody (f + 1 + 1) (92 :: 114 :: r) =
      match parseStringBody (f + 1 - 1) r with
      | some (s, r2) => some (13 :: s, r2)
      | none => none := by with_unfolding_all rfl

/-- One step of the string-body parser on a `\u00XX` escape, with the hex
payload still unevaluated. -/
theorem parseStringBody_u0 (c f : Nat) (r : List Nat) :
    parseStringBody (f + 5 + 1)
      (92 :: 117 :: 48 :: 48 :: hexDigit (c / 16) :: hexDigit (c % 16) :: r) =
      (match hex4 48 48 (hexDigit (c / 16)) (hexDigit (c % 16)) with
       | none => none
       | some u =>
         if 0xD800 ≤ u ∧ u < 0xDC00 then
           match r with
           | 92 :: 117 :: g1 :: g2 :: g3 :: g4 :: r12 =>
             match hex4 g1 g2 g3 g4 with
             | some u2 =>
               if 0xDC00 ≤ u2 ∧ u2 < 0xE000 then
                 match parseStringBody (f + 5 - 11) r12 with
                 | some (s, r2) =>
                   some ((0x10000 + (u - 0xD800) * 1024 + (u2 - 0xDC00)) :: s, r2)
                 | none => none
               else
                 match parseStringBody (f + 5 - 5)
                     (92 :: 117 :: g1 :: g2 :: g3 :: g4 :: r12) with
                 | some (s, r2) => some (0xFFFD :: s, r2)
                 | none => none
             | none =>
               match parseStringBody (f + 5 - 5)
                   (92 :: 117 :: g1 :: g2 :: g3 :: g4 :: r12) with
               | some (s, r2) => some (0xFFFD :: s, r2)
               | none => none
           | _ =>
             match parseStringBody (f + 5 - 5) r with
             | some (s, r2) => some (0xFFFD :: s, r2)
             | none => none
         else if 0xDC00 ≤ u ∧ u < 0xE000 then
           match parseStringBody (f + 5 - 5) r with
           | some (s, r2) => some (0xFFFD :: s, r2)
           | none => none
         else
           match parseStringBody (f + 5 - 5) r with
           | some (s, r2) => some (u :: s, r2)
           | none => none) := by with_unfolding_all rfl

/-- One step of the string-body parser on a `\u00XX` control escape. -/
theorem parseStringBody_u (c f : Nat) (r : List Nat) (h : c < 32) :
    parseStringBody (f + 5 + 1)
      (92 :: 117 :: 48 :: 48 :: hexDigit (c / 16) :: hexDigit (c % 16) :: r) =
      match parseStringBody f r with
      | some (s, r2) => some (c :: s, r2)
      | none => none := by
  have hx : hex4 48 48 (hexDigit (c / 16)) (hexDigit (c % 16)) = some c := by
    unfold hex4
    rw [show hexVal 48 = some 0 from rfl, hexVal_hexDigit _ (by omega),
      hexVal_hexDigit _ (by omega)]
    show some (0 * 4096 + 0 * 256 + c / 16 * 16 + c % 16) = some c
    congr 1
    omega
  rw [parseStringBody_u0, hx]
  split
  · rename_i heq
    exact absurd heq (by simp)
  · rename_i u heq
    injection heq with h2
    subst h2
    rw [if_neg (by omega : ¬(0xD800 ≤ c ∧ c < 0xDC00)),
      if_neg (by omega : ¬(0xDC00 ≤ c ∧ c < 0xE000))]
    simp only [Nat.add_sub_cancel]

/-- Unfolding of one string-body parser step with a symbolic head. -/
theorem parseStringBody_step (f c : Nat) (r : List Nat) :
    parseStringBody (f + 1) (c :: r) =
      (if c = 34 then some (([] : Str), r)
       else if c = 92 then
         match r with
         | [] => none
         | e :: r2 =>
           if e = 117 then
             match r2 with
             | h1 :: h2 :: h3 :: h4 :: r6 =>
               match hex4 h1 h2 h3 h4 with
               | none => none
               | some u =>
                 if 0xD800 ≤ u ∧ u < 0xDC00 then
                   match r6 with
                   | 92 :: 117 :: g1 :: g2 :: g3 :: g4 :: r12 =>
                     match hex4 g1 g2 g3 g4 with
                     | some u2 =>
                       if 0xDC00 ≤ u2 ∧ u2 < 0xE000 then
                         match parseStringBody (f - 11) r12 with
                         | some (s, r3) =>
                           some ((0x10000 + (u - 0xD800) * 1024 + (u2 - 0xDC00)) :: s, r3)
                         | none => none
                       else
                         match parseStringBody (f - 5)
                             (92 :: 117 :: g1 :: g2 :: g3 :: g4 :: r12) with
                         | some (s, r3) => some (0xFFFD :: s, r3)
                         | none => none
                     | none =>
                       match parseStringBody (f - 5)
                           (92 :: 117 :: g1 :: g2 :: g3 :: g4 :: r12) with
                       | some (s, r3) => some (0xFFFD :: s, r3)
                       | none => none
                   | _ =>
                     match parseStringBody (f - 5) r6 with
                     | some (s, r3) => some (0xFFFD :: s, r3)
                     | none => none
                 else if 0xDC00 ≤ u ∧ u < 0xE000 then
                   match parseStringBody (f - 5) r6 with
                   | some (s, r3) => some (0xFFFD :: s, r3)
                   | none => none
                 else
                   match parseStringBody (f - 5) r6 with
                   | some (s, r3) => some (u :: s, r3)
                   | none => none
             | _ => none
           else
             match
               (if e = 34 then some 34 else if e = 92 then some 92 else if e = 47 then some 47
                else if e = 98 then some 8 else if e = 102 then some 12
                else if e = 110 then some 10 else if e = 114 then some 13
                else if e = 116 then some 9 else none) with
             | some d =>
               match parseStringBody (f - 1) r2 with
               | some (s, r3) => some (d :: s, r3)
               | none => none
             | none => none
       else if c < 32 then none
       else
         match parseStringBody f r with
         | some (s, r3) => some (c :: s, r3)
         | none => none) := by with_unfolding_all rfl

/-- One step of the string-body parser on an unescaped character. -/
theorem parseStringBody_plain (c : Nat) (f : Nat) (r : List Nat)
    (h34 : c ≠ 34) (h92 : c ≠ 92) (hlt : ¬(c < 32)) :
    parseStringBody (f + 1) (c :: r) =
      match parseStringBody f r with
      | some (s, r3) => some (c :: s, r3)
      | none => none := by
  rw [parseStringBody_step, if_neg h34, if_neg h92, if_neg hlt]

/-- The string-body parser reads a quoted scalar string back exactly,
consuming the closing quote. -/
theorem parseStringBody_quote (s : Str) (n : Nat) (rest : List Nat) (hs : ScalarStr s) :
    parseStringBody ((quoteBody s).length + 1 + n) (quoteBody s ++ 34 :: rest) =
      some (s, rest) := by
  induction s with
  | nil =>
    rw [show quoteBody [] = [] from rfl]
    rw [show (([] : List Nat)).length + 1 + n = n + 1 from by simp; omega]
    rw [show ([] : List Nat) ++ 34 :: rest = 34 :: rest from by simp]
    rw [parseStringBody_step]
    rw [if_pos rfl]
  | cons c t ih =>
    have iht := ih (fun x hx => hs x (List.mem_cons_of_mem _ hx))
    have hc : IsScalar c := hs c (List.mem_cons_self _ _)
    rw [show quoteBody (c :: t) = quoteChar c ++ quoteBody t from rfl]
    by_cases h34 : c = 34
    · subst h34
      rw [show quoteChar 34 = [92, 34] from rfl]
      rw [show (([92, 34] : List Nat) ++ quoteBody t).length + 1 + n
            = (quoteBody t).length + 1 + n + 1 + 1 from by
          simp only [List.length_append, List.length_cons, List.length_nil]; omega]
      rw [show ([92, 34] ++ quoteBody t) ++ (34 :: rest)
            = 92 :: 34 :: (quoteBody t ++ 34 :: rest) from by simp]
      rw [parseStringBody_esc34]
      simp only [Nat.add_sub_cancel]
      rw [iht]
    · by_cases h92 : c = 92
      · subst h92
        rw [show quoteChar 92 = [92, 92] from rfl]
        rw [show (([92, 92] : List Nat) ++ quoteBody t).length + 1 + n
              = (quoteBody t).length + 1 + n + 1 + 1 from by
            simp only [List.length_append, List.length_cons, List.length_nil]; omega]
        rw [show ([92, 92] ++ quoteBody t) ++ (34 :: rest)
              = 92 :: 92 :: (quoteBody t ++ 34 :: rest) from by simp]
        rw [parseStringBody_esc92]
        simp only [Nat.add_sub_cancel]
        rw [iht]
      · by_cases h8 : c = 8
        · subst h8
          rw [show quoteChar 8 = [92, 98] from rfl]
          rw [show (([92, 98] : List Nat) ++ quoteBody t).length + 1 + n
                = (quoteBody t).length + 1 + n + 1 + 1 from by
              simp only [List.length_append, List.length_cons, List.length_nil]; omega]
          rw [show ([92, 98] ++ quoteBody t) ++ (34 :: rest)
                = 92 :: 98 :: (quoteBody t ++ 34 :: rest) from by simp]
          rw [parseStringBody_esc98]
          simp only [Nat.add_sub_cancel]
          rw [iht]
        · by_cases h9 : c = 9
          · subst h9
            rw [show quoteChar 9 = [92, 116] from rfl]
            rw [show (([92, 116] : List Nat) ++ quoteBody t).length + 1 + n
                  = (quoteBody t).length + 1 + n + 1 + 1 from by
                simp only [List.length_append, List.length_cons, List.length_nil]; omega]
            rw [show ([92, 116] ++ quoteBody t) ++ (34 :: rest)
                  = 92 :: 116 :: (quoteBody t ++ 34 :: rest) from by simp]
            rw [parseStringBody_esc116]
            simp only [Nat.add_sub_cancel]
            rw [iht]
          · by_cases h10 : c = 10
            · subst h10
              rw [show quoteChar 10 = [92, 110] from rfl]
              rw [show (([92, 110] : List Nat) ++ quoteBody t).length + 1 + n
                    = (quoteBody t).length + 1 + n + 1 + 1 from by
                  simp only [List.length_append, List.length_cons, List.length_nil]; omega]
              rw [show ([92, 110] ++ quoteBody t) ++ (34 :: rest)
                    = 92 :: 110 :: (quoteBody t ++ 34 :: rest) from by simp]
              rw [parseStringBody_esc110]
              simp only [Nat.add_sub_cancel]
              rw [iht]
            · by_cases h12 : c = 12
              · subst h12
                rw [show quoteChar 12 = [92, 102] from rfl]
                rw [show (([92, 102] : List Nat) ++ quoteBody t).length + 1 + n
                      = (quoteBody t).length + 1 + n + 1 + 1 from by
                    simp only [List.length_append, List.length_cons, List.length_nil]; omega]
                rw [show ([92, 102] ++ quoteBody t) ++ (34 :: rest)
                      = 92 :: 102 :: (quoteBody t ++ 34 :: rest) from by simp]
                rw [parseStringBody_esc102]
                simp only [Nat.add_sub_cancel]
                rw [iht]
              · by_cases h13 : c = 13
                · subst h13
                  rw [show quoteChar 13 = [92, 114] from rfl]
                  rw [show (([92, 114] : List Nat) ++ quoteBody t).length + 1 + n
                        = (quoteBody t).length + 1 + n + 1 + 1 from by
                      simp only [List.length_append, List.length_cons, List.length_nil]; omega]
                  rw [show ([92, 114] ++ quoteBody t) ++ (34 :: rest)
                        = 92 :: 114 :: (quoteBody t ++ 34 :: rest) from by simp]
                  rw [parseStringBody_esc114]
                  simp only [Nat.add_sub_cancel]
                  rw [iht]
                · by_cases hlt : c < 32
                  · rw [show quoteChar c
                        = [92, 117, 48, 48, hexDigit (c / 16), hexDigit (c % 16)] from by
                      unfold quoteChar
                      rw [if_neg h34, if_neg h92, if_neg h8, if_neg h9, if_neg h10,
                        if_neg h12, if_neg h13, if_pos hlt]]
                    rw [show (([92, 117, 48, 48, hexDigit (c / 16), hexDigit (c % 16)]
                          : List Nat) ++ quoteBody t).length + 1 + n
                          = (quoteBody t).length + 1 + n + 5 + 1 from by
                        simp only [List.length_append, List.length_cons, List.length_nil]
                        omega]
                    rw [show ([92, 117, 48, 48, hexDigit (c / 16), hexDigit (c % 16)]
                          ++ quoteBody t) ++ (34 :: rest)
                          = 92 :: 117 :: 48 :: 48 :: hexDigit (c / 16) :: hexDigit (c % 16)
                            :: (quoteBody t ++ 34 :: rest) from by simp]
                    rw [parseStringBody_u c _ _ hlt]
                    rw [iht]
                  · rw [show quoteChar c = [c] from by
                      unfold quoteChar
                      rw [if_neg h34, if_neg h92, if_neg h8, if_neg h9, if_neg h10,
                        if_neg h12, if_neg h13, if_neg hlt]]
                    rw [show (([c] : List Nat) ++ quoteBody t).length + 1 + n
                          = (quoteBody t).length + 1 + n + 1 from by
                        simp only [List.length_append, List.length_cons, List.length_nil]
                        omega]
                    rw [show ([c] ++ quoteBody t) ++ (34 :: rest)
                          = c :: (quoteBody t ++ 34 :: rest) from by simp]
                    rw [parseStringBody_plain c _ _ h34 h92 hlt]
                    rw [iht]

/-! ## Round-trip machinery, part 4: whitespace and stable object keys -/

/-- `skipWs` is the identity on text starting with a non-whitespace code
point. -/
theorem skipWs_cons (c : Nat) (t : List Nat) (h : isJsonWs c = false) :
    skipWs (c :: t) = c :: t := by
  unfold skipWs
  simp [List.dropWhile_cons, h]

/-- `skipWs` erases all-whitespace text. -/
theorem skipWs_all (l : List Nat) (h : ∀ c ∈ l, isJsonWs c = true) : skipWs l = [] := by
  induction l with
  | nil => rfl
  | cons c t ih =>
    unfold skipWs at ih ⊢
    simp [List.dropWhile_cons, h c (List.mem_cons_self _ _),
      ih (fun x hx => h x (List.mem_cons_of_mem _ hx))]

/-- A stable property list: keys pairwise distinct and none an array-index
key (JS enumerates such objects in plain insertion order). -/
def StableKeys {α : Type} (l : List (Str × α)) : Prop :=
  (l.map Prod.fst).Nodup ∧ ∀ kv ∈ l, isArrayIndexKey kv.1 = false

/-- `jsPropInsert` with a fresh non-index key appends at the end. -/
theorem jsPropInsert_append {α : Type} (k : Str) (v : α) (l : List (Str × α))
    (hfresh : alookup k l = none) (hidx : isArrayIndexKey k = false) :
    jsPropInsert k v l = l ++ [(k, v)] := by
  unfold jsPropInsert
  rw [hfresh, hidx]
  simp

/-- Folding `jsDefine` (the `JSON.parse` object builder) over a stable
property list reproduces it. -/
theorem foldl_jsDefine_stable {α : Type} (l : List (Str × α)) :
    ∀ acc, StableKeys (acc ++ l) →
      l.foldl (fun a kv => jsDefine a kv.1 kv.2) acc = acc ++ l := by
  induction l with
  | nil => intro acc _; simp
  | cons kv t ih =>
    intro acc h
    obtain ⟨k, v⟩ := kv
    have hfresh : alookup k acc = none := by
      rw [alookup_eq_none_iff]
      intro hmem
      have hn := h.1
      rw [List.map_append] at hn
      rcases List.nodup_append.mp hn with ⟨_, _, hdis⟩
      exact hdis hmem (by simp)
    have hidx : isArrayIndexKey k = false := h.2 (k, v) (by simp)
    simp only [List.foldl_cons]
    rw [show jsDefine acc k v = acc ++ [(k, v)] from
      jsPropInsert_append k v acc hfresh hidx]
    rw [ih (acc ++ [(k, v)]) (by simpa [List.append_assoc] using h)]
    simp

/-! ## Round-trip machinery, part 5: well-formed values and parser steps -/

/-- The values this development's encoder serializes: scalar strings, plain
non-negative integer numbers, spine-correct arrays and objects with scalar,
stable keys. -/
def WfJson : Json → Prop
  | .str s => ScalarStr s
  | .num q => q.den = 1 ∧ 0 ≤ q.num
  | .jbool _ => True
  | .null => True
  | .arrNil => True
  | .arrCons x t => WfJson x ∧ WfJson t ∧ t.isArr = true
  | .objNil => True
  | .objCons k v t => ScalarStr k ∧ WfJson v ∧ WfJson t ∧ t.isObj = true ∧
      StableKeys ((k, v) :: objPropsList t)

/-- Rebuilding an object spine from its property list. -/
theorem objOfList_props (v : Json) (hv : v.isObj = true) (hw : WfJson v) :
    objOfList (objPropsList v) = v := by
  induction v with
  | objNil => rfl
  | objCons k w t _ iht =>
    show Json.objCons k w (objOfList (objPropsList t)) = Json.objCons k w t
    rw [iht hw.2.2.2.1 hw.2.2.1]
  | _ => simp [Json.isObj] at hv

/-- Rebuilding an array spine from its element list. -/
theorem arrOfList_elems (v : Json) (hv : v.isArr = true) (hw : WfJson v) :
    arrOfList (arrElemsList v) = v := by
  induction v with
  | arrNil => rfl
  | arrCons x t _ iht =>
    show Json.arrCons x (arrOfList (arrElemsList t)) = Json.arrCons x t
    rw [iht hw.2.2 hw.2.1]
  | _ => simp [Json.isArr] at hv

/-- Property list of a built object spine. -/
theorem objPropsList_objOfList (l : List (Str × Json)) :
    objPropsList (objOfList l) = l := by
  induction l with
  | nil => rfl
  | cons kv t ih =>
    obtain ⟨k, v⟩ := kv
    show (k, v) :: objPropsList (objOfList t) = (k, v) :: t
    rw [ih]

/-- Element list of a built array spine. -/
theorem arrElemsList_arrOfList (l : List Json) :
    arrElemsList (arrOfList l) = l := by
  induction l with
  | nil => rfl
  | cons x t ih =>
    show x :: arrElemsList (arrOfList t) = x :: t
    rw [ih]

/-- A serialized value starts with a significant, non-closing code point. -/
theorem stringify_false_head (v : Json) (hw : WfJson v) :
    ∃ c cs, stringifyAux false v = c :: cs ∧ isJsonWs c = false ∧ c ≠ 93 ∧ c ≠ 125 := by
  cases v with
  | str s => exact ⟨34, _, rfl, by decide, by decide, by decide⟩
  | num q =>
    have h1 : q.den = 1 := hw.1
    have h0 : 0 ≤ q.num := hw.2
    have he : numToText q = natToDec q.num.toNat := by
      unfold numToText intToDec
      rw [if_pos h1, if_neg (by omega : ¬q.num < 0),
        show q.num.natAbs = q.num.toNat from by omega]
    cases hnd : natToDec q.num.toNat with
    | nil => exact absurd hnd (natToDec_ne_nil _)
    | cons d ds =>
      have hdig : isDigitCp d = true := by
        have h := natToDec_all q.num.toNat
        rw [hnd] at h
        simp only [List.all_cons, Bool.and_eq_true] at h
        exact h.1
      refine ⟨d, ds, ?_, ?_, ?_, ?_⟩
      · show numToText q = d :: ds
        rw [he, hnd]
      all_goals
        simp only [isDigitCp, Bool.and_eq_true, decide_eq_true_eq] at hdig
      · simp only [isJsonWs, Bool.or_eq_false_iff, decide_eq_false_iff_not]
        omega
      · omega
      · omega
  | jbool b => cases b
      <;> exact ⟨_, _, rfl, by decide, by decide, by decide⟩
  | null => exact ⟨110, _, rfl, by decide, by decide, by decide⟩
  | arrNil => exact ⟨91, _, rfl, by decide, by decide, by decide⟩
  | arrCons x t => exact ⟨91, _, rfl, by decide, by decide, by decide⟩
  | objNil => exact ⟨123, _, rfl, by decide, by decide, by decide⟩
  | objCons k w t => exact ⟨123, _, rfl, by decide, by decide, by decide⟩

/-- Unfolding of one parser step in value mode. -/
theorem parseCore_pv_step (f : Nat) (s : List Nat) :
    parseCore (f + 1) .pv s =
      (match skipWs s with
       | [] => none
       | c :: rest =>
         if c = 123 then
           match parseCore f .pm0 rest with
           | some (.rm kvs r) =>
             some (.rv (objOfList (kvs.foldl (fun acc kv => jsDefine acc kv.1 kv.2) [])) r)
           | _ => none
         else if c = 91 then
           match parseCore f .pe0 rest with
           | some (.rl es r) => some (.rv (arrOfList es) r)
           | _ => none
         else if c = 34 then
           match parseStringBody rest.length rest with
           | some (str, r) => some (.rv (.str str) r)
           | none => none
         else if c = 116 then
           match rest with
           | 114 :: 117 :: 101 :: r => some (.rv (.jbool true) r)
           | _ => none
         else if c = 102 then
           match rest with
           | 97 :: 108 :: 115 :: 101 :: r => some (.rv (.jbool false) r)
           | _ => none
         else if c = 110 then
           match rest with
           | 117 :: 108 :: 108 :: r => some (.rv .null r)
           | _ => none
         else
           match parseNumber (c :: rest) with
           | some (q, r) => some (.rv (.num q) r)
           | none => none) := by with_unfolding_all rfl

/-- Unfolding of one parser step at the start of an array. -/
theorem parseCore_pe0_step (f : Nat) (s : List Nat) :
    parseCore (f + 1) .pe0 s =
      (match skipWs s with
       | 93 :: r => some (.rl [] r)
       | _ => parseCore f .peN s) := by with_unfolding_all rfl

/-- Unfolding of one parser step on an array element. -/
theorem parseCore_peN_step (f : Nat) (s : List Nat) :
    parseCore (f + 1) .peN s =
      (match parseCore f .pv s with
       | some (.rv v r) =>
         match skipWs r with
         | 44 :: r2 =>
           match parseCore f .peN r2 with
           | some (.rl vs r3) => some (.rl (v :: vs) r3)
           | _ => none
         | 93 :: r2 => some (.rl [v] r2)
         | _ => none
       | _ => none) := by with_unfolding_all rfl

/-- Unfolding of one parser step at the start of an object. -/
theorem parseCore_pm0_step (f : Nat) (s : List Nat) :
    parseCore (f + 1) .pm0 s =
      (match skipWs s with
       | 125 :: r => some (.rm [] r)
       | _ => parseCore f .pmN s) := by with_unfolding_all rfl

/-- Unfolding of one parser step on an object member. -/
theorem parseCore_pmN_step (f : Nat) (s : List Nat) :
    parseCore (f + 1) .pmN s =
      (match skipWs s with
       | 34 :: r =>
         match parseStringBody r.length r with
         | some (k, r2) =>
           match skipWs r2 with
           | 58 :: r4 =>
             match parseCore f .pv r4 with
             | some (.rv v r5) =>
               match skipWs r5 with
               | 44 :: r7 =>
                 match parseCore f .pmN r7 with
                 | some (.rm kvs r8) => some (.rm ((k, v) :: kvs) r8)
                 | _ => none
               | 125 :: r7 => some (.rm [(k, v)] r7)
               | _ => none
             | _ => none
           | _ => none
         | none => none
       | _ => none) := by with_unfolding_all rfl

/-- Value-mode parser step on a significant head character. -/
theorem parseCore_pv_go (f c : Nat) (cs : List Nat) (hc : isJsonWs c = false) :
    parseCore (f + 1) .pv (c :: cs) =
      (if c = 123 then
         match parseCore f .pm0 cs with
         | some (.rm kvs r) =>
           some (.rv (objOfList (kvs.foldl (fun acc kv => jsDefine acc kv.1 kv.2) [])) r)
         | _ => none
       else if c = 91 then
         match parseCore f .pe0 cs with
         | some (.rl es r) => some (.rv (arrOfList es) r)
         | _ => none
       else if c = 34 then
         match parseStringBody cs.length cs with
         | some (str, r) => some (.rv (.str str) r)
         | none => none
       else if c = 116 then
         match cs with
         | 114 :: 117 :: 101 :: r => some (.rv (.jbool true) r)
         | _ => none
       else if c = 102 then
         match cs with
         | 97 :: 108 :: 115 :: 101 :: r => some (.rv (.jbool false) r)
         | _ => none
       else if c = 110 then
         match cs with
         | 117 :: 108 :: 108 :: r => some (.rv .null r)
         | _ => none
       else
         match parseNumber (c :: cs) with
         | some (q, r) => some (.rv (.num q) r)
         | none => none) := by
  rw [parseCore_pv_step, skipWs_cons c cs hc]

/-- Start-of-array parser step on `]`: the empty array. -/
theorem parseCore_pe0_close (f : Nat) (cs : List Nat) :
    parseCore (f + 1) .pe0 (93 :: cs) = some (.rl [] cs) := by
  rw [parseCore_pe0_step, skipWs_cons 93 cs (by decide)]

/-- Start-of-array parser step on anything else: first element. -/
theorem parseCore_pe0_go (f c : Nat) (cs : List Nat) (hc : isJsonWs c = false)
    (h93 : c ≠ 93) :
    parseCore (f + 1) .pe0 (c :: cs) = parseCore f .peN (c :: cs) := by
  rw [parseCore_pe0_step, skipWs_cons c cs hc]
  split
  · rename_i r h
    rw [List.cons.injEq] at h
    omega
  · rfl

/-- Start-of-object parser step on `}`: the empty object. -/
theorem parseCore_pm0_close (f : Nat) (cs : List Nat) :
    parseCore (f + 1) .pm0 (125 :: cs) = some (.rm [] cs) := by
  rw [parseCore_pm0_step, skipWs_cons 125 cs (by decide)]

/-- Start-of-object parser step on anything else: first member. -/
theorem parseCore_pm0_go (f c : Nat) (cs : List Nat) (hc : isJsonWs c = false)
    (h125 : c ≠ 125) :
    parseCore (f + 1) .pm0 (c :: cs) = parseCore f .pmN (c :: cs) := by
  rw [parseCore_pm0_step, skipWs_cons c cs hc]
  split
  · rename_i r h
    rw [List.cons.injEq] at h
    omega
  · rfl

/-- Member parser step on an opening quote. -/
theorem parseCore_pmN_go (f : Nat) (cs : List Nat) :
    parseCore (f + 1) .pmN (34 :: cs) =
      (match parseStringBody cs.length cs with
       | some (k, r2) =>
         match skipWs r2 with
         | 58 :: r4 =>
           match parseCore f .pv r4 with
           | some (.rv v r5) =>
             match skipWs r5 with
             | 44 :: r7 =>
               match parseCore f .pmN r7 with
               | some (.rm kvs r8) => some (.rm ((k, v) :: kvs) r8)
               | _ => none
             | 125 :: r7 => some (.rm [(k, v)] r7)
             | _ => none
           | _ => none
         | _ => none
       | none => none) := by
  rw [parseCore_pmN_step, skipWs_cons 34 cs (by decide)]

/-- Value-mode parse of an object, given the member parse. -/
theorem parseCore_pv_obj (f : Nat) (cs : List Nat) (kvs : List (Str × Json)) (r : List Nat)
    (h : parseCore f .pm0 cs = some (.rm kvs r)) :
    parseCore (f + 1) .pv (123 :: cs) =
      some (.rv (objOfList (kvs.foldl (fun acc kv => jsDefine acc kv.1 kv.2) [])) r) := by
  rw [parseCore_pv_go f 123 cs (by decide), if_pos rfl, h]

/-- Value-mode parse of an array, given the element parse. -/
theorem parseCore_pv_arr (f : Nat) (cs : List Nat) (es : List Json) (r : List Nat)
    (h : parseCore f .pe0 cs = some (.rl es r)) :
    parseCore (f + 1) .pv (91 :: cs) = some (.rv (arrOfList es) r) := by
  rw [parseCore_pv_go f 91 cs (by decide), if_neg (by decide : ¬(91 = 123)),
    if_pos rfl, h]

/-- Value-mode parse of a string literal, given the body parse. -/
theorem parseCore_pv_str (f : Nat) (s : Str) (cs r : List Nat)
    (h : parseStringBody cs.length cs = some (s, r)) :
    parseCore (f + 1) .pv (34 :: cs) = some (.rv (.str s) r) := by
  rw [parseCore_pv_go f 34 cs (by decide), if_neg (by decide : ¬(34 = 123)),
    if_neg (by decide : ¬(34 = 91)), if_pos rfl, h]

/-- Value-mode parse of a number literal, given the number parse. -/
theorem parseCore_pv_num (f : Nat) (c : Nat) (cs r : List Nat) (q : ℚ)
    (hd : 48 ≤ c ∧ c ≤ 57)
    (h : parseNumber (c :: cs) = some (q, r)) :
    parseCore (f + 1) .pv (c :: cs) = some (.rv (.num q) r) := by
  have hws : isJsonWs c = false := by
    simp only [isJsonWs, Bool.or_eq_false_iff, decide_eq_false_iff_not]
    omega
  rw [parseCore_pv_go f c cs hws, if_neg (by omega : ¬(c = 123)),
    if_neg (by omega : ¬(c = 91)), if_neg (by omega : ¬(c = 34)),
    if_neg (by omega : ¬(c = 116)), if_neg (by omega : ¬(c = 102)),
    if_neg (by omega : ¬(c = 110)), h]

/-- Element-mode parse of a non-final element. -/
theorem parseCore_peN_more (f : Nat) (s r r2 : List Nat) (v : Json) (vs : List Json)
    (r3 : List Nat)
    (h1 : parseCore f .pv s = some (.rv v r))
    (h2 : skipWs r = 44 :: r2)
    (h3 : parseCore f .peN r2 = some (.rl vs r3)) :
    parseCore (f + 1) .peN s = some (.rl (v :: vs) r3) := by
  rw [parseCore_peN_step, h1]
  show (match skipWs r with
        | 44 :: r2 =>
          match parseCore f .peN r2 with
          | some (PRes.rl vs r3) => some (PRes.rl (v :: vs) r3)
          | _ => none
        | 93 :: r2 => some (PRes.rl [v] r2)
        | _ => none) = some (PRes.rl (v :: vs) r3)
  rw [h2]
  show (match parseCore f .peN r2 with
        | some (PRes.rl vs r3) => some (PRes.rl (v :: vs) r3)
        | _ => none) = some (PRes.rl (v :: vs) r3)
  rw [h3]

/-- Element-mode parse of the final element. -/
theorem parseCore_peN_last (f : Nat) (s r r2 : List Nat) (v : Json)
    (h1 : parseCore f .pv s = some (.rv v r))
    (h2 : skipWs r = 93 :: r2) :
    parseCore (f + 1) .peN s = some (.rl [v] r2) := by
  rw [parseCore_peN_step, h1]
  show (match skipWs r with
        | 44 :: r2 =>
          match parseCore f .peN r2 with
          | some (PRes.rl vs r3) => some (PRes.rl (v :: vs) r3)
          | _ => none
        | 93 :: r2 => some (PRes.rl [v] r2)
        | _ => none) = some (PRes.rl [v] r2)
  rw [h2]

/-- Member-mode parse of a non-final member. -/
theorem parseCore_pmN_more (f : Nat) (cs r2 r4 : List Nat) (k : Str) (v : Json)
    (r5 r7 : List Nat) (kvs : List (Str × Json)) (r8 : List Nat)
    (h1 : parseStringBody cs.length cs = some (k, r2))
    (h2 : skipWs r2 = 58 :: r4)
    (h3 : parseCore f .pv r4 = some (.rv v r5))
    (h4 : skipWs r5 = 44 :: r7)
    (h5 : parseCore f .pmN r7 = some (.rm kvs r8)) :
    parseCore (f + 1) .pmN (34 :: cs) = some (.rm ((k, v) :: kvs) r8) := by
  rw [parseCore_pmN_go, h1]
  show (match skipWs r2 with
        | 58 :: r4 =>
          match parseCore f .pv r4 with
          | some (PRes.rv v r5) =>
            match skipWs r5 with
            | 44 :: r7 =>
              match parseCore f .pmN r7 with
              | some (PRes.rm kvs r8) => some (PRes.rm ((k, v) :: kvs) r8)
              | _ => none
            | 125 :: r7 => some (PRes.rm [(k, v)] r7)
            | _ => none
          | _ => none
        | _ => none) = some (PRes.rm ((k, v) :: kvs) r8)
  rw [h2]
  show (match parseCore f .pv r4 with
        | some (PRes.rv v r5) =>
          match skipWs r5 with
          | 44 :: r7 =>
            match parseCore f .pmN r7 with
            | some (PRes.rm kvs r8) => some (PRes.rm ((k, v) :: kvs) r8)
            | _ => none
          | 125 :: r7 => some (PRes.rm [(k, v)] r7)
          | _ => none
        | _ => none) = some (PRes.rm ((k, v) :: kvs) r8)
  rw [h3]
  show (match skipWs r5 with
        | 44 :: r7 =>
          match parseCore f .pmN r7 with
          | some (PRes.rm kvs r8) => some (PRes.rm ((k, v) :: kvs) r8)
          | _ => none
        | 125 :: r7 => some (PRes.rm [(k, v)] r7)
        | _ => none) = some (PRes.rm ((k, v) :: kvs) r8)
  rw [h4]
  show (match parseCore f .pmN r7 with
        | some (PRes.rm kvs r8) => some (PRes.rm ((k, v) :: kvs) r8)
        | _ => none) = some (PRes.rm ((k, v) :: kvs) r8)
  rw [h5]

/-- Member-mode parse of the final member. -/
theorem parseCore_pmN_last (f : Nat) (cs r2 r4 : List Nat) (k : Str) (v : Json)
    (r5 r7 : List Nat)
    (h1 : parseStringBody cs.length cs = some (k, r2))
    (h2 : skipWs r2 = 58 :: r4)
    (h3 : parseCore f .pv r4 = some (.rv v r5))
    (h4 : skipWs r5 = 125 :: r7) :
    parseCore (f + 1) .pmN (34 :: cs) = some (.rm [(k, v)] r7) := by
  rw [parseCore_pmN_go, h1]
  show (match skipWs r2 with
        | 58 :: r4 =>
          match parseCore f .pv r4 with
          | some (PRes.rv v r5) =>
            match skipWs r5 with
            | 44 :: r7 =>
              match parseCore f .pmN r7 with
              | some (PRes.rm kvs r8) => some (PRes.rm ((k, v) :: kvs) r8)
              | _ => none
            | 125 :: r7 => some (PRes.rm [(k, v)] r7)
            | _ => none
          | _ => none
        | _ => none) = some (PRes.rm [(k, v)] r7)
  rw [h2]
  show (match parseCore f .pv r4 with
        | some (PRes.rv v r5) =>
          match skipWs r5 with
          | 44 :: r7 =>
            match parseCore f .pmN r7 with
            | some (PRes.rm kvs r8) => some (PRes.rm ((k, v) :: kvs) r8)
            | _ => none
          | 125 :: r7 => some (PRes.rm [(k, v)] r7)
          | _ => none
        | _ => none) = some (PRes.rm [(k, v)] r7)
  rw [h3]
  show (match skipWs r5 with
        | 44 :: r7 =>
          match parseCore f .pmN r7 with
          | some (PRes.rm kvs r8) => some (PRes.rm ((k, v) :: kvs) r8)
          | _ => none
        | 125 :: r7 => some (PRes.rm [(k, v)] r7)
        | _ => none) = some (PRes.rm [(k, v)] r7)
  rw [h4]

/-- An array continuation starts with `,` or `]`. -/
theorem stringify_true_head_arr (t : Json) (h : t.isArr = true) :
    ∃ c cs, stringifyAux true t = c :: cs ∧ (c = 44 ∨ c = 93) := by
  cases t with
  | arrNil => exact ⟨93, [], rfl, Or.inr rfl⟩
  | arrCons x t2 => exact ⟨44, _, rfl, Or.inl rfl⟩
  | _ => simp [Json.isArr] at h

/-- An object continuation starts with `,` or `}`. -/
theorem stringify_true_head_obj (t : Json) (h : t.isObj = true) :
    ∃ c cs, stringifyAux true t = c :: cs ∧ (c = 44 ∨ c = 125) := by
  cases t with
  | objNil => exact ⟨125, [], rfl, Or.inr rfl⟩
  | objCons k v t2 => exact ⟨44, _, rfl, Or.inl rfl⟩
  | _ => simp [Json.isObj] at h

/-- A separator or closing character cannot extend a number literal. -/
theorem numDelim_closing (c : Nat) (cs : List Nat)
    (h : c = 44 ∨ c = 58 ∨ c = 93 ∨ c = 125 ∨ c = 32) :
    numDelim (c :: cs) := by
  rcases h with rfl | rfl | rfl | rfl | rfl <;>
    exact ⟨by decide, by decide, by decide, by decide⟩

/-- Value-mode round-trip property. -/
def PvStmt (v : Json) : Prop :=
  WfJson v → ∀ f rest, 3 * (stringifyAux false v).length + 1 ≤ f → numDelim rest →
    parseCore f .pv (stringifyAux false v ++ rest) = some (.rv v rest)

/-- Element-continuation round-trip property (array spine nodes only). -/
def PeStmt : Json → Prop
  | .arrCons x t =>
    WfJson (Json.arrCons x t) → ∀ f rest,
      3 * ((stringifyAux false x).length + (stringifyAux true t).length) ≤ f →
      parseCore f .peN ((stringifyAux false x ++ stringifyAux true t) ++ rest) =
        some (.rl (x :: arrElemsList t) rest)
  | _ => True

/-- Member-continuation round-trip property (object spine nodes only). -/
def PmStmt : Json → Prop
  | .objCons k w t =>
    WfJson (Json.objCons k w t) → ∀ f rest,
      3 * ((quoteStr k).length + 1 + (stringifyAux false w).length
          + (stringifyAux true t).length) ≤ f →
      parseCore f .pmN ((quoteStr k ++ 58 :: (stringifyAux false w ++ stringifyAux true t))
          ++ rest) = some (.rm ((k, w) :: objPropsList t) rest)
  | _ => True

/-- `JSON.parse`'s recursive descent inverts `JSON.stringify` on well-formed
values, in every mode. -/
theorem parseCore_round (v : Json) : PvStmt v ∧ PeStmt v ∧ PmStmt v := by
  induction v with
  | str s =>
    refine ⟨?_, trivial, trivial⟩
    intro hw f rest hf hdelim
    obtain ⟨g, rfl⟩ : ∃ g, f = g + 1 := ⟨f - 1, by omega⟩
    rw [show stringifyAux false (Json.str s) ++ rest
          = 34 :: (quoteBody s ++ 34 :: rest) from by
        show (34 :: (quoteBody s ++ [34])) ++ rest = _
        simp]
    refine parseCore_pv_str g s _ rest ?_
    rw [show (quoteBody s ++ 34 :: rest).length
          = (quoteBody s).length + 1 + rest.length from by
        simp only [List.length_append, List.length_cons]; omega]
    exact parseStringBody_quote s rest.length rest hw
  | num q =>
    refine ⟨?_, trivial, trivial⟩
    intro hw f rest hf hdelim
    obtain ⟨hden, hnum⟩ := hw
    obtain ⟨g, rfl⟩ : ∃ g, f = g + 1 := ⟨f - 1, by omega⟩
    have he : stringifyAux false (Json.num q) = natToDec q.num.toNat := by
      show numToText q = _
      unfold numToText intToDec
      rw [if_pos hden, if_neg (by omega : ¬q.num < 0),
        show q.num.natAbs = q.num.toNat from by omega]
    rw [he]
    cases hnd : natToDec q.num.toNat with
    | nil => exact absurd hnd (natToDec_ne_nil _)
    | cons d ds =>
      have hdig : 48 ≤ d ∧ d ≤ 57 := by
        have h := natToDec_all q.num.toNat
        rw [hnd] at h
        simp only [List.all_cons, Bool.and_eq_true, isDigitCp, decide_eq_true_eq] at h
        exact h.1
      rw [show (d :: ds) ++ rest = d :: (ds ++ rest) from rfl]
      have hpn : parseNumber (d :: (ds ++ rest)) = some (((q.num.toNat : ℕ) : ℚ), rest) := by
        rw [← List.cons_append, ← hnd]
        exact parseNumber_natToDec q.num.toNat rest hdelim
      have hq : ((q.num.toNat : ℕ) : ℚ) = q := by
        have h2 := Rat.num_div_den q
        rw [hden] at h2
        rw [show ((q.num.toNat : ℕ) : ℚ) = ((q.num : ℤ) : ℚ) from by
          exact_mod_cast Int.toNat_of_nonneg hnum]
        simpa using h2
      rw [hq] at hpn
      exact parseCore_pv_num g d (ds ++ rest) rest q hdig hpn
  | jbool b =>
    refine ⟨?_, trivial, trivial⟩
    intro hw f rest hf hdelim
    obtain ⟨g, rfl⟩ : ∃ g, f = g + 1 := ⟨f - 1, by omega⟩
    cases b
    · rw [show stringifyAux false (Json.jbool false) ++ rest
            = 102 :: (97 :: 108 :: 115 :: 101 :: rest) from rfl]
      rw [parseCore_pv_go g 102 _ (by decide), if_neg (by decide : ¬(102 = 123)),
        if_neg (by decide : ¬(102 = 91)), if_neg (by decide : ¬(102 = 34)),
        if_neg (by decide : ¬(102 = 116)), if_pos rfl]
    · rw [show stringifyAux false (Json.jbool true) ++ rest
            = 116 :: (114 :: 117 :: 101 :: rest) from rfl]
      rw [parseCore_pv_go g 116 _ (by decide), if_neg (by decide : ¬(116 = 123)),
        if_neg (by decide : ¬(116 = 91)), if_neg (by decide : ¬(116 = 34)),
        if_pos rfl]
  | null =>
    refine ⟨?_, trivial, trivial⟩
    intro hw f rest hf hdelim
    obtain ⟨g, rfl⟩ : ∃ g, f = g + 1 := ⟨f - 1, by omega⟩
    rw [show stringifyAux false Json.null ++ rest
          = 110 :: (117 :: 108 :: 108 :: rest) from rfl]
    rw [parseCore_pv_go g 110 _ (by decide), if_neg (by decide : ¬(110 = 123)),
      if_neg (by decide : ¬(110 = 91)), if_neg (by decide : ¬(110 = 34)),
      if_neg (by decide : ¬(110 = 116)), if_neg (by decide : ¬(110 = 102)),
      if_pos rfl]
  | arrNil =>
    refine ⟨?_, trivial, trivial⟩
    intro hw f rest hf hdelim
    have h2 : (stringifyAux false Json.arrNil).length = 2 := rfl
    obtain ⟨g, rfl⟩ : ∃ g, f = g + 1 := ⟨f - 1, by omega⟩
    obtain ⟨g2, rfl⟩ : ∃ g2, g = g2 + 1 := ⟨g - 1, by omega⟩
    rw [show stringifyAux false Json.arrNil ++ rest = 91 :: (93 :: rest) from rfl]
    rw [parseCore_pv_arr (g2 + 1) (93 :: rest) [] rest (parseCore_pe0_close g2 rest)]
    rfl
  | objNil =>
    refine ⟨?_, trivial, trivial⟩
    intro hw f rest hf hdelim
    have h2 : (stringifyAux false Json.objNil).length = 2 := rfl
    obtain ⟨g, rfl⟩ : ∃ g, f = g + 1 := ⟨f - 1, by omega⟩
    obtain ⟨g2, rfl⟩ : ∃ g2, g = g2 + 1 := ⟨g - 1, by omega⟩
    rw [show stringifyAux false Json.objNil ++ rest = 123 :: (125 :: rest) from rfl]
    rw [parseCore_pv_obj (g2 + 1) (125 :: rest) [] rest (parseCore_pm0_close g2 rest)]
    rfl
  | arrCons x t ihx iht =>
    have hPe : PeStmt (Json.arrCons x t) := by
      show WfJson (Json.arrCons x t) → _
      intro hw f rest hf
      obtain ⟨hwx, hwt, hta⟩ := hw
      obtain ⟨c1, cs1, hst, hc1⟩ := stringify_true_head_arr t hta
      have hLt : (stringifyAux true t).length = cs1.length + 1 := by
        rw [hst]; rfl
      obtain ⟨g, rfl⟩ : ∃ g, f = g + 1 := ⟨f - 1, by omega⟩
      have hpv : parseCore g .pv
          (stringifyAux false x ++ (stringifyAux true t ++ rest)) =
          some (.rv x (stringifyAux true t ++ rest)) := by
        refine ihx.1 hwx g _ (by omega) ?_
        rw [hst, List.cons_append]
        exact numDelim_closing c1 _ (by omega)
      rw [List.append_assoc]
      cases t with
      | arrNil =>
        refine parseCore_peN_last g _ _ rest x hpv ?_
        rw [show stringifyAux true Json.arrNil ++ rest = 93 :: rest from rfl]
        exact skipWs_cons 93 rest (by decide)
      | arrCons x2 t2 =>
        have hst2 : stringifyAux true (Json.arrCons x2 t2) ++ rest
            = 44 :: ((stringifyAux false x2 ++ stringifyAux true t2) ++ rest) := by
          show (44 :: (stringifyAux false x2 ++ stringifyAux true t2)) ++ rest = _
          simp
        refine parseCore_peN_more g _ _
          ((stringifyAux false x2 ++ stringifyAux true t2) ++ rest)
          x (x2 :: arrElemsList t2) rest hpv ?_ ?_
        · rw [hst2]
          exact skipWs_cons 44 _ (by decide)
        · refine iht.2.1 hwt g rest ?_
          have hx2 : (stringifyAux true (Json.arrCons x2 t2)).length
              = (stringifyAux false x2).length + (stringifyAux true t2).length + 1 := by
            show (44 :: (stringifyAux false x2 ++ stringifyAux true t2)).length = _
            simp only [List.length_cons, List.length_append]
          omega
      | _ => simp [Json.isArr] at hta
    refine ⟨?_, hPe, trivial⟩
    intro hw f rest hf hdelim
    have h1 : (stringifyAux false (Json.arrCons x t)).length
        = (stringifyAux false x).length + (stringifyAux true t).length + 1 := by
      show (91 :: (stringifyAux false x ++ stringifyAux true t)).length = _
      simp only [List.length_cons, List.length_append]
    obtain ⟨g, rfl⟩ : ∃ g, f = g + 1 := ⟨f - 1, by omega⟩
    obtain ⟨g2, rfl⟩ : ∃ g2, g = g2 + 1 := ⟨g - 1, by omega⟩
    obtain ⟨c0, cs0, hsx, hws0, h930, _⟩ := stringify_false_head x hw.1
    rw [show stringifyAux false (Json.arrCons x t) ++ rest
          = 91 :: ((stringifyAux false x ++ stringifyAux true t) ++ rest) from by
        show (91 :: (stringifyAux false x ++ stringifyAux true t)) ++ rest = _
        simp]
    have hlen : 3 * ((stringifyAux false x).length + (stringifyAux true t).length)
        ≤ g2 := by omega
    have hres := hPe hw g2 rest hlen
    have hfin : parseCore (g2 + 1) .pe0
        ((stringifyAux false x ++ stringifyAux true t) ++ rest)
        = some (.rl (x :: arrElemsList t) rest) := by
      rw [show (stringifyAux false x ++ stringifyAux true t) ++ rest
            = c0 :: (cs0 ++ (stringifyAux true t ++ rest)) from by
          rw [hsx]; simp]
      rw [parseCore_pe0_go g2 c0 _ hws0 h930]
      rw [show c0 :: (cs0 ++ (stringifyAux true t ++ rest))
            = (stringifyAux false x ++ stringifyAux true t) ++ rest from by
          rw [hsx]; simp]
      exact hres
    have harr := parseCore_pv_arr (g2 + 1)
      ((stringifyAux false x ++ stringifyAux true t) ++ rest)
      (x :: arrElemsList t) rest hfin
    rw [show arrOfList (x :: arrElemsList t)
          = Json.arrCons x (arrOfList (arrElemsList t)) from rfl,
      arrOfList_elems t hw.2.2 hw.2.1] at harr
    exact harr
  | objCons k w t ihw iht =>
    have hPm : PmStmt (Json.objCons k w t) := by
      show WfJson (Json.objCons k w t) → _
      intro hw2 f rest hf
      obtain ⟨hsk, hww, hwt, hto, hstable⟩ := hw2
      obtain ⟨c1, cs1, hst, hc1⟩ := stringify_true_head_obj t hto
      have hLt : (stringifyAux true t).length = cs1.length + 1 := by
        rw [hst]; rfl
      have hLq : (quoteStr k).length = (quoteBody k).length + 2 := by
        show (34 :: (quoteBody k ++ [34])).length = _
        simp only [List.length_cons, List.length_append, List.length_nil]
        try omega
      obtain ⟨g, rfl⟩ : ∃ g, f = g + 1 := ⟨f - 1, by omega⟩
      rw [show (quoteStr k ++ 58 :: (stringifyAux false w ++ stringifyAux true t)) ++ rest
            = 34 :: (quoteBody k
                ++ 34 :: (58 :: (stringifyAux false w ++ (stringifyAux true t ++ rest))))
          from by
        show (34 :: (quoteBody k ++ [34])
            ++ 58 :: (stringifyAux false w ++ stringifyAux true t)) ++ rest = _
        simp]
      have hkey : parseStringBody
          (quoteBody k ++ 34 :: (58 :: (stringifyAux false w
            ++ (stringifyAux true t ++ rest)))).length
          (quoteBody k ++ 34 :: (58 :: (stringifyAux false w
            ++ (stringifyAux true t ++ rest))))
          = some (k, 58 :: (stringifyAux false w ++ (stringifyAux true t ++ rest))) := by
        rw [show (quoteBody k ++ 34 :: (58 :: (stringifyAux false w
              ++ (stringifyAux true t ++ rest)))).length
            = (quoteBody k).length + 1
              + (58 :: (stringifyAux false w ++ (stringifyAux true t ++ rest))).length
            from by simp only [List.length_append, List.length_cons]; omega]
        exact parseStringBody_quote k _ _ hsk
      have hpv : parseCore g .pv
          (stringifyAux false w ++ (stringifyAux true t ++ rest)) =
          some (.rv w (stringifyAux true t ++ rest)) := by
        refine ihw.1 hww g _ (by omega) ?_
        rw [hst, List.cons_append]
        exact numDelim_closing c1 _ (by omega)
      cases t with
      | objNil =>
        refine parseCore_pmN_last g _ _ _ k w _ rest hkey
          (skipWs_cons 58 _ (by decide)) hpv ?_
        rw [show stringifyAux true Json.objNil ++ rest = 125 :: rest from rfl]
        exact skipWs_cons 125 rest (by decide)
      | objCons k2 w2 t2 =>
        have hst2 : stringifyAux true (Json.objCons k2 w2 t2) ++ rest
            = 44 :: ((quoteStr k2
                ++ 58 :: (stringifyAux false w2 ++ stringifyAux true t2)) ++ rest) := by
          show (44 :: (quoteStr k2
              ++ 58 :: (stringifyAux false w2 ++ stringifyAux true t2))) ++ rest = _
          simp
        refine parseCore_pmN_more g _ _ _ k w _
          ((quoteStr k2 ++ 58 :: (stringifyAux false w2 ++ stringifyAux true t2)) ++ rest)
          ((k2, w2) :: objPropsList t2) rest hkey
          (skipWs_cons 58 _ (by decide)) hpv ?_ ?_
        · rw [hst2]
          exact skipWs_cons 44 _ (by decide)
        · refine iht.2.2 hwt g rest ?_
          have hx2 : (stringifyAux true (Json.objCons k2 w2 t2)).length
              = (quoteStr k2).length + 1 + (stringifyAux false w2).length
                + (stringifyAux true t2).length + 1 := by
            show (44 :: (quoteStr k2
                ++ 58 :: (stringifyAux false w2 ++ stringifyAux true t2))).length = _
            simp only [List.length_cons, List.length_append]
            omega
          omega
      | _ => simp [Json.isObj] at hto
    refine ⟨?_, trivial, hPm⟩
    intro hw2 f rest hf hdelim
    have hLq : (quoteStr k).length = (quoteBody k).length + 2 := by
      show (34 :: (quoteBody k ++ [34])).length = _
      simp only [List.length_cons, List.length_append, List.length_nil]
      try omega
    have h1 : (stringifyAux false (Json.objCons k w t)).length
        = (quoteStr k).length + 1 + (stringifyAux false w).length
          + (stringifyAux true t).length + 1 := by
      show (123 :: (quoteStr k
          ++ 58 :: (stringifyAux false w ++ stringifyAux true t))).length = _
      simp only [List.length_cons, List.length_append]
      omega
    obtain ⟨g, rfl⟩ : ∃ g, f = g + 1 := ⟨f - 1, by omega⟩
    obtain ⟨g2, rfl⟩ : ∃ g2, g = g2 + 1 := ⟨g - 1, by omega⟩
    rw [show stringifyAux false (Json.objCons k w t) ++ rest
          = 123 :: ((quoteStr k
              ++ 58 :: (stringifyAux false w ++ stringifyAux true t)) ++ rest) from by
        show (123 :: (quoteStr k
            ++ 58 :: (stringifyAux false w ++ stringifyAux true t))) ++ rest = _
        simp]
    have hlen : 3 * ((quoteStr k).length + 1 + (stringifyAux false w).length
        + (stringifyAux true t).length) ≤ g2 := by omega
    have hres := hPm hw2 g2 rest hlen
    have hfin : parseCore (g2 + 1) .pm0
        ((quoteStr k ++ 58 :: (stringifyAux false w ++ stringifyAux true t)) ++ rest)
        = some (.rm ((k, w) :: objPropsList t) rest) := by
      rw [show (quoteStr k ++ 58 :: (stringifyAux false w ++ stringifyAux true t)) ++ rest
            = 34 :: ((quoteBody k ++ [34])
                ++ 58 :: (stringifyAux false w ++ stringifyAux true t) ++ rest) from by
          show (34 :: (quoteBody k ++ [34])
              ++ 58 :: (stringifyAux false w ++ stringifyAux true t)) ++ rest = _
          simp]
      rw [parseCore_pm0_go g2 34 _ (by decide) (by decide)]
      rw [show (34 : Nat) :: ((quoteBody k ++ [34])
            ++ 58 :: (stringifyAux false w ++ stringifyAux true t) ++ rest)
          = (quoteStr k ++ 58 :: (stringifyAux false w ++ stringifyAux true t)) ++ rest
          from by
        show _ = (34 :: (quoteBody k ++ [34])
            ++ 58 :: (stringifyAux false w ++ stringifyAux true t)) ++ rest
        simp]
      exact hres
    have hobj := parseCore_pv_obj (g2 + 1)
      ((quoteStr k ++ 58 :: (stringifyAux false w ++ stringifyAux true t)) ++ rest)
      ((k, w) :: objPropsList t) rest hfin
    rw [foldl_jsDefine_stable ((k, w) :: objPropsList t) []
        (by simpa using hw2.2.2.2.2)] at hobj
    rw [List.nil_append] at hobj
    rw [show objOfList ((k, w) :: objPropsList t)
          = Json.objCons k w (objOfList (objPropsList t)) from rfl,
      objOfList_props t hw2.2.2.2.1 hw2.2.2.1] at hobj
    exact hobj

/-- `JSON.parse ∘ JSON.stringify` is the identity on well-formed values, with
trailing whitespace tolerated. -/
theorem jsonParse_stringify (v : Json) (hw : WfJson v) (pad : List Nat)
    (hpad : ∀ c ∈ pad, isJsonWs c = true) :
    jsonParse (jsonStringify v ++ pad) = some v := by
  have hdelim : numDelim pad := by
    cases pad with
    | nil => trivial
    | cons c t =>
      have hc := hpad c (List.mem_cons_self _ _)
      simp only [isJsonWs, Bool.or_eq_true, decide_eq_true_eq] at hc
      refine ⟨?_, ?_, ?_, ?_⟩ <;>
        first
          | (simp only [isDigitCp, Bool.and_eq_true, decide_eq_true_eq,
              Bool.and_eq_false_iff, decide_eq_false_iff_not]
             omega)
          | omega
  have hlen : 3 * (stringifyAux false v).length + 1
      ≤ 3 * (jsonStringify v ++ pad).length + 3 := by
    simp only [jsonStringify, List.length_append]
    omega
  unfold jsonParse
  rw [show jsonStringify v = stringifyAux false v from rfl]
  rw [(parseCore_round v).1 hw _ pad (by
    simp only [List.length_append] at hlen ⊢
    simpa [jsonStringify] using hlen) hdelim]
  show (if skipWs pad = [] then some v else none) = some v
  rw [if_pos (skipWs_all pad hpad)]

/-! ## Round-trip machinery, part 6: the encoder's header and data layout -/

/-- Byte length rounded up to the next multiple of 8 (the value of
`(len + 7) & ~7` below the 32-bit wrap). -/
def padLen8 (n : Nat) : Nat := 8 * ((n + 7) / 8)

/-- Total padded data-section length. -/
def dataLen : List (Str × TensorRefData) → Nat
  | [] => 0
  | (_, t) :: rest => padLen8 t.bytes.length + dataLen rest

/-- The header entries `calcOffset` creates, with the running offset kept as
a natural number. -/
def hdrEntriesN : List (Str × TensorRefData) → Nat → List (Str × Json)
  | [], _ => []
  | (name, t) :: rest, off =>
    (name, hdrEntryOf t (off : Int)) :: hdrEntriesN rest (off + padLen8 t.bytes.length)

/-- The data section `writeTensors` emits: each tensor's bytes followed by
its space padding. -/
def dataBytes : List (Str × TensorRefData) → List Nat
  | [] => []
  | (_, t) :: rest =>
    t.bytes ++ List.replicate (padLen8 t.bytes.length - t.bytes.length) 32 ++ dataBytes rest

/-- Below the wrap, `padLen8` bounds. -/
theorem padLen8_bounds (n : Nat) : n ≤ padLen8 n ∧ padLen8 n ≤ n + 7 ∧ padLen8 n % 8 = 0 := by
  unfold padLen8
  omega

/-- The emitted data section has the padded total length. -/
theorem dataBytes_length (tes : List (Str × TensorRefData)) :
    (dataBytes tes).length = dataLen tes := by
  induction tes with
  | nil => rfl
  | cons kv rest ih =>
    obtain ⟨name, t⟩ := kv
    show (t.bytes ++ List.replicate (padLen8 t.bytes.length - t.bytes.length) 32
        ++ dataBytes rest).length = padLen8 t.bytes.length + dataLen rest
    simp only [List.length_append, List.length_replicate, ih]
    have := padLen8_bounds t.bytes.length
    omega

/-- `calcOffsetGo` on fresh, stable names: append entries and advance. -/
theorem calcOffsetGo_stable (tes : List (Str × TensorRefData)) :
    ∀ (off : Nat) (hdr0 : List (Str × Json)),
      (∀ kv ∈ tes, isArrayIndexKey kv.1 = false ∧ kv.1 ≠ strOf "__proto__" ∧
        alookup kv.1 hdr0 = none) →
      ((tes.map Prod.fst).Nodup) →
      (∀ kv ∈ tes, kv.2.bytes.length + 7 < 2 ^ 31) →
      calcOffsetGo tes (off : Int) hdr0 =
        (hdr0 ++ hdrEntriesN tes off, ((off + dataLen tes : ℕ) : ℤ)) := by
  induction tes with
  | nil =>
    intro off hdr0 _ _ _
    show (hdr0, (off : Int)) = (hdr0 ++ [], _)
    simp [dataLen]
  | cons kv rest ih =>
    intro off hdr0 hfresh hnodup hlen
    obtain ⟨name, t⟩ := kv
    obtain ⟨hidx, hproto, hlook⟩ := hfresh (name, t) (List.mem_cons_self _ _)
    have hkb : t.bytes.length + 7 < 2 ^ 31 := hlen (name, t) (List.mem_cons_self _ _)
    show calcOffsetGo rest ((off : Int) + and32 ((t.bytes.length : Int) + 7) (-8))
        (jsAssign hdr0 name (hdrEntryOf t (off : Int)))
      = (hdr0 ++ ((name, hdrEntryOf t (off : Int))
          :: hdrEntriesN rest (off + padLen8 t.bytes.length)),
         ((off + (padLen8 t.bytes.length + dataLen rest) : ℕ) : ℤ))
    rw [and32_align t.bytes.length hkb]
    rw [show (off : Int) + ((8 * ((t.bytes.length + 7) / 8) : ℕ) : ℤ)
          = ((off + padLen8 t.bytes.length : ℕ) : ℤ) from by
        unfold padLen8; push_cast; ring]
    rw [show jsAssign hdr0 name (hdrEntryOf t (off : Int))
          = hdr0 ++ [(name, hdrEntryOf t (off : Int))] from by
        unfold jsAssign
        rw [if_neg hproto]
        exact jsPropInsert_append name _ hdr0 hlook hidx]
    rw [ih (off + padLen8 t.bytes.length) (hdr0 ++ [(name, hdrEntryOf t (off : Int))])
      ?_ ?_ ?_]
    · refine Prod.ext ?_ ?_
      · show (hdr0 ++ [(name, hdrEntryOf t (off : Int))])
            ++ hdrEntriesN rest (off + padLen8 t.bytes.length) = _
        simp
      · show ((off + padLen8 t.bytes.length + dataLen rest : ℕ) : ℤ) = _
        push_cast
        ring
    · intro kv hkv
      obtain ⟨h1, h2, h3⟩ := hfresh kv (List.mem_cons_of_mem _ hkv)
      refine ⟨h1, h2, ?_⟩
      rw [alookup_eq_none_iff] at h3 ⊢
      simp only [List.map_append, List.map_cons, List.map_nil]
      intro hmem
      rcases List.mem_append.mp hmem with h | h
      · exact h3 h
      · simp only [List.mem_singleton] at h
        have : kv.1 ∈ rest.map Prod.fst := List.mem_map_of_mem _ hkv
        rw [List.map_cons] at hnodup
        rw [h] at this
        exact (List.nodup_cons.mp hnodup).1 this
    · exact (List.nodup_cons.mp (by rw [List.map_cons] at hnodup; exact hnodup)).2
    · intro kv hkv
      exact hlen kv (List.mem_cons_of_mem _ hkv)

/-- A built array spine is an array. -/
theorem isArr_arrOfList (l : List Json) : (arrOfList l).isArr = true := by
  cases l <;> rfl

/-- A built object spine is an object. -/
theorem isObj_objOfList (l : List (Str × Json)) : (objOfList l).isObj = true := by
  cases l <;> rfl

/-- Build a well-formed array from well-formed elements. -/
theorem wfArrOfList (l : List Json) (h : ∀ x ∈ l, WfJson x) : WfJson (arrOfList l) := by
  induction l with
  | nil => trivial
  | cons x t ih =>
    exact ⟨h x (List.mem_cons_self _ _),
      ih (fun y hy => h y (List.mem_cons_of_mem _ hy)), isArr_arrOfList t⟩

/-- Build a well-formed object from well-formed members with stable keys. -/
theorem wfObjOfList (l : List (Str × Json)) (h : ∀ kv ∈ l, ScalarStr kv.1 ∧ WfJson kv.2)
    (hs : StableKeys l) : WfJson (objOfList l) := by
  induction l with
  | nil => trivial
  | cons kv t ih =>
    obtain ⟨k, v⟩ := kv
    have htail : StableKeys t := by
      refine ⟨?_, fun kv hkv => hs.2 kv (List.mem_cons_of_mem _ hkv)⟩
      have h1 := hs.1
      rw [List.map_cons] at h1
      exact (List.nodup_cons.mp h1).2
    refine ⟨(h (k, v) (List.mem_cons_self _ _)).1, (h (k, v) (List.mem_cons_self _ _)).2,
      ih (fun kv hkv => h kv (List.mem_cons_of_mem _ hkv)) htail, isObj_objOfList t, ?_⟩
    rw [objPropsList_objOfList]
    exact hs

/-- A natural-number JSON number is well formed. -/
theorem wf_num_natCast (d : Nat) : WfJson (Json.num ((d : ℕ) : ℚ)) := by
  refine ⟨Rat.den_natCast d, ?_⟩
  rw [Rat.num_natCast]
  exact Int.natCast_nonneg d

/-- One tensor's header entry is well formed. -/
theorem wf_hdrEntryOf (t : TensorRefData) (off : Nat) (hf : ScalarStr t.format) :
    WfJson (hdrEntryOf t ((off : ℕ) : ℤ)) := by
  refine ⟨by decide, hf, ?_, rfl, ?_⟩
  · refine ⟨by decide, ?_, ?_, rfl, ?_⟩
    · refine wfArrOfList _ ?_
      intro x hx
      rw [List.mem_map] at hx
      obtain ⟨d, _, rfl⟩ := hx
      exact wf_num_natCast d
    · refine ⟨by decide, ?_, trivial, rfl, ?_⟩
      · refine ⟨⟨?_, ?_⟩, ⟨⟨?_, ?_⟩, trivial, rfl⟩, rfl⟩
        · exact Rat.den_intCast _
        · rw [Rat.num_intCast]; positivity
        · rw [show ((((off : ℕ) : ℤ) + ((t.bytes.length : ℕ) : ℤ) : ℤ) : ℚ)
                = (((off + t.bytes.length : ℕ) : ℤ) : ℚ) from by push_cast; ring]
          exact Rat.den_intCast _
        · rw [show ((((off : ℕ) : ℤ) + ((t.bytes.length : ℕ) : ℤ) : ℤ) : ℚ)
                = (((off + t.bytes.length : ℕ) : ℤ) : ℚ) from by push_cast; ring]
          rw [Rat.num_intCast]; positivity
      · refine ⟨?_, ?_⟩
        · show ([strOf "data_offsets"] : List Str).Nodup
          decide
        · intro kv hkv
          simp only [objPropsList, List.mem_cons, List.not_mem_nil, or_false] at hkv
          rw [hkv]
          show isArrayIndexKey (strOf "data_offsets") = false
          decide
    · refine ⟨?_, ?_⟩
      · show ([strOf "shape", strOf "data_offsets"] : List Str).Nodup
        decide
      · intro kv hkv
        simp only [objPropsList, List.mem_cons, List.not_mem_nil, or_false] at hkv
        rcases hkv with h | h <;> rw [h]
        · show isArrayIndexKey (strOf "shape") = false
          decide
        · show isArrayIndexKey (strOf "data_offsets") = false
          decide
  · refine ⟨?_, ?_⟩
    · show ([strOf "dtype", strOf "shape", strOf "data_offsets"] : List Str).Nodup
      decide
    · intro kv hkv
      simp only [objPropsList, List.mem_cons, List.not_mem_nil, or_false] at hkv
      rcases hkv with h | h | h <;> rw [h]
      · show isArrayIndexKey (strOf "dtype") = false
        decide
      · show isArrayIndexKey (strOf "shape") = false
        decide
      · show isArrayIndexKey (strOf "data_offsets") = false
        decide

/-! ## Round-trip machinery, part 7: lookup, slicing and byte toolkit -/

/-- Association lookup skips a key-free prefix. -/
theorem alookup_append_of_none {α : Type} (k : Str) (a b : List (Str × α))
    (h : alookup k a = none) : alookup k (a ++ b) = alookup k b := by
  induction a with
  | nil => rfl
  | cons hd t ih =>
    obtain ⟨k0, v0⟩ := hd
    by_cases h0 : k0 = k
    · simp [alookup, h0] at h
    · simp only [alookup, if_neg h0] at h
      simp only [List.cons_append, alookup, if_neg h0]
      exact ih h

/-- The generated header entries carry exactly the tensor names. -/
theorem hdrEntriesN_keys (tes : List (Str × TensorRefData)) :
    ∀ off, (hdrEntriesN tes off).map Prod.fst = tes.map Prod.fst := by
  induction tes with
  | nil => intro off; rfl
  | cons kv rest ih =>
    intro off
    obtain ⟨n, t⟩ := kv
    simp only [hdrEntriesN, List.map_cons]
    rw [ih]

/-- Header-entry generation distributes over append, shifting the offset. -/
theorem hdrEntriesN_append (a b : List (Str × TensorRefData)) :
    ∀ off, hdrEntriesN (a ++ b) off =
      hdrEntriesN a off ++ hdrEntriesN b (off + dataLen a) := by
  induction a with
  | nil => intro off; simp [hdrEntriesN, dataLen]
  | cons kv rest ih =>
    intro off
    obtain ⟨n, t⟩ := kv
    show (n, hdrEntryOf t (off : ℤ)) :: hdrEntriesN (rest ++ b) (off + padLen8 t.bytes.length)
      = ((n, hdrEntryOf t (off : ℤ)) :: hdrEntriesN rest (off + padLen8 t.bytes.length))
        ++ hdrEntriesN b (off + (padLen8 t.bytes.length + dataLen rest))
    rw [ih]
    rw [show off + padLen8 t.bytes.length + dataLen rest
        = off + (padLen8 t.bytes.length + dataLen rest) from by omega]
    simp

/-- Looking up a tensor's entry in the generated header. -/
theorem alookup_hdrEntriesN (pre : List (Str × TensorRefData)) (name : Str)
    (t : TensorRefData) (post : List (Str × TensorRefData)) (off : Nat)
    (hfresh : name ∉ pre.map Prod.fst) :
    alookup name (hdrEntriesN (pre ++ (name, t) :: post) off)
      = some (hdrEntryOf t ((off + dataLen pre : ℕ) : ℤ)) := by
  rw [hdrEntriesN_append]
  rw [alookup_append_of_none name _ _ ?_]
  · simp [hdrEntriesN, alookup]
  · rw [alookup_eq_none_iff, hdrEntriesN_keys]
    exact hfresh

/-- Total data length distributes over append. -/
theorem dataLen_append (a b : List (Str × TensorRefData)) :
    dataLen (a ++ b) = dataLen a + dataLen b := by
  induction a with
  | nil => simp [dataLen]
  | cons kv rest ih =>
    obtain ⟨n, t⟩ := kv
    simp only [List.cons_append, dataLen]
    rw [show dataLen (rest.append b) = dataLen (rest ++ b) from rfl, ih]
    omega

/-- Each member's raw length is bounded by the section total. -/
theorem len_le_dataLen (tes : List (Str × TensorRefData)) (kv : Str × TensorRefData)
    (h : kv ∈ tes) : kv.2.bytes.length ≤ dataLen tes := by
  induction tes with
  | nil => cases h
  | cons hd rest ih =>
    obtain ⟨n, t⟩ := hd
    have hb := (padLen8_bounds t.bytes.length).1
    rcases List.mem_cons.mp h with h | h
    · have hkv : kv.2.bytes.length = t.bytes.length := by rw [h]
      simp only [dataLen]
      omega
    · have := ih h
      simp only [dataLen]
      omega

/-- Slicing the middle component out of a concatenation. -/
theorem jsSlice_extract (a mid b : List Nat) :
    jsSlice (a ++ mid ++ b) (a.length : Int)
      ((a.length : Int) + (mid.length : Int)) = mid := by
  unfold jsSlice jsSliceIndex
  have hlen : (a ++ mid ++ b).length = a.length + mid.length + b.length := by
    simp only [List.length_append]
  rw [if_neg (by omega), if_neg (by omega)]
  rw [show ((a.length : Int) + (mid.length : Int)).toNat = a.length + mid.length from by omega]
  rw [Int.toNat_natCast]
  rw [hlen]
  rw [show min (a.length + mid.length) (a.length + mid.length + b.length)
      = a.length + mid.length from by omega]
  rw [show min a.length (a.length + mid.length + b.length) = a.length from by omega]
  rw [List.drop_take]
  rw [show a.length + mid.length - a.length = mid.length from by omega]
  rw [List.append_assoc, List.drop_left, List.take_left]

/-- Slicing a prefix of the 8-space padder yields spaces. -/
theorem jsSlice_padder (k : Nat) (hk : k ≤ 8) :
    jsSlice padder 0 (k : Int) = List.replicate k 32 := by
  interval_cases k <;> rfl

/-- Truncation of an integral rational. -/
theorem ratTrunc_intCast (z : Int) : ratTrunc ((z : ℤ) : ℚ) = z := by
  unfold ratTrunc
  rw [Rat.num_intCast, Rat.den_intCast]
  exact Int.tdiv_one z

/-- Truncation of a natural rational. -/
theorem ratTrunc_natCast (n : Nat) : ratTrunc ((n : ℕ) : ℚ) = (n : ℤ) := by
  unfold ratTrunc
  rw [Rat.num_natCast, Rat.den_natCast]
  exact Int.tdiv_one _

/-- Shape dimensions read back exactly. -/
theorem jsToNat_natCast (d : Nat) : jsToNat (Json.num ((d : ℕ) : ℚ)) = d := by
  show (if ((d : ℚ).den = 1 ∧ 0 ≤ (d : ℚ).num) then (d : ℚ).num.toNat else 0) = d
  rw [if_pos ⟨Rat.den_natCast d, by rw [Rat.num_natCast]; positivity⟩]
  rw [Rat.num_natCast]
  exact Int.toNat_natCast d

/-- 32-bit AND with `0xff` is `mod 256` below the wrap. -/
theorem and32_255 (n : Nat) (h : n < 2 ^ 32) :
    and32 ((n : ℕ) : Int) 255 = ((n % 256 : Nat) : Int) := by
  unfold and32
  rw [show (255 : Int) = ((255 : Nat) : Int) from rfl]
  rw [toUInt32_ofNat, toUInt32_ofNat]
  rw [Nat.mod_eq_of_lt h, Nat.mod_eq_of_lt (by norm_num)]
  rw [show n &&& 255 = n % 2 ^ 8 from by
    rw [show (255 : Nat) = 2 ^ 8 - 1 from rfl]
    exact Nat.and_pow_two_sub_one_eq_mod n 8]
  unfold int32OfPat
  rw [if_pos (by omega)]
  norm_num

/-- `Int.fdiv` on natural casts is natural division. -/
theorem int_fdiv_natCast (m n : Nat) : Int.fdiv ((m : ℕ) : ℤ) ((n : ℕ) : ℤ) = ((m / n : ℕ) : ℤ) := by
  rw [Int.fdiv_eq_ediv _ (Int.natCast_nonneg n)]
  exact (Int.natCast_div m n).symm

/-- JS `>>` on a small natural value is division. -/
theorem jsShr_natCast (n k : Nat) (h : n < 2 ^ 31) :
    jsShr ((n : ℕ) : Int) k = ((n / 2 ^ k : Nat) : Int) := by
  unfold jsShr
  rw [toInt32_small n h]
  rw [show ((2 : ℤ)) ^ k = ((2 ^ k : ℕ) : ℤ) from by push_cast; ring]
  exact int_fdiv_natCast n (2 ^ k)

/-- One little-endian byte of a small natural length value. -/
theorem jsByte_natCast (n k : Nat) (h : n < 2 ^ 31) :
    jsByte ((n : ℕ) : Int) k = n / 2 ^ (8 * k) % 256 := by
  unfold jsByte
  rw [jsShr_natCast n (8 * k) h]
  rw [and32_255 _ (by
    have := Nat.div_le_self n (2 ^ (8 * k))
    omega)]
  exact Int.toNat_natCast _

/-! ## Round-trip machinery, part 8: the serialized header is a scalar string -/

/-- Escaping a scalar code point yields scalar code points. -/
theorem quoteChar_scalar (c : Nat) (hc : IsScalar c) : ∀ x ∈ quoteChar c, IsScalar x := by
  intro x hx
  unfold quoteChar at hx
  by_cases h1 : c = 34
  · rw [if_pos h1] at hx
    have : x = 92 ∨ x = 34 := by simpa using hx
    rcases this with rfl | rfl <;> exact Or.inl (by norm_num)
  rw [if_neg h1] at hx
  by_cases h2 : c = 92
  · rw [if_pos h2] at hx
    have : x = 92 := by simpa using hx
    subst this; exact Or.inl (by norm_num)
  rw [if_neg h2] at hx
  by_cases h3 : c = 8
  · rw [if_pos h3] at hx
    have : x = 92 ∨ x = 98 := by simpa using hx
    rcases this with rfl | rfl <;> exact Or.inl (by norm_num)
  rw [if_neg h3] at hx
  by_cases h4 : c = 9
  · rw [if_pos h4] at hx
    have : x = 92 ∨ x = 116 := by simpa using hx
    rcases this with rfl | rfl <;> exact Or.inl (by norm_num)
  rw [if_neg h4] at hx
  by_cases h5 : c = 10
  · rw [if_pos h5] at hx
    have : x = 92 ∨ x = 110 := by simpa using hx
    rcases this with rfl | rfl <;> exact Or.inl (by norm_num)
  rw [if_neg h5] at hx
  by_cases h6 : c = 12
  · rw [if_pos h6] at hx
    have : x = 92 ∨ x = 102 := by simpa using hx
    rcases this with rfl | rfl <;> exact Or.inl (by norm_num)
  rw [if_neg h6] at hx
  by_cases h7 : c = 13
  · rw [if_pos h7] at hx
    have : x = 92 ∨ x = 114 := by simpa using hx
    rcases this with rfl | rfl <;> exact Or.inl (by norm_num)
  rw [if_neg h7] at hx
  by_cases h8 : c < 32
  · rw [if_pos h8] at hx
    have : x = 92 ∨ x = 117 ∨ x = 48 ∨ x = 48 ∨
        x = hexDigit (c / 16) ∨ x = hexDigit (c % 16) := by simpa using hx
    have hd1 : hexDigit (c / 16) < 0xD800 := by unfold hexDigit; split <;> omega
    have hd2 : hexDigit (c % 16) < 0xD800 := by
      unfold hexDigit
      have : c % 16 < 16 := Nat.mod_lt c (by norm_num)
      split <;> omega
    rcases this with rfl | rfl | rfl | rfl | rfl | rfl <;> exact Or.inl (by omega)
  rw [if_neg h8] at hx
  have : x = c := by simpa using hx
  subst this
  exact hc

/-- Escaping a scalar string yields a scalar byte/code-point string. -/
theorem quoteBody_scalar (s : Str) (hs : ScalarStr s) : ScalarStr (quoteBody s) := by
  induction s with
  | nil => intro c hc; cases hc
  | cons c t ih =>
    intro x hx
    rcases List.mem_append.mp hx with h | h
    · exact quoteChar_scalar c (hs c (List.mem_cons_self _ _)) x h
    · exact ih (fun y hy => hs y (List.mem_cons_of_mem _ hy)) x h

/-- Decimal digit strings are scalar. -/
theorem natToDec_scalar (n : Nat) : ScalarStr (natToDec n) := by
  intro c hc
  have hall := natToDec_all n
  rw [List.all_eq_true] at hall
  have := hall c hc
  simp only [isDigitCp, Bool.and_eq_true, decide_eq_true_eq] at this
  exact Or.inl (by omega)

/-- The number printer emits a scalar string on canonical inputs. -/
theorem numToText_scalar (q : ℚ) (hq : q.den = 1 ∧ 0 ≤ q.num) :
    ScalarStr (numToText q) := by
  unfold numToText
  rw [if_pos hq.1]
  unfold intToDec
  rw [if_neg (by omega)]
  exact natToDec_scalar _

/-- The serializer of a well-formed value emits a scalar string. -/
theorem stringifyAux_scalar (v : Json) (hw : WfJson v) :
    ∀ b, ScalarStr (stringifyAux b v) := by
  induction v with
  | str s =>
    intro b c hc
    cases b
    · simp only [stringifyAux] at hc
      unfold quoteStr at hc
      rcases List.mem_cons.mp hc with rfl | hc
      · exact Or.inl (by norm_num)
      rcases List.mem_append.mp hc with h | h
      · exact quoteBody_scalar s hw c h
      · have : c = 34 := by simpa using h
        subst this; exact Or.inl (by norm_num)
    · simp [stringifyAux] at hc
  | num q =>
    intro b c hc
    cases b
    · simp only [stringifyAux] at hc
      exact numToText_scalar q hw c hc
    · simp [stringifyAux] at hc
  | jbool bv =>
    intro b c hc
    cases b
    · cases bv <;> simp only [stringifyAux] at hc
      · rw [show strOf "false" = [102, 97, 108, 115, 101] from rfl] at hc
        rcases (by simpa using hc : c = 102 ∨ c = 97 ∨ c = 108 ∨ c = 115 ∨ c = 101) with
          rfl | rfl | rfl | rfl | rfl <;> exact Or.inl (by norm_num)
      · rw [show strOf "true" = [116, 114, 117, 101] from rfl] at hc
        rcases (by simpa using hc : c = 116 ∨ c = 114 ∨ c = 117 ∨ c = 101) with
          rfl | rfl | rfl | rfl <;> exact Or.inl (by norm_num)
    · simp [stringifyAux] at hc
  | null =>
    intro b c hc
    cases b
    · simp only [stringifyAux] at hc
      rw [show strOf "null" = [110, 117, 108, 108] from rfl] at hc
      rcases (by simpa using hc : c = 110 ∨ c = 117 ∨ c = 108) with
        rfl | rfl | rfl <;> exact Or.inl (by norm_num)
    · simp [stringifyAux] at hc
  | arrNil =>
    intro b c hc
    cases b <;> simp only [stringifyAux] at hc
    · rcases (by simpa using hc : c = 91 ∨ c = 93) with rfl | rfl <;>
        exact Or.inl (by norm_num)
    · rcases (by simpa using hc : c = 93) with rfl
      exact Or.inl (by norm_num)
  | arrCons x t ihx iht =>
    intro b c hc
    obtain ⟨hwx, hwt, _⟩ := hw
    cases b <;>
      (simp only [stringifyAux] at hc
       rcases List.mem_cons.mp hc with rfl | hc
       · exact Or.inl (by norm_num)
       · rcases List.mem_append.mp hc with h | h
         · exact ihx hwx false c h
         · exact iht hwt true c h)
  | objNil =>
    intro b c hc
    cases b <;> simp only [stringifyAux] at hc
    · rcases (by simpa using hc : c = 123 ∨ c = 125) with rfl | rfl <;>
        exact Or.inl (by norm_num)
    · rcases (by simpa using hc : c = 125) with rfl
      exact Or.inl (by norm_num)
  | objCons k w t ihw iht =>
    intro b c hc
    obtain ⟨hk, hww, hwt, _, _⟩ := hw
    cases b <;>
      (simp only [stringifyAux] at hc
       rcases List.mem_cons.mp hc with rfl | hc
       · exact Or.inl (by norm_num)
       · rcases List.mem_append.mp hc with h | h
         · rcases List.mem_cons.mp h with rfl | h
           · exact Or.inl (by norm_num)
           rcases List.mem_append.mp h with h2 | h2
           · exact quoteBody_scalar k hk c h2
           · have : c = 34 := by simpa using h2
             subst this; exact Or.inl (by norm_num)
         · rcases List.mem_cons.mp h with rfl | h
           · exact Or.inl (by norm_num)
           rcases List.mem_append.mp h with h2 | h2
           · exact ihw hww false c h2
           · exact iht hwt true c h2)

/-! ## Round-trip machinery, part 9: the encoder's header object -/

/-- Folding metadata assignment over stable, proto-free keys appends. -/
theorem foldl_jsAssignStr (l : List (Str × Str)) :
    ∀ acc : List (Str × Json),
      StableKeys (acc ++ l.map (fun kv => (kv.1, Json.str kv.2))) →
      (∀ kv ∈ l, kv.1 ≠ strOf "__proto__") →
      l.foldl (fun acc kv => jsAssign acc kv.1 (Json.str kv.2)) acc
        = acc ++ l.map (fun kv => (kv.1, Json.str kv.2)) := by
  induction l with
  | nil => intro acc _ _; simp
  | cons kv t ih =>
    intro acc h hp
    obtain ⟨k, v⟩ := kv
    have hfresh : alookup k acc = none := by
      rw [alookup_eq_none_iff]
      intro hmem
      have hn := h.1
      rw [List.map_append] at hn
      rcases List.nodup_append.mp hn with ⟨_, _, hdis⟩
      exact hdis hmem (by simp)
    have hidx : isArrayIndexKey k = false := h.2 (k, Json.str v) (by simp)
    simp only [List.foldl_cons]
    rw [show jsAssign acc k (Json.str v) = acc ++ [(k, Json.str v)] from by
      unfold jsAssign
      rw [if_neg (hp (k, v) (by simp))]
      exact jsPropInsert_append k _ acc hfresh hidx]
    rw [ih (acc ++ [(k, Json.str v)]) (by simpa [List.append_assoc] using h)
      (fun kv hkv => hp kv (by simp [hkv]))]
    simp

/-- The metadata header entry the encoder produces on canonical metadata. -/
def mdPart (m : TensorMapData) : List (Str × Json) :=
  if m.metadata.isEmpty then []
  else [(strOf "__metadata__",
    objOfList (m.metadata.map (fun kv => (kv.1, Json.str kv.2))))]

/-- First components survive the metadata value map. -/
theorem map_fst_strMap (l : List (Str × Str)) :
    (l.map (fun kv => (kv.1, Json.str kv.2))).map Prod.fst = l.map Prod.fst := by
  induction l with
  | nil => rfl
  | cons kv t ih => simp [ih]

/-- `setMetadata` on canonical metadata produces exactly `mdPart`. -/
theorem setMetadataHdr_stable (m : TensorMapData)
    (hnd : (m.metadata.map Prod.fst).Nodup)
    (hks : ∀ kv ∈ m.metadata, isArrayIndexKey kv.1 = false ∧ kv.1 ≠ strOf "__proto__") :
    setMetadataHdr m = mdPart m := by
  unfold setMetadataHdr mdPart
  have hfold : m.metadata.foldl (fun acc kv => jsAssign acc kv.1 (Json.str kv.2)) []
      = m.metadata.map (fun kv => (kv.1, Json.str kv.2)) := by
    rw [foldl_jsAssignStr m.metadata [] ?_ (fun kv hkv => (hks kv hkv).2)]
    · simp
    · constructor
      · rw [List.nil_append, map_fst_strMap]
        exact hnd
      · intro kv hkv
        rw [List.nil_append, List.mem_map] at hkv
        obtain ⟨p, hp, rfl⟩ := hkv
        exact (hks p hp).1
  rw [hfold]
  by_cases he : m.metadata.isEmpty
  · rw [if_pos he, if_pos he]
  · rw [if_neg he, if_neg he]
    rw [show jsAssign [] (strOf "__metadata__")
          (objOfList (m.metadata.map fun kv => (kv.1, Json.str kv.2)))
        = [(strOf "__metadata__",
            objOfList (m.metadata.map fun kv => (kv.1, Json.str kv.2)))] from by
      unfold jsAssign
      rw [if_neg (by decide)]
      exact jsPropInsert_append _ _ [] rfl (by decide)]

/-- The canonical containers the amended round-trip covers: unique,
non-numeric, non-reserved scalar names that match each tensor's own `name`,
nonempty scalar formats, nonempty byte payloads, and canonical metadata. -/
def CanonicalMap (m : TensorMapData) : Prop :=
  (m.refs.map Prod.fst).Nodup ∧
  (∀ kv ∈ m.refs, kv.2.name = kv.1 ∧ ScalarStr kv.1 ∧ isArrayIndexKey kv.1 = false ∧
    kv.1 ≠ strOf "__metadata__" ∧ kv.1 ≠ strOf "__proto__" ∧
    kv.2.format ≠ [] ∧ ScalarStr kv.2.format ∧ 1 ≤ kv.2.bytes.length) ∧
  (m.metadata.map Prod.fst).Nodup ∧
  (∀ kv ∈ m.metadata, ScalarStr kv.1 ∧ isArrayIndexKey kv.1 = false ∧
    kv.1 ≠ strOf "__proto__" ∧ ScalarStr kv.2)

/-- The header property list the encoder assembles. -/
def hdrEntriesOf (m : TensorMapData) : List (Str × Json) :=
  mdPart m ++ hdrEntriesN m.refs 0

/-- The serialized (UTF-8) header text. -/
def headerBytesOf (m : TensorMapData) : List Nat :=
  utf8Encode (jsonStringify (objOfList (hdrEntriesOf m)))

/-- Members of the generated tensor entries. -/
theorem hdrEntriesN_mem (tes : List (Str × TensorRefData)) :
    ∀ off kv, kv ∈ hdrEntriesN tes off →
      ∃ n t o, kv = (n, hdrEntryOf t ((o : ℕ) : ℤ)) ∧ (n, t) ∈ tes := by
  induction tes with
  | nil => intro off kv h; cases h
  | cons hd rest ih =>
    intro off kv h
    obtain ⟨n, t⟩ := hd
    rcases List.mem_cons.mp h with rfl | h
    · exact ⟨n, t, off, rfl, List.mem_cons_self _ _⟩
    · obtain ⟨n2, t2, o2, heq, hm⟩ := ih _ kv h
      exact ⟨n2, t2, o2, heq, List.mem_cons_of_mem _ hm⟩

/-- The assembled header property list has stable keys. -/
theorem stableKeys_hdrEntriesOf (m : TensorMapData) (hc : CanonicalMap m) :
    StableKeys (hdrEntriesOf m) := by
  obtain ⟨hnd, hrefs, hmnd, hmeta⟩ := hc
  constructor
  · unfold hdrEntriesOf
    rw [List.map_append, hdrEntriesN_keys]
    rw [List.nodup_append]
    refine ⟨?_, hnd, ?_⟩
    · unfold mdPart
      split
      · exact List.nodup_nil
      · simp
    · intro k hk
      unfold mdPart at hk
      split at hk
      · cases hk
      · have : k = strOf "__metadata__" := by simpa using hk
        subst this
        intro hmem
        rw [List.mem_map] at hmem
        obtain ⟨kv, hkv, hfst⟩ := hmem
        exact (hrefs kv hkv).2.2.2.1 hfst
  · intro kv hkv
    unfold hdrEntriesOf at hkv
    rcases List.mem_append.mp hkv with h | h
    · unfold mdPart at h
      split at h
      · cases h
      · have : kv = (strOf "__metadata__",
            objOfList (m.metadata.map fun p => (p.1, Json.str p.2))) := by simpa using h
        rw [this]
        show isArrayIndexKey (strOf "__metadata__") = false
        decide
    · obtain ⟨n, t, o, rfl, hm⟩ := hdrEntriesN_mem m.refs 0 kv h
      exact (hrefs (n, t) hm).2.2.1

/-- The assembled header object is well formed. -/
theorem wf_hdrEntriesOf (m : TensorMapData) (hc : CanonicalMap m) :
    WfJson (objOfList (hdrEntriesOf m)) := by
  refine wfObjOfList _ ?_ (stableKeys_hdrEntriesOf m hc)
  obtain ⟨hnd, hrefs, hmnd, hmeta⟩ := hc
  intro kv hkv
  rcases List.mem_append.mp hkv with h | h
  · unfold mdPart at h
    split at h
    · cases h
    · have : kv = (strOf "__metadata__",
          objOfList (m.metadata.map fun p => (p.1, Json.str p.2))) := by simpa using h
      rw [this]
      refine ⟨show ScalarStr (strOf "__metadata__") by decide, ?_⟩
      refine wfObjOfList _ ?_ ?_
      · intro p hp
        rw [List.mem_map] at hp
        obtain ⟨q, hq, rfl⟩ := hp
        exact ⟨(hmeta q hq).1, (hmeta q hq).2.2.2⟩
      · constructor
        · rw [map_fst_strMap]
          exact hmnd
        · intro p hp
          rw [List.mem_map] at hp
          obtain ⟨q, hq, rfl⟩ := hp
          exact (hmeta q hq).2.1
  · obtain ⟨n, t, o, rfl, hm⟩ := hdrEntriesN_mem m.refs 0 kv h
    exact ⟨(hrefs (n, t) hm).2.1, wf_hdrEntryOf t o (hrefs (n, t) hm).2.2.2.2.2.2.1⟩

/-! ## Round-trip machinery, part 10: `writeTensors` on the generated header -/

/-- Reading the recorded end offset back from a well-shaped entry. -/
theorem hdrEndOf_entry (hdr : List (Str × Json)) (name : Str) (fm : Str) (sh : Json)
    (v0 v1 : ℚ)
    (hl : alookup name hdr = some (.objCons (strOf "dtype") (.str fm)
      (.objCons (strOf "shape") sh
        (.objCons (strOf "data_offsets")
          (.arrCons (.num v0) (.arrCons (.num v1) .arrNil)) .objNil)))) :
    hdrEndOf hdr name = some v1 := by
  unfold hdrEndOf
  rw [hl]
  rfl

/-- The `writeTensors` loop succeeds on the generated header and emits each
tensor's bytes followed by its 8-alignment space padding. -/
theorem writeTensorsGo_ok (hdr : List (Str × Json)) (tes : List (Str × TensorRefData)) :
    ∀ σ : Nat, σ % 8 = 0 → σ + dataLen tes + 7 < 2 ^ 31 →
      (∀ pre name t post, tes = pre ++ (name, t) :: post →
        hdrEndOf hdr name = some ((σ + dataLen pre + t.bytes.length : ℕ) : ℚ)) →
      ∃ chunks, writeTensorsGo hdr tes ((σ : ℕ) : ℤ) = Except.ok chunks ∧
        chunks.flatten = dataBytes tes := by
  induction tes with
  | nil =>
    intro σ _ _ _
    exact ⟨[], rfl, rfl⟩
  | cons kv rest ih =>
    intro σ hσ hbound hends
    obtain ⟨name, t⟩ := kv
    have hpb := padLen8_bounds t.bytes.length
    have hdlc : dataLen ((name, t) :: rest) = padLen8 t.bytes.length + dataLen rest := rfl
    have hend : hdrEndOf hdr name = some ((σ + t.bytes.length : ℕ) : ℚ) := by
      have h := hends [] name t rest rfl
      rw [show σ + dataLen [] + t.bytes.length = σ + t.bytes.length from by
        simp [dataLen]] at h
      exact h
    have hrest : ∀ pre name2 t2 post2, rest = pre ++ (name2, t2) :: post2 →
        hdrEndOf hdr name2
          = some ((σ + padLen8 t.bytes.length + dataLen pre + t2.bytes.length : ℕ) : ℚ) := by
      intro pre name2 t2 post2 heq
      have h := hends ((name, t) :: pre) name2 t2 post2 (by rw [heq]; rfl)
      rw [show σ + dataLen ((name, t) :: pre) + t2.bytes.length
          = σ + padLen8 t.bytes.length + dataLen pre + t2.bytes.length from by
        simp only [dataLen]; omega] at h
      exact h
    obtain ⟨tl, htl, hfl⟩ := ih (σ + padLen8 t.bytes.length)
      (by omega) (by omega) hrest
    by_cases hm : t.bytes.length % 8 = 0
    · refine ⟨t.bytes :: tl, ?_, ?_⟩
      · simp only [writeTensorsGo]
        rw [and32_mod8 t.bytes.length, hm, hend]
        simp only [Nat.cast_zero, ne_eq, not_true_eq_false, if_false]
        rw [show (((σ : ℕ) : ℤ) + ((t.bytes.length : ℕ) : ℤ) : ℤ)
            = ((σ + t.bytes.length : ℕ) : ℤ) from by push_cast; ring]
        rw [show ((σ + t.bytes.length : ℕ) : ℚ) + 7
            = ((((σ + t.bytes.length : ℕ) : ℤ) + 7 : ℤ) : ℚ) from by push_cast; ring]
        rw [ratTrunc_intCast, and32_align (σ + t.bytes.length) (by omega)]
        rw [if_neg (by
          intro hne
          apply hne
          rw [show 8 * ((σ + t.bytes.length + 7) / 8) = σ + t.bytes.length from by omega])]
        rw [show ((σ + t.bytes.length : ℕ) : ℤ)
            = ((σ + padLen8 t.bytes.length : ℕ) : ℤ) from by
          rw [show σ + padLen8 t.bytes.length = σ + t.bytes.length from by
            unfold padLen8; omega]]
        rw [htl]
        rfl
      · show t.bytes ++ tl.flatten = _
        rw [hfl]
        show _ = t.bytes ++ List.replicate (padLen8 t.bytes.length - t.bytes.length) 32
          ++ dataBytes rest
        rw [show padLen8 t.bytes.length - t.bytes.length = 0 from by
          unfold padLen8; omega]
        simp
    · refine ⟨t.bytes :: [List.replicate (8 - t.bytes.length % 8) 32] ++ tl, ?_, ?_⟩
      · simp only [writeTensorsGo]
        rw [and32_mod8 t.bytes.length, hend]
        rw [if_pos (by
          intro h
          rw [show (0 : ℤ) = ((0 : ℕ) : ℤ) from rfl] at h
          exact hm (by exact_mod_cast h))]
        rw [show (8 : ℤ) - ((t.bytes.length % 8 : ℕ) : ℤ)
            = ((8 - t.bytes.length % 8 : ℕ) : ℤ) from by
          have h8 : t.bytes.length % 8 < 8 := Nat.mod_lt _ (by norm_num)
          push_cast [Nat.cast_sub (le_of_lt h8)]
          ring]
        rw [jsSlice_padder (8 - t.bytes.length % 8) (by omega)]
        simp only [ne_eq]
        rw [show (((σ : ℕ) : ℤ) + ((t.bytes.length : ℕ) : ℤ) : ℤ)
            = ((σ + t.bytes.length : ℕ) : ℤ) from by push_cast; ring]
        rw [show ((σ + t.bytes.length : ℕ) : ℚ) + 7
            = ((((σ + t.bytes.length : ℕ) : ℤ) + 7 : ℤ) : ℚ) from by push_cast; ring]
        rw [ratTrunc_intCast, and32_align (σ + t.bytes.length) (by omega)]
        rw [show (((σ + t.bytes.length : ℕ) : ℤ) + ((8 - t.bytes.length % 8 : ℕ) : ℤ) : ℤ)
            = ((σ + padLen8 t.bytes.length : ℕ) : ℤ) from by
          rw [show σ + padLen8 t.bytes.length
              = σ + t.bytes.length + (8 - t.bytes.length % 8) from by
            unfold padLen8; omega]
          push_cast; ring]
        rw [if_neg (by
          intro hne
          apply hne
          rw [show 8 * ((σ + t.bytes.length + 7) / 8) = σ + padLen8 t.bytes.length from by
            unfold padLen8; omega])]
        rw [htl]
        rfl
      · show t.bytes ++ (List.replicate (8 - t.bytes.length % 8) 32 ++ tl.flatten) = _
        rw [hfl]
        show _ = t.bytes ++ List.replicate (padLen8 t.bytes.length - t.bytes.length) 32
          ++ dataBytes rest
        rw [show padLen8 t.bytes.length - t.bytes.length = 8 - t.bytes.length % 8 from by
          unfold padLen8; omega]
        simp

/-- The byte image `saveSafeTensors` produces on a canonical container. -/
def encBytesOf (m : TensorMapData) : List Nat :=
  lenbufOf ((padLen8 (headerBytesOf m).length : ℕ) : ℤ) ++ headerBytesOf m ++
    List.replicate (padLen8 (headerBytesOf m).length - (headerBytesOf m).length) 32 ++
    dataBytes m.refs

/-- Each generated entry's recorded end offset, read back through the
assembled header object. -/
theorem hdrEndOf_hdrEntriesOf (m : TensorMapData) (hc : CanonicalMap m) :
    ∀ pre name t post, m.refs = pre ++ (name, t) :: post →
      hdrEndOf (mdPart m ++ hdrEntriesN m.refs 0) name
        = some ((0 + dataLen pre + t.bytes.length : ℕ) : ℚ) := by
  intro pre name t post heq
  have hnd := hc.1
  have hfacts := hc.2.1 (name, t) (by
    rw [heq]; exact List.mem_append_right _ (List.mem_cons_self _ _))
  have hfresh : name ∉ pre.map Prod.fst := by
    rw [heq, List.map_append] at hnd
    rcases List.nodup_append.mp hnd with ⟨_, _, hdis⟩
    intro hin
    exact hdis hin (by simp)
  have hl : alookup name (mdPart m ++ hdrEntriesN m.refs 0)
      = some (hdrEntryOf t ((0 + dataLen pre : ℕ) : ℤ)) := by
    rw [alookup_append_of_none name _ _ ?_]
    · rw [heq]
      exact alookup_hdrEntriesN pre name t post 0 hfresh
    · unfold mdPart
      split
      · rfl
      · simp only [alookup]
        rw [if_neg (fun h => hfacts.2.2.2.1 h.symm)]
  unfold hdrEntryOf at hl
  have hres := hdrEndOf_entry _ name t.format _ _ _ hl
  rw [hres]
  congr 1

/-- `calcHeader` succeeds below the 100 MiB ceiling and returns the padded
length. -/
theorem calcHeaderOf_ok (m : TensorMapData)
    (hhdr : (headerBytesOf m).length + 7 ≤ 100 * 1024 * 1024) :
    calcHeaderOf (mdPart m ++ hdrEntriesN m.refs 0)
      = Except.ok (headerBytesOf m, ((padLen8 (headerBytesOf m).length : ℕ) : ℤ)) := by
  simp only [calcHeaderOf]
  rw [show utf8Encode (jsonStringify (objOfList (mdPart m ++ hdrEntriesN m.refs 0)))
      = headerBytesOf m from rfl]
  rw [and32_align (headerBytesOf m).length (by omega)]
  rw [show ((8 * (((headerBytesOf m).length + 7) / 8) : ℕ) : ℤ)
      = ((padLen8 (headerBytesOf m).length : ℕ) : ℤ) from by unfold padLen8; rfl]
  rw [if_neg (by
    have hle : padLen8 (headerBytesOf m).length ≤ 100 * 1024 * 1024 := by
      unfold padLen8; omega
    push_cast
    omega)]
  rfl

/-- `saveSafeTensors` on a canonical container under the header-size ceiling
and the 32-bit data-length bound: success, with the exact byte image. -/
theorem saveSafeTensors_ok (m : TensorMapData) (hc : CanonicalMap m)
    (hhdr : (headerBytesOf m).length + 7 ≤ 100 * 1024 * 1024)
    (hdl : dataLen m.refs + 7 < 2 ^ 31) :
    saveSafeTensors m = Except.ok (encBytesOf m) := by
  have hco := calcOffsetGo_stable m.refs 0 (mdPart m)
    (fun kv hkv => ⟨(hc.2.1 kv hkv).2.2.1, (hc.2.1 kv hkv).2.2.2.2.1, by
      unfold mdPart
      split
      · rfl
      · simp only [alookup]
        rw [if_neg (fun h => (hc.2.1 kv hkv).2.2.2.1 h.symm)]⟩)
    hc.1
    (fun kv hkv => by
      have h1 := len_le_dataLen m.refs kv hkv
      omega)
  rw [Nat.cast_zero] at hco
  have hwt := writeTensorsGo_ok (mdPart m ++ hdrEntriesN m.refs 0) m.refs 0
    (by norm_num) (by omega) (hdrEndOf_hdrEntriesOf m hc)
  obtain ⟨tc, htc, hfl⟩ := hwt
  rw [Nat.cast_zero] at htc
  simp only [saveSafeTensors]
  rw [setMetadataHdr_stable m hc.2.2.1
    (fun kv hkv => ⟨(hc.2.2.2 kv hkv).2.1, (hc.2.2.2 kv hkv).2.2.1⟩)]
  simp only [hco]
  rw [calcHeaderOf_ok m hhdr]
  simp only [except_bind_ok]
  rw [htc]
  simp only [except_bind_ok]
  congr 1
  rw [List.flatten_append, hfl]
  unfold writeHeaderChunks encBytesOf
  have hpb := padLen8_bounds (headerBytesOf m).length
  by_cases hm : (headerBytesOf m).length % 8 = 0
  · rw [if_neg (by
      have : padLen8 (headerBytesOf m).length = (headerBytesOf m).length := by
        unfold padLen8; omega
      rw [this]
      omega)]
    rw [show padLen8 (headerBytesOf m).length - (headerBytesOf m).length = 0 from by omega]
    simp [List.append_assoc]
  · rw [if_pos (by
      have : (headerBytesOf m).length < padLen8 (headerBytesOf m).length := by
        unfold padLen8; omega
      exact_mod_cast this)]
    rw [show ((padLen8 (headerBytesOf m).length : ℕ) : ℤ) - ((headerBytesOf m).length : ℤ)
        = ((padLen8 (headerBytesOf m).length - (headerBytesOf m).length : ℕ) : ℤ) from by
      push_cast [Nat.cast_sub hpb.1]
      ring]
    rw [jsSlice_padder (padLen8 (headerBytesOf m).length - (headerBytesOf m).length)
      (by omega)]
    simp [List.append_assoc]

/-! ## Round-trip machinery, part 11: Stage A on the encoded bytes -/

/-- The serialized header opens with `{`. -/
theorem headerBytesOf_head (m : TensorMapData) : ∃ tl, headerBytesOf m = 123 :: tl := by
  unfold headerBytesOf jsonStringify hdrEntriesOf
  rcases mdPart m ++ hdrEntriesN m.refs 0 with _ | ⟨⟨k, v⟩, t⟩
  · exact ⟨[125], rfl⟩
  · exact ⟨_, rfl⟩

/-- In-bounds JS slices with natural indices are take/drop. -/
theorem jsSlice_nat (l : List Nat) (s e : Int) (h0 : 0 ≤ s) (he : 0 ≤ e)
    (h1 : e.toNat ≤ l.length) (h2 : s.toNat ≤ l.length) :
    jsSlice l s e = (l.take e.toNat).drop s.toNat := by
  unfold jsSlice jsSliceIndex
  rw [if_neg (by omega), if_neg (by omega)]
  rw [min_eq_left h1, min_eq_left h2]

/-- Total length of the encoded archive. -/
theorem encBytesOf_length (m : TensorMapData) :
    (encBytesOf m).length
      = 8 + padLen8 (headerBytesOf m).length + dataLen m.refs := by
  have hpb := padLen8_bounds (headerBytesOf m).length
  unfold encBytesOf
  simp only [List.length_append, List.length_replicate, dataBytes_length]
  rw [show (lenbufOf ((padLen8 (headerBytesOf m).length : ℕ) : ℤ)).length = 8 from rfl]
  omega

/-- The four little-endian length bytes recompose to the padded header
length, as the raw-header check reads them. -/
theorem unsafeGetHeaderSize_enc (m : TensorMapData)
    (hP : padLen8 (headerBytesOf m).length < 2 ^ 31) :
    unsafeGetHeaderSize (encBytesOf m)
      = ((padLen8 (headerBytesOf m).length : ℕ) : ℤ) := by
  have hb0 : (encBytesOf m).getD 0 0
      = jsByte ((padLen8 (headerBytesOf m).length : ℕ) : ℤ) 0 := rfl
  have hb1 : (encBytesOf m).getD 1 0
      = jsByte ((padLen8 (headerBytesOf m).length : ℕ) : ℤ) 1 := rfl
  have hb2 : (encBytesOf m).getD 2 0
      = jsByte ((padLen8 (headerBytesOf m).length : ℕ) : ℤ) 2 := rfl
  have hb3 : (encBytesOf m).getD 3 0
      = jsByte ((padLen8 (headerBytesOf m).length : ℕ) : ℤ) 3 := rfl
  unfold unsafeGetHeaderSize
  rw [hb0, hb1, hb2, hb3]
  rw [jsByte_natCast _ 0 hP, jsByte_natCast _ 1 hP, jsByte_natCast _ 2 hP,
    jsByte_natCast _ 3 hP]
  rw [show ((padLen8 (headerBytesOf m).length / 2 ^ (8 * 0) % 256 : ℕ) : ℤ)
        + ((padLen8 (headerBytesOf m).length / 2 ^ (8 * 1) % 256 : ℕ) : ℤ) * 256
        + ((padLen8 (headerBytesOf m).length / 2 ^ (8 * 2) % 256 : ℕ) : ℤ) * 65536
        + ((padLen8 (headerBytesOf m).length / 2 ^ (8 * 3) % 256 : ℕ) : ℤ) * 16777216
      = ((padLen8 (headerBytesOf m).length : ℕ) : ℤ) from by
    push_cast
    omega]
  exact toInt32_small _ hP

/-- Stage A accepts the encoded archive and returns the padded header
length. -/
theorem sanityCheckTensorsHeader_enc (m : TensorMapData)
    (hhdr : (headerBytesOf m).length + 7 ≤ 100 * 1024 * 1024) :
    sanityCheckTensorsHeader false (encBytesOf m) ((encBytesOf m).length : ℤ)
      = Except.ok ((padLen8 (headerBytesOf m).length : ℕ) : ℤ) := by
  obtain ⟨tl, htl⟩ := headerBytesOf_head m
  have hpb := padLen8_bounds (headerBytesOf m).length
  have hL1 : 1 ≤ (headerBytesOf m).length := by rw [htl]; simp
  have hP : padLen8 (headerBytesOf m).length < 2 ^ 31 := by
    unfold padLen8 at hpb ⊢
    omega
  have hlen := encBytesOf_length m
  have hslice : jsSlice (encBytesOf m) 4 9 = [0, 0, 0, 0, 123] := by
    rw [jsSlice_nat (encBytesOf m) 4 9 (by norm_num) (by norm_num)
      (by rw [show (9 : ℤ).toNat = 9 from rfl]; omega)
      (by rw [show (4 : ℤ).toNat = 4 from rfl]; omega)]
    rw [show (9 : ℤ).toNat = 9 from rfl, show (4 : ℤ).toNat = 4 from rfl]
    unfold encBytesOf
    rw [htl]
    rfl
  unfold sanityCheckTensorsHeader
  rw [hslice]
  rw [show arrayCompare [0, 0, 0, 0, 123] [0, 0, 0, 0, 123] = true from rfl]
  simp only [Bool.not_true, Bool.not_false]
  rw [if_neg Bool.false_ne_true]
  rw [unsafeGetHeaderSize_enc m hP]
  rw [if_neg (by
    intro hcon
    have h1 := hcon.1
    push_cast at h1
    omega)]
  rw [if_neg (by
    rw [hlen]
    push_cast
    omega)]
  rfl

/-- Slicing and decoding the header region of the encoded archive yields the
serialized header text plus its space padding, and `JSON.parse` returns the
assembled header object. -/
theorem parseHeaderJson_enc (m : TensorMapData) (hc : CanonicalMap m) :
    jsonParse (utf8Decode (jsSlice (encBytesOf m) 8
        (8 + ((padLen8 (headerBytesOf m).length : ℕ) : ℤ))))
      = some (objOfList (hdrEntriesOf m)) := by
  have hpb := padLen8_bounds (headerBytesOf m).length
  have hslice : jsSlice (encBytesOf m) 8 (8 + ((padLen8 (headerBytesOf m).length : ℕ) : ℤ))
      = headerBytesOf m ++ List.replicate
          (padLen8 (headerBytesOf m).length - (headerBytesOf m).length) 32 := by
    have h := jsSlice_extract (lenbufOf ((padLen8 (headerBytesOf m).length : ℕ) : ℤ))
      (headerBytesOf m ++ List.replicate
        (padLen8 (headerBytesOf m).length - (headerBytesOf m).length) 32)
      (dataBytes m.refs)
    rw [show (lenbufOf ((padLen8 (headerBytesOf m).length : ℕ) : ℤ)).length = 8 from rfl] at h
    have hmidlen : (headerBytesOf m ++ List.replicate
          (padLen8 (headerBytesOf m).length - (headerBytesOf m).length) 32).length
        = padLen8 (headerBytesOf m).length := by
      simp only [List.length_append, List.length_replicate]
      omega
    rw [hmidlen] at h
    push_cast at h
    rw [show encBytesOf m
        = lenbufOf ((padLen8 (headerBytesOf m).length : ℕ) : ℤ)
          ++ (headerBytesOf m ++ List.replicate
              (padLen8 (headerBytesOf m).length - (headerBytesOf m).length) 32)
          ++ dataBytes m.refs from by
      unfold encBytesOf
      simp [List.append_assoc]]
    exact h
  rw [hslice]
  rw [show headerBytesOf m
      = utf8Encode (jsonStringify (objOfList (hdrEntriesOf m))) from rfl]
  rw [utf8Decode_encode_pad _ _
    (show ScalarStr (jsonStringify (objOfList (hdrEntriesOf m))) from
      stringifyAux_scalar _ (wf_hdrEntriesOf m hc) false) (by
    intro b hb
    rw [List.eq_of_mem_replicate hb]
    norm_num)]
  exact jsonParse_stringify _ (wf_hdrEntriesOf m hc) _ (by
    intro c hcmem
    rw [List.eq_of_mem_replicate hcmem]
    rfl)

/-! ## Round-trip machinery, part 12: Stage B accepts the generated header -/

/-- `Object.entries` on a rebuilt object spine. -/
theorem jsEntriesOfVal_objOfList (l : List (Str × Json)) :
    jsEntriesOfVal (objOfList l) = Except.ok l := by
  rcases l with _ | ⟨⟨k, v⟩, t⟩
  · rfl
  · show Except.ok ((k, v) :: objPropsList (objOfList t)) = _
    rw [objPropsList_objOfList]

/-- The metadata check passes when every value is a string. -/
theorem checkMetadataList_str (ii : Bool) (l : List (Str × Json))
    (h : ∀ kv ∈ l, kv.2.isStr = true) : checkMetadataList ii l = Except.ok () := by
  induction l with
  | nil => rfl
  | cons kv t ih =>
    obtain ⟨k, v⟩ := kv
    simp only [checkMetadataList]
    rw [h (k, v) (List.mem_cons_self _ _)]
    simp only [Bool.not_true, Bool.false_and]
    rw [if_neg Bool.false_ne_true]
    exact ih (fun kv hkv => h kv (List.mem_cons_of_mem _ hkv))

/-- The shape-element check passes when every element is numeric. -/
theorem checkShapeElems_num (ii : Bool) (l : List Json)
    (h : ∀ v ∈ l, v.isNum = true) : checkShapeElems ii l = Except.ok () := by
  induction l with
  | nil => rfl
  | cons v t ih =>
    simp only [checkShapeElems]
    rw [h v (List.mem_cons_self _ _)]
    simp only [Bool.not_true, Bool.false_and]
    rw [if_neg Bool.false_ne_true]
    exact ih (fun v hv => h v (List.mem_cons_of_mem _ hv))

/-- Numeric comparison evaluation. -/
theorem jsNumLE_num (a b : ℚ) : jsNumLE (.num a) (.num b) = decide (a ≤ b) := rfl

/-- Strict numeric comparison evaluation. -/
theorem jsNumLT_num (a b : ℚ) : jsNumLT (.num a) (.num b) = decide (a < b) := rfl

/-- The overlap loop passes a fresh range lying at or above every covered
range. -/
theorem checkOverlapAll_fresh (q0 q1 : ℚ) (σ len : Nat)
    (hq0 : q0 = (σ : ℚ)) (hq1 : q1 = ((σ + len : ℕ) : ℚ)) (hlen : 1 ≤ len) :
    ∀ covered : List (Json × Json),
      (∀ p ∈ covered, ∃ sn en : ℕ, p.1 = Json.num ((sn : ℕ) : ℚ) ∧
        p.2 = Json.num ((en : ℕ) : ℚ) ∧ en ≤ σ) →
      checkOverlapAll false (Json.num q0) (Json.num q1) covered = Except.ok () := by
  intro covered
  induction covered with
  | nil => intro _; rfl
  | cons p t ih =>
    intro hcov
    obtain ⟨s, e⟩ := p
    obtain ⟨sn, en, hs, he, hle⟩ := hcov (s, e) (List.mem_cons_self _ _)
    have h1 : ¬(q1 ≤ ((en : ℕ) : ℚ)) := by
      rw [hq1]
      intro hcon
      rw [Nat.cast_le] at hcon
      omega
    have h2 : ¬(q0 < ((en : ℕ) : ℚ)) := by
      rw [hq0]
      intro hcon
      rw [show (σ : ℚ) = ((σ : ℕ) : ℚ) from rfl, Nat.cast_lt] at hcon
      omega
    simp only [checkOverlapAll]
    rw [show s = (s, e).1 from rfl, show e = (s, e).2 from rfl, hs, he]
    simp only [checkTensorOverlap, jsNumLT_num, jsNumLE_num]
    simp only [decide_eq_false h1, decide_eq_false h2, Bool.and_false, Bool.false_and,
      Bool.false_or]
    rw [if_neg Bool.false_ne_true]
    simp only [ih (fun p hp => hcov p (List.mem_cons_of_mem _ hp))]
    rfl

/-- `checkDataOffsets` accepts and appends the fresh in-range pair. -/
theorem checkDataOffsets_entry (cs : Int) (covered : List (Json × Json)) (q0 q1 : ℚ)
    (σ len : Nat)
    (hq0 : q0 = (σ : ℚ)) (hq1 : q1 = ((σ + len : ℕ) : ℚ)) (hlen : 1 ≤ len)
    (hbound : (σ : ℤ) + (len : ℤ) ≤ cs)
    (hcov : ∀ p ∈ covered, ∃ sn en : ℕ, p.1 = Json.num ((sn : ℕ) : ℚ) ∧
      p.2 = Json.num ((en : ℕ) : ℚ) ∧ en ≤ σ) :
    checkDataOffsets false cs covered
        (Json.arrCons (Json.num q0) (Json.arrCons (Json.num q1) Json.arrNil))
      = Except.ok (covered ++ [(Json.num q0, Json.num q1)]) := by
  simp only [checkDataOffsets]
  rw [show ((Json.arrCons (Json.num q0) (Json.arrCons (Json.num q1) Json.arrNil)).isArr
      && ((arrElemsList (Json.arrCons (Json.num q0)
        (Json.arrCons (Json.num q1) Json.arrNil))).length == 2)) = true from rfl]
  simp only [Bool.not_true]
  rw [if_neg Bool.false_ne_true]
  rw [show (arrElemsList (Json.arrCons (Json.num q0) (Json.arrCons (Json.num q1)
      Json.arrNil))).getD 0 Json.null = Json.num q0 from rfl]
  rw [show (arrElemsList (Json.arrCons (Json.num q0) (Json.arrCons (Json.num q1)
      Json.arrNil))).getD 1 Json.null = Json.num q1 from rfl]
  simp only [checkDataOffsetBasics, pairInRange, jsNumLE_num]
  have e1 : (0 : ℚ) ≤ q0 := by rw [hq0]; positivity
  have e2 : q0 ≤ ((cs : ℤ) : ℚ) := by
    rw [hq0]
    have h1 : ((σ : ℕ) : ℤ) ≤ cs := by omega
    exact_mod_cast h1
  have e3 : (0 : ℚ) ≤ q1 := by rw [hq1]; positivity
  have e4 : q1 ≤ ((cs : ℤ) : ℚ) := by
    rw [hq1]
    have h1 : ((σ + len : ℕ) : ℤ) ≤ cs := by push_cast; omega
    exact_mod_cast h1
  have e5 : q0 ≤ q1 := by
    rw [hq0, hq1]
    have h1 : σ ≤ σ + len := by omega
    exact_mod_cast h1
  simp only [decide_eq_true e1, decide_eq_true e2, decide_eq_true e3, decide_eq_true e4,
    decide_eq_true e5, Bool.and_true, Bool.and_self, Bool.not_true, Bool.false_and]
  rw [if_neg Bool.false_ne_true]
  simp only [checkOverlapAll_fresh q0 q1 σ len hq0 hq1 hlen covered hcov]
  rfl

/-- The entry dispatch loop accepts a canonical three-attribute entry and
sets all three presence flags. -/
theorem checkTensorEntries_entry (cs : Int) (covered : List (Json × Json)) (fmt : Str)
    (sh : List Json) (q0 q1 : ℚ) (σ len : Nat)
    (hsh : ∀ v ∈ sh, v.isNum = true)
    (hq0 : q0 = (σ : ℚ)) (hq1 : q1 = ((σ + len : ℕ) : ℚ)) (hlen : 1 ≤ len)
    (hbound : (σ : ℤ) + (len : ℤ) ≤ cs)
    (hcov : ∀ p ∈ covered, ∃ sn en : ℕ, p.1 = Json.num ((sn : ℕ) : ℚ) ∧
      p.2 = Json.num ((en : ℕ) : ℚ) ∧ en ≤ σ) :
    checkTensorEntries false cs
        [(strOf "dtype", Json.str fmt), (strOf "shape", arrOfList sh),
         (strOf "data_offsets",
           Json.arrCons (Json.num q0) (Json.arrCons (Json.num q1) Json.arrNil))]
        covered false false false
      = Except.ok (covered ++ [(Json.num q0, Json.num q1)], true, true, true) := by
  have hshape : checkTensorShape false (arrOfList sh) = Except.ok () := by
    simp only [checkTensorShape]
    rw [isArr_arrOfList, arrElemsList_arrOfList]
    simp only [Bool.not_true, Bool.false_eq_true, if_false]
    rw [checkShapeElems_num false sh hsh]
    rfl
  have hdo := checkDataOffsets_entry cs covered q0 q1 σ len hq0 hq1 hlen hbound hcov
  simp only [checkTensorEntries,
    show attrOk (strOf "dtype") = true from rfl,
    show attrOk (strOf "shape") = true from rfl,
    show attrOk (strOf "data_offsets") = true from rfl,
    show (Json.str fmt).isStr = true from rfl,
    show (strOf "shape" = strOf "dtype") = False from eq_false (by decide),
    show (strOf "shape" = strOf "shape") = True from eq_true rfl,
    show (strOf "data_offsets" = strOf "dtype") = False from eq_false (by decide),
    show (strOf "data_offsets" = strOf "shape") = False from eq_false (by decide),
    eq_self_iff_true, Bool.not_true, Bool.false_eq_true, if_false, if_true,
    hshape, hdo, except_bind_ok, pure_bind]
  rfl

/-- `checkTensorValue` accepts a canonical entry object. -/
theorem checkTensorValue_entry (cs : Int) (covered : List (Json × Json)) (fmt : Str)
    (sh : List Json) (q0 q1 : ℚ) (σ len : Nat)
    (hsh : ∀ v ∈ sh, v.isNum = true)
    (hq0 : q0 = (σ : ℚ)) (hq1 : q1 = ((σ + len : ℕ) : ℚ)) (hlen : 1 ≤ len)
    (hbound : (σ : ℤ) + (len : ℤ) ≤ cs)
    (hcov : ∀ p ∈ covered, ∃ sn en : ℕ, p.1 = Json.num ((sn : ℕ) : ℚ) ∧
      p.2 = Json.num ((en : ℕ) : ℚ) ∧ en ≤ σ) :
    checkTensorValue false cs covered
        (Json.objCons (strOf "dtype") (Json.str fmt)
          (Json.objCons (strOf "shape") (arrOfList sh)
            (Json.objCons (strOf "data_offsets")
              (Json.arrCons (Json.num q0) (Json.arrCons (Json.num q1) Json.arrNil))
              Json.objNil)))
      = Except.ok (covered ++ [(Json.num q0, Json.num q1)]) := by
  have hent := checkTensorEntries_entry cs covered fmt sh q0 q1 σ len hsh hq0 hq1 hlen
    hbound hcov
  simp only [checkTensorValue,
    show jsEntriesOfVal (Json.objCons (strOf "dtype") (Json.str fmt)
      (Json.objCons (strOf "shape") (arrOfList sh)
        (Json.objCons (strOf "data_offsets")
          (Json.arrCons (Json.num q0) (Json.arrCons (Json.num q1) Json.arrNil))
          Json.objNil)))
    = Except.ok [(strOf "dtype", Json.str fmt), (strOf "shape", arrOfList sh),
        (strOf "data_offsets",
          Json.arrCons (Json.num q0) (Json.arrCons (Json.num q1) Json.arrNil))] from rfl,
    hent, except_bind_ok, Bool.not_true, Bool.false_eq_true, if_false]
  rfl

/-- The Stage B entry loop accepts every generated tensor entry. -/
theorem sctpGo_entries (cs : Int) (tes : List (Str × TensorRefData)) :
    ∀ (σ : Nat) (covered : List (Json × Json)),
      (∀ kv ∈ tes, kv.1 ≠ strOf "__metadata__" ∧ 1 ≤ kv.2.bytes.length) →
      ((σ : ℤ) + (dataLen tes : ℤ) ≤ cs) →
      (∀ p ∈ covered, ∃ sn en : ℕ, p.1 = Json.num ((sn : ℕ) : ℚ) ∧
        p.2 = Json.num ((en : ℕ) : ℚ) ∧ en ≤ σ) →
      sctpGo false cs (hdrEntriesN tes σ) covered = Except.ok () := by
  induction tes with
  | nil => intro σ covered _ _ _; rfl
  | cons kv rest ih =>
    intro σ covered hfacts hbound hcov
    obtain ⟨name, t⟩ := kv
    have hpb := padLen8_bounds t.bytes.length
    have hname := (hfacts (name, t) (List.mem_cons_self _ _)).1
    have hlen1 := (hfacts (name, t) (List.mem_cons_self _ _)).2
    simp only [dataLen] at hbound
    push_cast at hbound
    simp only [hdrEntriesN, sctpGo]
    rw [if_neg hname]
    unfold hdrEntryOf
    rw [checkTensorValue_entry cs covered t.format _ _ _ σ t.bytes.length
      (by
        intro v hv
        rw [List.mem_map] at hv
        obtain ⟨d, _, rfl⟩ := hv
        rfl)
      (by push_cast; ring)
      (by push_cast; ring)
      hlen1
      (by omega)
      hcov]
    simp only [except_bind_ok]
    apply ih (σ + padLen8 t.bytes.length)
    · exact fun kv hkv => hfacts kv (List.mem_cons_of_mem _ hkv)
    · push_cast
      omega
    · intro p hp
      rcases List.mem_append.mp hp with h | h
      · obtain ⟨sn, en, h1, h2, h3⟩ := hcov p h
        exact ⟨sn, en, h1, h2, by omega⟩
      · rw [List.mem_singleton] at h
        subst h
        refine ⟨σ, σ + t.bytes.length, ?_, ?_, by omega⟩
        · refine congrArg Json.num ?_
          push_cast
          ring
        · refine congrArg Json.num ?_
          push_cast
          ring

/-- Stage B accepts the assembled header object. -/
theorem sanityCheckTensorsParsed_enc (m : TensorMapData) (hc : CanonicalMap m) (cs : Int)
    (hcs : (dataLen m.refs : ℤ) ≤ cs) :
    sanityCheckTensorsParsed false (objOfList (hdrEntriesOf m)) cs = Except.ok () := by
  have hrest : sctpGo false cs (hdrEntriesN m.refs 0) [] = Except.ok () :=
    sctpGo_entries cs m.refs 0 []
      (fun kv hkv => ⟨(hc.2.1 kv hkv).2.2.2.1, (hc.2.1 kv hkv).2.2.2.2.2.2.2⟩)
      (by push_cast; omega)
      (by intro p hp; cases hp)
  simp only [sanityCheckTensorsParsed]
  rw [jsEntriesOfVal_objOfList]
  simp only [except_bind_ok]
  unfold hdrEntriesOf mdPart
  by_cases he : m.metadata.isEmpty
  · rw [if_pos he]
    rw [show ([] : List (Str × Json)) ++ hdrEntriesN m.refs 0
        = hdrEntriesN m.refs 0 from by simp]
    exact hrest
  · rw [if_neg he]
    rw [List.singleton_append]
    simp only [sctpGo]
    rw [if_pos trivial]
    rw [show checkMetadata false (objOfList (m.metadata.map fun kv => (kv.1, Json.str kv.2)))
        = Except.ok () from by
      simp only [checkMetadata]
      rw [jsEntriesOfVal_objOfList]
      simp only [except_bind_ok]
      exact checkMetadataList_str false _ (by
        intro kv hkv
        rw [List.mem_map] at hkv
        obtain ⟨q, _, rfl⟩ := hkv
        rfl)]
    simp only [except_bind_ok]
    exact hrest

/-! ## Round-trip machinery, part 13: the decoder rebuilds the container -/

/-- Offset extraction from an exact integer-valued number. -/
theorem jsToIntOff_intCast (z : ℤ) : jsToIntOff (Json.num ((z : ℤ) : ℚ)) = z := by
  show ratTrunc ((z : ℤ) : ℚ) = z
  exact ratTrunc_intCast z

/-- Property reads off a canonical tensor entry object. -/
theorem entry_props_dtype (fm : Str) (sh dos : Json) :
    ((alookup (strOf "dtype") (objPropsList (Json.objCons (strOf "dtype") (Json.str fm)
      (Json.objCons (strOf "shape") sh (Json.objCons (strOf "data_offsets") dos
        Json.objNil))))).getD Json.null).asStr = fm := rfl

/-- Shape read off a canonical tensor entry object. -/
theorem entry_props_shape (fm : Str) (sh dos : Json) :
    (alookup (strOf "shape") (objPropsList (Json.objCons (strOf "dtype") (Json.str fm)
      (Json.objCons (strOf "shape") sh (Json.objCons (strOf "data_offsets") dos
        Json.objNil))))).getD Json.null = sh := rfl

/-- Offsets read off a canonical tensor entry object. -/
theorem entry_props_do (fm : Str) (sh dos : Json) :
    (alookup (strOf "data_offsets") (objPropsList (Json.objCons (strOf "dtype")
      (Json.str fm) (Json.objCons (strOf "shape") sh (Json.objCons
        (strOf "data_offsets") dos Json.objNil))))).getD Json.null = dos := rfl

/-- First element of a two-element parsed array. -/
theorem arr2_getD0 (a b : Json) :
    (arrElemsList (Json.arrCons a (Json.arrCons b Json.arrNil))).getD 0 Json.null = a := rfl

/-- Second element of a two-element parsed array. -/
theorem arr2_getD1 (a b : Json) :
    (arrElemsList (Json.arrCons a (Json.arrCons b Json.arrNil))).getD 1 Json.null = b := rfl

/-- Dimensions survive the number/`jsToNat` round trip. -/
theorem map_jsToNat_natCast (l : List Nat) :
    (l.map (fun (d : Nat) => Json.num (d : ℚ))).map jsToNat = l := by
  induction l with
  | nil => rfl
  | cons d t ih =>
    simp only [List.map_cons]
    rw [jsToNat_natCast, ih]

/-- `addTensor(name, bytes, format, shape)` on a fresh name appends. -/
theorem addTensorParts_fresh (m : TensorMapData) (name : Str) (bytes : List Nat)
    (fmt : Str) (shape : List Nat)
    (hfresh : alookup name m.refs = none) (hfmt : fmt ≠ []) :
    m.addTensorParts name bytes fmt shape
      = Except.ok { m with refs := m.refs ++ [(name, ⟨name, bytes, fmt, shape⟩)] } := by
  simp only [TensorMapData.addTensorParts]
  rw [hfresh]
  simp only [Option.isSome_none, Bool.false_eq_true, if_false]
  rw [if_neg hfmt]
  rw [msetEntry_append_of_none name _ m.refs hfresh]
  rfl

/-- The decoder loop over the generated tensor entries rebuilds exactly the
encoded tensors, in order. -/
theorem parseGo_entries (B : List Nat) (hbN : Nat) (tes : List (Str × TensorRefData)) :
    ∀ (σ : Nat) (acc : TensorMapData) (pre post : List Nat),
      B = pre ++ (dataBytes tes ++ post) →
      pre.length = 8 + hbN + σ →
      (tes.map Prod.fst).Nodup →
      (∀ kv ∈ tes, kv.2.name = kv.1 ∧ kv.2.format ≠ [] ∧ kv.1 ≠ strOf "__metadata__") →
      (∀ kv ∈ tes, alookup kv.1 acc.refs = none) →
      parseGo B ((hbN : ℕ) : ℤ) (hdrEntriesN tes σ) acc
        = Except.ok { acc with refs := acc.refs ++ tes } := by
  induction tes with
  | nil =>
    intro σ acc pre post _ _ _ _ _
    show Except.ok acc = _
    congr 1
    cases acc
    simp
  | cons kv rest ih =>
    intro σ acc pre post hB hpre hnd hfacts hfresh
    obtain ⟨name, t⟩ := kv
    have hpb := padLen8_bounds t.bytes.length
    obtain ⟨hnm0, hfmt0, hmd0⟩ := hfacts (name, t) (List.mem_cons_self _ _)
    have hnm : t.name = name := hnm0
    have hfmt : t.format ≠ [] := hfmt0
    have hmd : name ≠ strOf "__metadata__" := hmd0
    have hBassoc : B = (pre ++ t.bytes
        ++ (List.replicate (padLen8 t.bytes.length - t.bytes.length) 32))
        ++ (dataBytes rest ++ post) := by
      rw [hB]
      simp only [dataBytes]
      simp [List.append_assoc]
    have hsl : jsSlice B (8 + ((hbN : ℕ) : ℤ) + ((σ : ℕ) : ℤ))
        (8 + ((hbN : ℕ) : ℤ) + (((σ : ℕ) : ℤ) + ((t.bytes.length : ℕ) : ℤ)))
        = t.bytes := by
      rw [show B = pre ++ t.bytes
          ++ (List.replicate (padLen8 t.bytes.length - t.bytes.length) 32
              ++ (dataBytes rest ++ post)) from by
        rw [hBassoc]
        simp [List.append_assoc]]
      have h := jsSlice_extract pre t.bytes
        (List.replicate (padLen8 t.bytes.length - t.bytes.length) 32
          ++ (dataBytes rest ++ post))
      rw [hpre] at h
      rw [show (8 : ℤ) + ((hbN : ℕ) : ℤ) + ((σ : ℕ) : ℤ) = ((8 + hbN + σ : ℕ) : ℤ) from by
        push_cast; ring]
      rw [show (8 : ℤ) + ((hbN : ℕ) : ℤ) + (((σ : ℕ) : ℤ) + ((t.bytes.length : ℕ) : ℤ))
          = ((8 + hbN + σ : ℕ) : ℤ) + ((t.bytes.length : ℕ) : ℤ) from by
        push_cast; ring]
      exact h
    have hrec : (⟨name, t.bytes, t.format, t.shape⟩ : TensorRefData) = t := by
      rw [← hnm]
    simp only [hdrEntriesN, parseGo]
    rw [if_neg hmd]
    unfold hdrEntryOf
    simp only [entry_props_dtype, entry_props_shape, entry_props_do, arr2_getD0,
      arr2_getD1, jsToIntOff_intCast, arrElemsList_arrOfList, map_jsToNat_natCast]
    rw [hsl]
    rw [addTensorParts_fresh acc name t.bytes t.format t.shape
      (hfresh (name, t) (List.mem_cons_self _ _)) hfmt]
    simp only [except_bind_ok]
    rw [hrec]
    rw [ih (σ + padLen8 t.bytes.length)
      { acc with refs := acc.refs ++ [(name, t)] }
      (pre ++ t.bytes ++ List.replicate (padLen8 t.bytes.length - t.bytes.length) 32)
      post hBassoc
      (by
        simp only [List.length_append, List.length_replicate]
        omega)
      ((List.nodup_cons.mp (by rw [List.map_cons] at hnd; exact hnd)).2)
      (fun kv hkv => hfacts kv (List.mem_cons_of_mem _ hkv))
      (by
        intro kv hkv
        rw [alookup_eq_none_iff]
        simp only [List.map_append, List.map_cons, List.map_nil]
        intro hmem
        rcases List.mem_append.mp hmem with h | h
        · have := hfresh kv (List.mem_cons_of_mem _ hkv)
          rw [alookup_eq_none_iff] at this
          exact this h
        · simp only [List.mem_singleton] at h
          rw [List.map_cons] at hnd
          have hin : kv.1 ∈ rest.map Prod.fst := List.mem_map_of_mem _ hkv
          rw [h] at hin
          exact (List.nodup_cons.mp hnd).1 hin)]
    congr 1
    simp [List.append_assoc]

/-- Metadata survives the string/`asStr` round trip. -/
theorem map_asStr (l : List (Str × Str)) :
    (l.map (fun kv => (kv.1, Json.str kv.2))).map (fun kv => (kv.1, kv.2.asStr)) = l := by
  induction l with
  | nil => rfl
  | cons kv t ih =>
    simp only [List.map_cons]
    rw [ih]
    rfl

/-- `parseSafeTensors` on the encoded archive rebuilds the container. -/
theorem parseSafeTensors_enc (m : TensorMapData) (hc : CanonicalMap m)
    (hhdr : (headerBytesOf m).length + 7 ≤ 100 * 1024 * 1024)
    (hdl : dataLen m.refs + 7 < 2 ^ 31) :
    parseSafeTensors (encBytesOf m) false = Except.ok m := by
  have hpb := padLen8_bounds (headerBytesOf m).length
  have hP : padLen8 (headerBytesOf m).length < 2 ^ 31 := by
    unfold padLen8 at hpb ⊢
    omega
  have hlen := encBytesOf_length m
  have hgo : parseGo (encBytesOf m) ((padLen8 (headerBytesOf m).length : ℕ) : ℤ)
      (hdrEntriesN m.refs 0) { refs := [], metadata := m.metadata }
      = Except.ok m := by
    rw [parseGo_entries (encBytesOf m) (padLen8 (headerBytesOf m).length) m.refs 0
      { refs := [], metadata := m.metadata }
      (lenbufOf ((padLen8 (headerBytesOf m).length : ℕ) : ℤ) ++ headerBytesOf m
        ++ List.replicate
          (padLen8 (headerBytesOf m).length - (headerBytesOf m).length) 32)
      []
      (by
        unfold encBytesOf
        simp [List.append_assoc])
      (by
        simp only [List.length_append, List.length_replicate]
        rw [show (lenbufOf ((padLen8 (headerBytesOf m).length : ℕ) : ℤ)).length = 8
          from rfl]
        omega)
      hc.1
      (fun kv hkv => ⟨(hc.2.1 kv hkv).1, (hc.2.1 kv hkv).2.2.2.2.2.1,
        (hc.2.1 kv hkv).2.2.2.1⟩)
      (fun kv _ => rfl)]
    congr 1
  have hmdgo : parseGo (encBytesOf m) ((padLen8 (headerBytesOf m).length : ℕ) : ℤ)
      (hdrEntriesOf m) {} = Except.ok m := by
    unfold hdrEntriesOf mdPart
    by_cases he : m.metadata.isEmpty
    · rw [if_pos he]
      rw [show ([] : List (Str × Json)) ++ hdrEntriesN m.refs 0
          = hdrEntriesN m.refs 0 from by simp]
      rw [show ({} : TensorMapData) = { refs := [], metadata := m.metadata } from by
        rw [List.isEmpty_iff] at he
        rw [he]]
      exact hgo
    · rw [if_neg he]
      rw [List.singleton_append]
      simp only [parseGo]
      rw [if_pos trivial]
      rw [jsEntriesOfVal_objOfList]
      simp only [except_bind_ok]
      rw [map_asStr]
      exact hgo
  simp only [parseSafeTensors]
  rw [sanityCheckTensorsHeader_enc m hhdr]
  simp only [except_bind_ok]
  rw [unsafeGetHeaderSize_enc m hP]
  rw [parseHeaderJson_enc m hc]
  simp only [except_bind_ok, pure_bind]
  rw [sanityCheckTensorsParsed_enc m hc _ (by
    rw [hlen]
    push_cast
    omega)]
  simp only [except_bind_ok]
  rw [jsEntriesOfVal_objOfList]
  simp only [except_bind_ok]
  exact hmdgo

/-! ## Claims C1 and C2 -/

instance (n : Nat) : Decidable (IsScalar n) := by
  unfold IsScalar
  infer_instance

instance (s : Str) : Decidable (ScalarStr s) := by
  unfold ScalarStr
  infer_instance

instance (m : TensorMapData) : Decidable (CanonicalMap m) := by
  unfold CanonicalMap
  infer_instance

/-- C1 (corrected): the round-trip claim fails for *arbitrary* names — a
tensor named `"__metadata__"` encodes successfully, but the strict decoder
rejects the archive (see `c1_counterexample`); a `"__proto__"`-named tensor
or duplicate/array-index names also break it.  Amended: for every canonical
container (unique, non-array-index, scalar names equal to each tensor's own
`name` and distinct from `"__metadata__"` / `"__proto__"`; nonempty scalar
formats; nonempty payloads; canonical metadata) whose serialized header
respects the 100 MiB ceiling and whose padded data section fits a 32-bit
offset, `saveSafeTensors` succeeds and `parseSafeTensors` with
`lenient = false` returns exactly the original container: same tensor names
in the same order, and per name the same format, shape, and bytes, plus the
same metadata pairs. -/
theorem c1_roundtrip_canonical (m : TensorMapData) (hc : CanonicalMap m)
    (hhdr : (headerBytesOf m).length + 7 ≤ 100 * 1024 * 1024)
    (hdl : dataLen m.refs + 7 < 2 ^ 31) :
    ∃ bytes, saveSafeTensors m = Except.ok bytes ∧
      parseSafeTensors bytes false = Except.ok m :=
  ⟨encBytesOf m, saveSafeTensors_ok m hc hhdr hdl, parseSafeTensors_enc m hc hhdr hdl⟩

/-- A concrete canonical container: one 1-byte `U8` tensor plus one metadata
pair. -/
def c1WM : TensorMapData :=
  { refs := [(strOf "a", ⟨strOf "a", [7], strOf "U8", [1]⟩)],
    metadata := [(strOf "k", strOf "v")] }

/-- C1 witness: the amended round trip holds on the concrete container. -/
theorem c1_roundtrip_canonical_witness :
    ∃ bytes, saveSafeTensors c1WM = Except.ok bytes ∧
      parseSafeTensors bytes false = Except.ok c1WM :=
  c1_roundtrip_canonical c1WM (by decide)
    (by
      rw [show (headerBytesOf c1WM).length = 78 from by with_unfolding_all rfl]
      norm_num)
    (by decide)

/-- A container whose sole tensor is named `"__metadata__"`. -/
def c1CM : TensorMapData :=
  { refs := [(strOf "__metadata__",
      ⟨strOf "__metadata__", [1, 2, 3, 4, 5, 6, 7, 8], strOf "U8", [8]⟩)],
    metadata := [] }

/-- The bytes that container encodes to. -/
def c1CBytes : List Nat :=
  match saveSafeTensors c1CM with
  | .ok b => b
  | .error _ => []

/-- C1 counterexample: a container with a tensor named `"__metadata__"`
encodes fine, but the strict decoder raises (Stage B reads the entry as
metadata and flags its non-string `shape` value), so `decode(encode(c))`
does not succeed for arbitrary names. -/
theorem c1_roundtrip_counterexample :
    ∃ bytes, saveSafeTensors c1CM = Except.ok bytes ∧
      parseSafeTensors bytes false = Except.error JErr.ignorable :=
  ⟨c1CBytes, by with_unfolding_all rfl, by with_unfolding_all rfl⟩

/-- C2 (corrected): byte-exact re-encode does not hold for *every* accepted
archive — the decoder accepts headers padded beyond the minimal 8-byte rule
(see `c2_reencode_counterexample`), which re-encode shrinks.  Amended: on
the encoder's own image — any canonical container under the C1 side
conditions — decode-then-re-encode is byte-for-byte identical. -/
theorem c2_reencode_canonical (m : TensorMapData) (hc : CanonicalMap m)
    (hhdr : (headerBytesOf m).length + 7 ≤ 100 * 1024 * 1024)
    (hdl : dataLen m.refs + 7 < 2 ^ 31) :
    ∃ b, saveSafeTensors m = Except.ok b ∧
      (parseSafeTensors b false).bind saveSafeTensors = Except.ok b := by
  refine ⟨encBytesOf m, saveSafeTensors_ok m hc hhdr hdl, ?_⟩
  rw [parseSafeTensors_enc m hc hhdr hdl]
  show saveSafeTensors m = Except.ok (encBytesOf m)
  exact saveSafeTensors_ok m hc hhdr hdl

/-- A concrete canonical container for the C2 witness. -/
def c2WM : TensorMapData :=
  { refs := [(strOf "w", ⟨strOf "w", [9, 9], strOf "F16", [2]⟩)],
    metadata := [] }

/-- C2 witness: decode-then-re-encode is byte-identical on the concrete
container's encoding. -/
theorem c2_reencode_canonical_witness :
    ∃ b, saveSafeTensors c2WM = Except.ok b ∧
      (parseSafeTensors b false).bind saveSafeTensors = Except.ok b :=
  c2_reencode_canonical c2WM (by decide)
    (by
      rw [show (headerBytesOf c2WM).length = 54 from by with_unfolding_all rfl]
      norm_num)
    (by decide)

/-- A 24-byte archive: header length field 16, header text `{}` padded with
14 spaces, no tensor data. -/
def c2Bytes : List Nat :=
  [16, 0, 0, 0, 0, 0, 0, 0] ++ [123, 125] ++ List.replicate 14 32

/-- What re-encoding the empty container actually produces: 16 bytes. -/
def c2MinBytes : List Nat :=
  [8, 0, 0, 0, 0, 0, 0, 0, 123, 125] ++ List.replicate 6 32

/-- C2 counterexample: the strict decoder accepts the 24-byte over-padded
empty archive, but re-encoding the resulting container emits the minimal
16-byte archive — not byte-identical. -/
theorem c2_reencode_counterexample :
    parseSafeTensors c2Bytes false = Except.ok { refs := [], metadata := [] } ∧
    saveSafeTensors { refs := [], metadata := [] } = Except.ok c2MinBytes ∧
    c2MinBytes ≠ c2Bytes :=
  ⟨by with_unfolding_all rfl, by with_unfolding_all rfl, by decide⟩
